import Mathlib

/-!
# HashMap123: an insertion-ordered open-addressing hash map

Shallow embedding of `src/hash_map.h` (class `HashMap<KeyType, ValueType, Hash>`).

Modelling conventions.

* `std::vector` is a `List`; `v[i]` is `List.getD` and `v[i] = x` is `List.set`.  The invariant
  `Inv` below records the vector lengths; the positions read and written by the operations on
  an invariant state are below these lengths.
* `size_t` values are natural numbers: the arithmetic of the class is on slot counts, far below
  `2^64`.  The `int` temporaries `last`, `prv` and `nxt` of `insert_iterator` and
  `erase_iterator` hold slot positions; they are taken without narrowing, which is exact for
  tables of fewer than `2^31` slots.
* The `long double` products `table_size * 6 / 8` and `table_size * coef` are exact, and their
  conversion to `size_t` truncates: they are natural-number divisions.
* A loop with no static bound takes a `fuel` argument, and so does the recursion between
  `insert` and `rehash`.  `none` means that the call produced no result with that fuel;
  `∀ fuel, f fuel x = none` says that the call never returns.  More fuel never changes a result
  (`insert_mono` and its siblings).  The undefined `hasher(key) % 0` is also `none`.
* The hash functor is a function `K → Nat`.
-/

namespace HashMap123

set_option linter.unusedSectionVars false

/-! ## Data model -/

/-- Slot of the table: `struct Node`, hash_map.h:32-62. -/
structure Node (K V : Type) where
  cell : K × V
  has_created : Bool
  has_deleted : Bool

/-- Order index: `struct Bonds`, hash_map.h:9-30. -/
structure Bonds where
  backward : List Nat
  forward : List Nat

/-- Private state of the class, hash_map.h:78-86, in declaration order. -/
structure HashMap (K V : Type) where
  hash_table : List (Node K V)
  bonds : Bonds
  pos_begin : Nat
  pos_end : Nat
  hasher : K → Nat
  table_size : Nat
  table_capacity : Nat
  cnt_deleted : Nat
  cnt_non_deleted : Nat

/-- The constant `kOriginalSize`, hash_map.h:77. -/
def kOriginalSize : Nat := 8

/-- The constant `kOriginalCapacity`, hash_map.h:77. -/
def kOriginalCapacity : Nat := 6

/-- The call `std::vector::resize(n)`: truncate, or pad with value-initialised elements. -/
def resizeVec {α : Type} (l : List α) (n : Nat) (d : α) : List α :=
  l.take n ++ List.replicate (n - l.length) d

section Defs

variable {K V : Type}

/-- Default constructor `Node()`, hash_map.h:36-39. -/
def Node.empty [Inhabited K] [Inhabited V] : Node K V :=
  ⟨default, false, false⟩

instance instInhabitedNode [Inhabited K] [Inhabited V] : Inhabited (Node K V) :=
  ⟨Node.empty⟩

/-- Constructor `Node(const std::pair<KeyType, ValueType>&)`, hash_map.h:46-49. -/
def Node.ofPair (c : K × V) : Node K V :=
  ⟨c, true, false⟩

/-- Accessor `Node::get_key`, hash_map.h:51-53. -/
def Node.get_key (n : Node K V) : K :=
  n.cell.1

/-- Method `Bonds::resize`, hash_map.h:13-16. -/
def Bonds.resize (b : Bonds) (new_size : Nat) : Bonds :=
  ⟨resizeVec b.backward new_size 0, resizeVec b.forward new_size 0⟩

variable [Inhabited K] [Inhabited V]

/-- Read `hash_table[pos]`. -/
def HashMap.node (m : HashMap K V) (pos : Nat) : Node K V :=
  m.hash_table.getD pos default

/-- Read `bonds.forward[pos]`. -/
def HashMap.fwd (m : HashMap K V) (pos : Nat) : Nat :=
  m.bonds.forward.getD pos 0

/-- Read `bonds.backward[pos]`. -/
def HashMap.bwd (m : HashMap K V) (pos : Nat) : Nat :=
  m.bonds.backward.getD pos 0

/-- Method `inc`, hash_map.h:64-70. -/
def HashMap.inc (m : HashMap K V) (x : Nat) : Nat :=
  if x + 1 = m.table_size then 0 else x + 1

/-- Method `get_hash`, hash_map.h:72-74; `%` by zero is undefined. -/
def HashMap.get_hash (m : HashMap K V) (key : K) : Option Nat :=
  if m.table_size = 0 then none else some (m.hasher key % m.table_size)

/-- Constructor `HashMap(const size_t table_size, Hash hasher)`, hash_map.h:219-225. -/
def HashMap.new (table_size : Nat) (hasher : K → Nat) : HashMap K V where
  hash_table := resizeVec [] table_size default
  bonds := Bonds.resize ⟨[], []⟩ (table_size + 1)
  pos_begin := table_size
  pos_end := table_size
  hasher := hasher
  table_size := table_size
  table_capacity := table_size * kOriginalCapacity / kOriginalSize
  cnt_deleted := 0
  cnt_non_deleted := 0

/-- Constructor `HashMap(Hash hasher)`, hash_map.h:217. -/
def HashMap.default (hasher : K → Nat) : HashMap K V :=
  HashMap.new kOriginalSize hasher

/-- Method `swap`, hash_map.h:363-372: returns the new `*this` and the new `other`.
Every member is exchanged except `hasher`. -/
def HashMap.swap (self other : HashMap K V) : HashMap K V × HashMap K V :=
  (⟨other.hash_table, other.bonds, other.pos_begin, other.pos_end, self.hasher,
      other.table_size, other.table_capacity, other.cnt_deleted, other.cnt_non_deleted⟩,
   ⟨self.hash_table, self.bonds, self.pos_begin, self.pos_end, other.hasher,
      self.table_size, self.table_capacity, self.cnt_deleted, self.cnt_non_deleted⟩)

/-- Method `insert_iterator`, hash_map.h:96-108.  The temporary `int last` is a slot position,
kept as a natural number. -/
def HashMap.insert_iterator (m : HashMap K V) (pos : Nat) : HashMap K V :=
  if m.cnt_non_deleted = 0 then
    let fwd1 := m.bonds.forward.set pos m.pos_end
    let bwd1 := m.bonds.backward.set m.pos_end pos
    ⟨m.hash_table, ⟨bwd1, fwd1⟩, pos, m.pos_end, m.hasher, m.table_size, m.table_capacity,
      m.cnt_deleted, m.cnt_non_deleted⟩
  else
    let last := m.bonds.backward.getD m.pos_end 0
    let fwd1 := m.bonds.forward.set last pos
    let bwd1 := m.bonds.backward.set pos last
    let fwd2 := fwd1.set pos m.pos_end
    let bwd2 := bwd1.set m.pos_end pos
    ⟨m.hash_table, ⟨bwd2, fwd2⟩, m.pos_begin, m.pos_end, m.hasher, m.table_size,
      m.table_capacity, m.cnt_deleted, m.cnt_non_deleted⟩

/-- Method `erase_iterator`, hash_map.h:110-118.  The temporaries `int prv`, `int nxt` are slot
positions, kept as natural numbers. -/
def HashMap.erase_iterator (m : HashMap K V) (pos : Nat) : HashMap K V :=
  if pos = m.pos_begin then
    ⟨m.hash_table, m.bonds, m.bonds.forward.getD pos 0, m.pos_end, m.hasher, m.table_size,
      m.table_capacity, m.cnt_deleted, m.cnt_non_deleted⟩
  else
    let prv := m.bonds.backward.getD pos 0
    let nxt := m.bonds.forward.getD pos 0
    let fwd1 := m.bonds.forward.set prv nxt
    let bwd1 := m.bonds.backward.set nxt prv
    ⟨m.hash_table, ⟨bwd1, fwd1⟩, m.pos_begin, m.pos_end, m.hasher, m.table_size,
      m.table_capacity, m.cnt_deleted, m.cnt_non_deleted⟩

/-- Body of the first branch of the loop of `insert`, hash_map.h:260-262:
`hash_table[pos] = Node(bond); insert_iterator(pos); cnt_non_deleted++`. -/
def HashMap.place (m : HashMap K V) (pos : Nat) (bond : K × V) : HashMap K V :=
  let m1 : HashMap K V :=
    ⟨m.hash_table.set pos (Node.ofPair bond), m.bonds, m.pos_begin, m.pos_end, m.hasher,
      m.table_size, m.table_capacity, m.cnt_deleted, m.cnt_non_deleted⟩
  let m2 := m1.insert_iterator pos
  ⟨m2.hash_table, m2.bonds, m2.pos_begin, m2.pos_end, m2.hasher, m2.table_size,
    m2.table_capacity, m2.cnt_deleted, m2.cnt_non_deleted + 1⟩

/-- Body of the second branch of the loop of `erase`, hash_map.h:279-282:
`hash_table[pos].has_deleted = true; erase_iterator(pos); cnt_non_deleted--; cnt_deleted++`. -/
def HashMap.unlink (m : HashMap K V) (pos : Nat) : HashMap K V :=
  let m1 : HashMap K V :=
    ⟨m.hash_table.set pos ⟨(m.node pos).cell, (m.node pos).has_created, true⟩, m.bonds,
      m.pos_begin, m.pos_end, m.hasher, m.table_size, m.table_capacity, m.cnt_deleted,
      m.cnt_non_deleted⟩
  let m2 := m1.erase_iterator pos
  ⟨m2.hash_table, m2.bonds, m2.pos_begin, m2.pos_end, m2.hasher, m2.table_size,
    m2.table_capacity, m2.cnt_deleted + 1, m2.cnt_non_deleted - 1⟩

variable [DecidableEq K]

/-- Probe loop of `insert`, hash_map.h:258-267, started at `pos`. -/
def HashMap.insertLoop (m : HashMap K V) (bond : K × V) : Nat → Nat → Option (HashMap K V)
  | 0, _ => none
  | fuel + 1, pos =>
    if (m.node pos).has_created = false then
      some (m.place pos bond)
    else if (m.node pos).has_deleted = false ∧ (m.node pos).get_key = bond.1 then
      some m
    else
      HashMap.insertLoop m bond fuel (m.inc pos)

/-- Probe loop of `erase`, hash_map.h:275-285, started at `pos`. -/
def HashMap.eraseLoop (m : HashMap K V) (key : K) : Nat → Nat → Option (HashMap K V)
  | 0, _ => none
  | fuel + 1, pos =>
    if (m.node pos).has_created = false then
      some m
    else if (m.node pos).has_deleted = false ∧ (m.node pos).get_key = key then
      some (m.unlink pos)
    else
      HashMap.eraseLoop m key fuel (m.inc pos)

/-- Probe loop of `find`, hash_map.h:297-303 and 315-321, started at `pos`; an iterator is
represented by its position, `end()` by `pos_end`. -/
def HashMap.findLoop (m : HashMap K V) (key : K) : Nat → Nat → Option Nat
  | 0, _ => none
  | fuel + 1, pos =>
    if (m.node pos).has_created = false then
      some m.pos_end
    else if (m.node pos).has_deleted = false ∧ (m.node pos).get_key = key then
      some pos
    else
      HashMap.findLoop m key fuel (m.inc pos)

/-- The range-for loop of `rehash`, hash_map.h:91-93: walk `src` from position `pos` along
`forward` until `end()`, calling `ins` (the member `insert`) on the map under construction.
The loop of `clear`, hash_map.h:358-360, has the same shape, with `erase(it.first)` for
`ins`. -/
def replay (ins : HashMap K V → K × V → Option (HashMap K V)) (src : HashMap K V) :
    Nat → Nat → HashMap K V → Option (HashMap K V)
  | 0, _, _ => none
  | fuel + 1, pos, cur =>
    if pos = src.pos_end then some cur
    else (ins cur (src.node pos).cell).bind (fun cur1 => replay ins src fuel (src.fwd pos) cur1)

/-- Method `rehash`, hash_map.h:88-94, with the coefficient given as the fraction `num / den`
(`2 = 2/1`, `1 = 1/1`, `0.5 = 1/2`); the new slot count is the truncation of
`table_size * coef`. -/
def rehashWith (ins : HashMap K V → K × V → Option (HashMap K V)) (fuel : Nat)
    (m : HashMap K V) (num den : Nat) : Option (HashMap K V) :=
  let new_map : HashMap K V := HashMap.new (m.table_size * num / den) m.hasher
  let sw := new_map.swap m
  replay ins sw.1 fuel sw.1.pos_begin sw.2

/-- Method `insert`, hash_map.h:249-268. -/
def HashMap.insert : Nat → HashMap K V → K × V → Option (HashMap K V)
  | 0, _, _ => none
  | fuel + 1, m, bond =>
    (if m.cnt_deleted + m.cnt_non_deleted > m.table_capacity then
        rehashWith (HashMap.insert fuel) fuel m 2 1
      else some m).bind fun m1 =>
    (if 2 * (m1.cnt_deleted + m1.cnt_non_deleted) > m1.table_capacity
          ∧ m1.cnt_deleted > m1.cnt_non_deleted then
        rehashWith (HashMap.insert fuel) fuel m1 1 1
      else some m1).bind fun m2 =>
    (m2.get_hash bond.1).bind fun h => m2.insertLoop bond fuel h

/-- Method `rehash` with the member `insert` plugged in. -/
def HashMap.rehash (fuel : Nat) (m : HashMap K V) (num den : Nat) : Option (HashMap K V) :=
  rehashWith (HashMap.insert fuel) fuel m num den

/-- Method `erase`, hash_map.h:270-286. -/
def HashMap.erase (fuel : Nat) (m : HashMap K V) (key : K) : Option (HashMap K V) :=
  (if 4 * m.cnt_non_deleted < m.table_capacity then m.rehash fuel 1 2 else some m).bind fun m1 =>
  (m1.get_hash key).bind fun h => m1.eraseLoop key fuel h

/-- Method `find`, hash_map.h:296-304 and 314-322. -/
def HashMap.find (fuel : Nat) (m : HashMap K V) (key : K) : Option Nat :=
  (m.get_hash key).bind fun h => m.findLoop key fuel h

/-- Method `size`, hash_map.h:324-326. -/
def HashMap.size (m : HashMap K V) : Nat :=
  m.cnt_non_deleted

/-- Method `empty`, hash_map.h:328-330. -/
def HashMap.empty (m : HashMap K V) : Bool :=
  decide (m.cnt_non_deleted = 0)

/-- Outcome of `at`: a value, or the exception `std::out_of_range`. -/
inductive AtResult (V : Type) where
  | value (v : V)
  | out_of_range
  deriving DecidableEq

/-- Method `at`, hash_map.h:346-353. -/
def HashMap.at (fuel : Nat) (m : HashMap K V) (key : K) : Option (AtResult V) :=
  (m.find fuel key).map fun it =>
    if it = m.pos_end then AtResult.out_of_range else AtResult.value (m.node it).cell.2

/-- Forward traversal `for (it = begin(); it != end(); ++it)` collecting `*it`, started at
position `pos` (hash_map.h:143-146, 184-188, 288-294). -/
def HashMap.iterate (m : HashMap K V) : Nat → Nat → Option (List (K × V))
  | 0, _ => none
  | fuel + 1, pos =>
    if pos = m.pos_end then some []
    else (HashMap.iterate m fuel (m.fwd pos)).map fun rest => (m.node pos).cell :: rest

/-- The sequence `begin()..end()`. -/
def HashMap.items (fuel : Nat) (m : HashMap K V) : Option (List (K × V)) :=
  m.iterate fuel m.pos_begin

/-- Range constructor `HashMap(Iterator begin, Iterator end, Hash)`, hash_map.h:227-233, and
through it the initializer-list constructor, hash_map.h:235-236. -/
def HashMap.ofList (fuel : Nat) (l : List (K × V)) (hasher : K → Nat) : Option (HashMap K V) :=
  l.foldlM (fun m bond => HashMap.insert fuel m bond) (HashMap.default hasher)

/-- A call of the public mutating interface. -/
inductive Call (K V : Type) where
  | insert (bond : K × V)
  | erase (key : K)

/-- Apply one call. -/
def HashMap.step (fuel : Nat) (m : HashMap K V) : Call K V → Option (HashMap K V)
  | Call.insert bond => HashMap.insert fuel m bond
  | Call.erase key => HashMap.erase fuel m key

/-- Apply a sequence of calls, left to right. -/
def HashMap.run (fuel : Nat) (m : HashMap K V) (calls : List (Call K V)) : Option (HashMap K V) :=
  calls.foldlM (fun m c => HashMap.step fuel m c) m

/-- Copy constructor `HashMap(const HashMap&)`, hash_map.h:238-247. -/
def HashMap.copy (other : HashMap K V) : HashMap K V :=
  ⟨other.hash_table, other.bonds, other.pos_begin, other.pos_end, other.hasher,
    other.table_size, other.table_capacity, other.cnt_deleted, other.cnt_non_deleted⟩

/-- Method `clear`, hash_map.h:355-361: `save` is a copy of `*this`, and every key met by the
traversal of `save` is erased from `*this`. -/
def HashMap.clear (fuel : Nat) (m : HashMap K V) : Option (HashMap K V) :=
  let save := m.copy
  replay (fun cur bond => HashMap.erase fuel cur bond.1) save fuel save.pos_begin m

/-- Method `operator[]`, hash_map.h:336-344: the value that the returned reference denotes,
and the map after the call. -/
def HashMap.index (fuel : Nat) (m : HashMap K V) (key : K) : Option (V × HashMap K V) :=
  (m.find fuel key).bind fun it =>
    if it = m.pos_end then
      (HashMap.insert fuel m (key, (Inhabited.default : V))).bind fun m1 =>
        (m1.find fuel key).map fun it1 => ((m1.node it1).cell.2, m1)
    else
      some ((m.node it).cell.2, m)

/-- Iterator step `operator--`, hash_map.h:154-163, on positions. -/
def HashMap.prev (m : HashMap K V) (pos : Nat) : Nat :=
  m.bwd pos

/-- Iterator step `operator++`, hash_map.h:143-152, on positions. -/
def HashMap.next (m : HashMap K V) (pos : Nat) : Nat :=
  m.fwd pos

/-- The positions that the traversal `begin()..end()` visits, started at `pos`. -/
def HashMap.slotsFrom (m : HashMap K V) : Nat → Nat → Option (List Nat)
  | 0, _ => none
  | fuel + 1, pos =>
    if pos = m.pos_end then some []
    else (HashMap.slotsFrom m fuel (m.next pos)).map fun rest => pos :: rest

/-- The positions of the traversal `begin()..end()`. -/
def HashMap.slots (fuel : Nat) (m : HashMap K V) : Option (List Nat) :=
  m.slotsFrom fuel m.pos_begin

/-- A call of the public mutating interface, `clear` and `operator[]` included. -/
inductive Op (K V : Type) where
  | insert (bond : K × V)
  | erase (key : K)
  | clear
  | index (key : K)

/-- Apply one call; the value returned by `operator[]` is dropped. -/
def HashMap.apply (fuel : Nat) (m : HashMap K V) : Op K V → Option (HashMap K V)
  | Op.insert bond => HashMap.insert fuel m bond
  | Op.erase key => HashMap.erase fuel m key
  | Op.clear => HashMap.clear fuel m
  | Op.index key => (HashMap.index fuel m key).map Prod.snd

/-- Apply a sequence of calls, left to right. -/
def HashMap.exec (fuel : Nat) (m : HashMap K V) (ops : List (Op K V)) : Option (HashMap K V) :=
  ops.foldlM (fun m c => HashMap.apply fuel m c) m

end Defs

/-! ## Vectors -/

section Vectors

variable {α : Type}

theorem getD_set_self (l : List α) (i : Nat) (a d : α) (h : i < l.length) :
    (l.set i a).getD i d = a := by
  simp [List.getD_eq_getElem?_getD, h]

theorem getD_set_ne (l : List α) {i j : Nat} (a d : α) (h : i ≠ j) :
    (l.set i a).getD j d = l.getD j d := by
  simp [List.getD_eq_getElem?_getD, List.getElem?_set_ne h]

theorem getD_of_le (l : List α) (i : Nat) (d : α) (h : l.length ≤ i) : l.getD i d = d := by
  simp [List.getD_eq_getElem?_getD, List.getElem?_eq_none h]

theorem resizeVec_nil (n : Nat) (d : α) : resizeVec [] n d = List.replicate n d := by
  simp [resizeVec]

theorem getD_replicate (n i : Nat) (d : α) : (List.replicate n d).getD i d = d := by
  by_cases h : i < n
  · simp [List.getD_eq_getElem?_getD, h]
  · simp [List.getD_eq_getElem?_getD, h]

theorem countP_set (p : α → Bool) (l : List α) (i : Nat) (a d : α) (h : i < l.length) :
    (l.set i a).countP p + (if p (l.getD i d) then 1 else 0)
      = l.countP p + (if p a then 1 else 0) := by
  induction l generalizing i with
  | nil => simp at h
  | cons x xs ih =>
    cases i with
    | zero =>
      simp only [List.set_cons_zero, List.countP_cons, List.getD_cons_zero]
      omega
    | succ i =>
      have h2 : i < xs.length := by simpa using h
      have := ih i h2
      simp only [List.set_cons_succ, List.countP_cons, List.getD_cons_succ]
      omega

theorem exists_false_of_countP_lt (p : α → Bool) (l : List α) (d : α)
    (h : l.countP p < l.length) : ∃ i, i < l.length ∧ p (l.getD i d) = false := by
  induction l with
  | nil => simp at h
  | cons x xs ih =>
    by_cases hx : p x = true
    · have h2 : xs.countP p < xs.length := by
        simp only [List.countP_cons, hx, if_true, List.length_cons] at h
        omega
      obtain ⟨i, hi, hp⟩ := ih h2
      exact ⟨i + 1, by simpa using hi, by simpa using hp⟩
    · exact ⟨0, by simp, by simpa using hx⟩

end Vectors

section Probe

variable {K V : Type} [Inhabited K] [Inhabited V]

/-! ## The cyclic successor `inc` -/

theorem inc_lt (m : HashMap K V) {x : Nat} (h : x < m.table_size) : m.inc x < m.table_size := by
  unfold HashMap.inc
  split <;> omega

theorem iter_inc_lt (m : HashMap K V) (j : Nat) {x : Nat} (h : x < m.table_size) :
    (m.inc)^[j] x < m.table_size := by
  induction j with
  | zero => simpa using h
  | succ j ih =>
    rw [Function.iterate_succ_apply']
    exact inc_lt m ih

theorem iter_inc_add (m : HashMap K V) (j x : Nat) (h : x + j < m.table_size) :
    (m.inc)^[j] x = x + j := by
  induction j with
  | zero => simp
  | succ j ih =>
    rw [Function.iterate_succ_apply', ih (by omega)]
    unfold HashMap.inc
    split <;> omega

theorem iter_inc_wrap (m : HashMap K V) (x : Nat) (h : x < m.table_size) :
    (m.inc)^[m.table_size - x] x = 0 := by
  obtain ⟨c, hc⟩ : ∃ c, m.table_size - x = c + 1 := ⟨m.table_size - x - 1, by omega⟩
  rw [hc, Function.iterate_succ_apply', iter_inc_add m c x (by omega)]
  unfold HashMap.inc
  split <;> omega

/-- Every slot is met within `table_size` steps of the probe, from any start. -/
theorem reach_all (m : HashMap K V) {h e : Nat} (hh : h < m.table_size)
    (he : e < m.table_size) : ∃ d, d < m.table_size ∧ (m.inc)^[d] h = e := by
  by_cases hle : h ≤ e
  · exact ⟨e - h, by omega, by rw [iter_inc_add m _ _ (by omega)]; omega⟩
  · refine ⟨e + (m.table_size - h), by omega, ?_⟩
    rw [Function.iterate_add_apply, iter_inc_wrap m h hh, iter_inc_add m _ _ (by omega)]
    omega

/-! ## The probe loop shared by `insert`, `erase` and `find` -/

variable [DecidableEq K]

/-- The probe stops at slot `q`: the slot is Empty, or Occupied with the key looked for. -/
def HashMap.Stops (m : HashMap K V) (key : K) (q : Nat) : Prop :=
  (m.node q).has_created = false ∨ ((m.node q).has_deleted = false ∧ (m.node q).get_key = key)

instance instDecidableStops (m : HashMap K V) (key : K) (q : Nat) : Decidable (m.Stops key q) := by
  unfold HashMap.Stops
  infer_instance

/-- The three probe loops with the exit actions left out: the slot where the probe stops, and
whether that slot has been created. -/
def HashMap.scan (m : HashMap K V) (key : K) : Nat → Nat → Option (Bool × Nat)
  | 0, _ => none
  | fuel + 1, pos =>
    if (m.node pos).has_created = false then
      some (false, pos)
    else if (m.node pos).has_deleted = false ∧ (m.node pos).get_key = key then
      some (true, pos)
    else
      HashMap.scan m key fuel (m.inc pos)

theorem insertLoop_eq_scan (m : HashMap K V) (bond : K × V) (fuel pos : Nat) :
    m.insertLoop bond fuel pos
      = (m.scan bond.1 fuel pos).map fun r => if r.1 = true then m else m.place r.2 bond := by
  induction fuel generalizing pos with
  | zero => rfl
  | succ f ih =>
    unfold HashMap.insertLoop HashMap.scan
    split
    · simp
    · split
      · simp
      · exact ih _

theorem eraseLoop_eq_scan (m : HashMap K V) (key : K) (fuel pos : Nat) :
    m.eraseLoop key fuel pos
      = (m.scan key fuel pos).map fun r => if r.1 = true then m.unlink r.2 else m := by
  induction fuel generalizing pos with
  | zero => rfl
  | succ f ih =>
    unfold HashMap.eraseLoop HashMap.scan
    split
    · simp
    · split
      · simp
      · exact ih _

theorem findLoop_eq_scan (m : HashMap K V) (key : K) (fuel pos : Nat) :
    m.findLoop key fuel pos
      = (m.scan key fuel pos).map fun r => if r.1 = true then r.2 else m.pos_end := by
  induction fuel generalizing pos with
  | zero => rfl
  | succ f ih =>
    unfold HashMap.findLoop HashMap.scan
    split
    · simp
    · split
      · simp
      · exact ih _

/-- The probe returns exactly when it meets a stopping slot within its fuel, and then it
returns the first one on its path. -/
theorem scan_eq_some (m : HashMap K V) (key : K) (fuel pos : Nat) (r : Bool × Nat) :
    m.scan key fuel pos = some r ↔
      ∃ d, d < fuel ∧ (∀ j, j < d → ¬ m.Stops key ((m.inc)^[j] pos))
        ∧ m.Stops key ((m.inc)^[d] pos)
        ∧ r = ((m.node ((m.inc)^[d] pos)).has_created, (m.inc)^[d] pos) := by
  induction fuel generalizing pos with
  | zero => simp [HashMap.scan]
  | succ f ih =>
    by_cases hs : m.Stops key pos
    · have hval : m.scan key (f + 1) pos = some ((m.node pos).has_created, pos) := by
        unfold HashMap.scan
        rcases hs with h1 | h2
        · simp [h1]
        · by_cases hc : (m.node pos).has_created = false
          · simp [hc]
          · have hc2 : (m.node pos).has_created = true := by simpa using hc
            simp [hc2, h2]
      rw [hval]
      constructor
      · intro h
        refine ⟨0, by omega, by intro j hj; omega, by simpa using hs, ?_⟩
        simpa using (Option.some.inj h).symm
      · rintro ⟨d, _, hpass, _, hr⟩
        have hd : d = 0 := by
          by_contra hne
          exact hpass 0 (by omega) (by simpa using hs)
        subst hd
        simp [hr]
    · have hval : m.scan key (f + 1) pos = m.scan key f (m.inc pos) := by
        have h1 : ¬ (m.node pos).has_created = false := fun h => hs (Or.inl h)
        have h2 : ¬ ((m.node pos).has_deleted = false ∧ (m.node pos).get_key = key) :=
          fun h => hs (Or.inr h)
        conv_lhs => unfold HashMap.scan
        simp [h1, h2]
      rw [hval, ih]
      constructor
      · rintro ⟨d, hd, hpass, hstop, hr⟩
        refine ⟨d + 1, by omega, ?_, ?_, ?_⟩
        · intro j hj
          cases j with
          | zero => simpa using hs
          | succ j =>
            rw [Function.iterate_succ_apply]
            exact hpass j (by omega)
        · rw [Function.iterate_succ_apply]; exact hstop
        · rw [Function.iterate_succ_apply]; exact hr
      · rintro ⟨d, hd, hpass, hstop, hr⟩
        cases d with
        | zero => exact absurd (by simpa using hstop) hs
        | succ d =>
          refine ⟨d, by omega, ?_, ?_, ?_⟩
          · intro j hj
            have := hpass (j + 1) (by omega)
            rwa [Function.iterate_succ_apply] at this
          · rwa [Function.iterate_succ_apply] at hstop
          · rwa [Function.iterate_succ_apply] at hr

/-- First stopping slot on a path that has one. -/
theorem first_stop (m : HashMap K V) (key : K) (pos d : Nat)
    (h : m.Stops key ((m.inc)^[d] pos)) :
    ∃ d0, d0 ≤ d ∧ m.Stops key ((m.inc)^[d0] pos)
      ∧ ∀ j, j < d0 → ¬ m.Stops key ((m.inc)^[j] pos) := by
  have hex : ∃ n, m.Stops key ((m.inc)^[n] pos) := ⟨d, h⟩
  exact ⟨Nat.find hex, Nat.find_le h, Nat.find_spec hex, fun j hj => Nat.find_min hex hj⟩

/-- The probe result does not depend on the fuel. -/
theorem scan_unique (m : HashMap K V) (key : K) {f1 f2 pos : Nat} {r1 r2 : Bool × Nat}
    (h1 : m.scan key f1 pos = some r1) (h2 : m.scan key f2 pos = some r2) : r1 = r2 := by
  obtain ⟨d1, _, p1, s1, e1⟩ := (scan_eq_some m key f1 pos r1).1 h1
  obtain ⟨d2, _, p2, s2, e2⟩ := (scan_eq_some m key f2 pos r2).1 h2
  have hd : d1 = d2 := by
    rcases Nat.lt_trichotomy d1 d2 with h | h | h
    · exact absurd s1 (p2 d1 h)
    · exact h
    · exact absurd s2 (p1 d2 h)
  subst hd
  rw [e1, e2]

end Probe

/-! ## The order index as a linked list -/

/-- Starting after `prev`, the links thread the positions `rest` and then the sentinel `e`:
`f` (forward) leads from each position to the next, `b` (backward) leads back. -/
def Tail (f b : Nat → Nat) (e : Nat) : Nat → List Nat → Prop
  | prev, [] => f prev = e ∧ b e = prev
  | prev, p :: rest => f prev = p ∧ b p = prev ∧ Tail f b e p rest

/-- The list of positions `ps` is threaded from `start` to the sentinel `e`.  Nothing is said
of `b` at the first position, nor of `f` at the sentinel. -/
def Chain (f b : Nat → Nat) (e start : Nat) : List Nat → Prop
  | [] => start = e
  | p :: rest => start = p ∧ Tail f b e p rest

theorem Tail.congr {f b f2 b2 : Nat → Nat} {e : Nat} :
    ∀ {prev : Nat} {rest : List Nat}, Tail f b e prev rest →
      (∀ x, x ∈ prev :: rest → f2 x = f x) → (∀ x, x ∈ rest ∨ x = e → b2 x = b x) →
      Tail f2 b2 e prev rest
  | prev, [], h, hf, hb => by
    obtain ⟨h1, h2⟩ := h
    exact ⟨by rw [hf prev (by simp), h1], by rw [hb e (Or.inr rfl), h2]⟩
  | prev, p :: rest, h, hf, hb => by
    obtain ⟨h1, h2, h3⟩ := h
    refine ⟨by rw [hf prev (by simp), h1], by rw [hb p (Or.inl (by simp)), h2], ?_⟩
    refine Tail.congr h3 (fun x hx => hf x (List.mem_cons_of_mem _ hx)) (fun x hx => hb x ?_)
    rcases hx with hx | hx
    · exact Or.inl (List.mem_cons_of_mem _ hx)
    · exact Or.inr hx

theorem Tail.bwd_mem {f b : Nat → Nat} {e : Nat} :
    ∀ {prev : Nat} {rest : List Nat}, Tail f b e prev rest → ∀ x, x ∈ rest → b x ∈ prev :: rest
  | _, [], _, x, hx => by simp at hx
  | prev, p :: rest, h, x, hx => by
    obtain ⟨_, h2, h3⟩ := h
    rcases List.mem_cons.1 hx with hx | hx
    · subst hx; rw [h2]; simp
    · exact List.mem_cons_of_mem _ (Tail.bwd_mem h3 x hx)

theorem Tail.fwd_mem {f b : Nat → Nat} {e : Nat} :
    ∀ {prev : Nat} {rest : List Nat}, Tail f b e prev rest →
      ∀ x, x ∈ prev :: rest → f x ∈ rest ∨ f x = e
  | prev, [], h, x, hx => by
    have : x = prev := by simpa using hx
    subst this
    exact Or.inr h.1
  | prev, p :: rest, h, x, hx => by
    obtain ⟨h1, _, h3⟩ := h
    rcases List.mem_cons.1 hx with hx | hx
    · subst hx; rw [h1]; simp
    · rcases Tail.fwd_mem h3 x hx with h | h
      · exact Or.inl (List.mem_cons_of_mem _ h)
      · exact Or.inr h

theorem Tail.last_mem {f b : Nat → Nat} {e : Nat} :
    ∀ {prev : Nat} {rest : List Nat}, Tail f b e prev rest →
      b e ∈ prev :: rest ∧ (rest ≠ [] → b e ∈ rest)
  | prev, [], h => by
    refine ⟨by rw [h.2]; simp, fun hne => absurd rfl hne⟩
  | prev, p :: rest, h => by
    obtain ⟨_, _, h3⟩ := h
    have := (Tail.last_mem h3).1
    exact ⟨List.mem_cons_of_mem _ this, fun _ => this⟩

/-- Splice of a new position before the sentinel (second branch of `insert_iterator`). -/
theorem Tail.append {f b f2 b2 : Nat → Nat} {e pos : Nat}
    (hf_last : f2 (b e) = pos) (hf_pos : f2 pos = e)
    (hf_other : ∀ x, x ≠ b e → x ≠ pos → f2 x = f x)
    (hb_pos : b2 pos = b e) (hb_e : b2 e = pos)
    (hb_other : ∀ x, x ≠ pos → x ≠ e → b2 x = b x) :
    ∀ {prev : Nat} {rest : List Nat}, Tail f b e prev rest → (prev :: rest).Nodup →
      pos ∉ prev :: rest → e ∉ prev :: rest → Tail f2 b2 e prev (rest ++ [pos])
  | prev, [], h, _, _, _ => by
    obtain ⟨_, h2⟩ := h
    refine ⟨?_, ?_, hf_pos, hb_e⟩
    · rw [← h2]; exact hf_last
    · rw [hb_pos, h2]
  | prev, p :: rest, h, hnd, hpos, he => by
    obtain ⟨h1, h2, h3⟩ := h
    have hnd2 : (p :: rest).Nodup := (List.nodup_cons.1 hnd).2
    have hprev : prev ∉ p :: rest := (List.nodup_cons.1 hnd).1
    have hlast : b e ∈ p :: rest := (Tail.last_mem h3).1
    have hpos2 : pos ∉ p :: rest := fun hx => hpos (List.mem_cons_of_mem _ hx)
    have he2 : e ∉ p :: rest := fun hx => he (List.mem_cons_of_mem _ hx)
    refine ⟨?_, ?_, Tail.append hf_last hf_pos hf_other hb_pos hb_e hb_other h3 hnd2 hpos2 he2⟩
    · rw [hf_other prev (fun hx => hprev (hx ▸ hlast)) (fun hx => hpos (by simp [hx])), h1]
    · rw [hb_other p (fun hx => hpos2 (by simp [hx])) (fun hx => he2 (by simp [hx])), h2]

/-- Removal of a position that is not the first (second branch of `erase_iterator`). -/
theorem Tail.remove {f b f2 b2 : Nat → Nat} {e pos : Nat}
    (hf_prv : f2 (b pos) = f pos) (hf_other : ∀ x, x ≠ b pos → f2 x = f x)
    (hb_nxt : b2 (f pos) = b pos) (hb_other : ∀ x, x ≠ f pos → b2 x = b x) :
    ∀ {prev : Nat} {rest : List Nat}, Tail f b e prev rest → (prev :: rest).Nodup →
      e ∉ prev :: rest → pos ∈ rest → Tail f2 b2 e prev (rest.erase pos)
  | _, [], _, _, _, hmem => by simp at hmem
  | prev, p :: rest, h, hnd, he, hmem => by
    obtain ⟨h1, h2, h3⟩ := h
    have hnd2 : (p :: rest).Nodup := (List.nodup_cons.1 hnd).2
    have hprev : prev ∉ p :: rest := (List.nodup_cons.1 hnd).1
    have he2 : e ∉ p :: rest := fun hx => he (List.mem_cons_of_mem _ hx)
    by_cases hp : p = pos
    · subst hp
      rw [List.erase_cons_head]
      have hp_rest : p ∉ rest := (List.nodup_cons.1 hnd2).1
      cases rest with
      | nil =>
        obtain ⟨h4, h5⟩ := h3
        refine ⟨?_, ?_⟩
        · rw [← h2, hf_prv, h4]
        · rw [← h4, hb_nxt, h2]
      | cons s t =>
        obtain ⟨h4, h5, h6⟩ := h3
        refine ⟨?_, ?_, ?_⟩
        · rw [← h2, hf_prv, h4]
        · rw [← h4, hb_nxt, h2]
        · refine Tail.congr h6 (fun x hx => hf_other x ?_) (fun x hx => hb_other x ?_)
          · rw [h2]; intro hxe; exact hprev (hxe ▸ List.mem_cons_of_mem _ hx)
          · rw [h4]
            have hs : s ∉ t := (List.nodup_cons.1 (List.nodup_cons.1 hnd2).2).1
            rcases hx with hx | hx
            · intro hxe; exact hs (hxe ▸ hx)
            · intro hxe; exact he2 (by rw [← hx, hxe]; simp)
    · have hmem2 : pos ∈ rest := by
        rcases List.mem_cons.1 hmem with hx | hx
        · exact absurd hx.symm hp
        · exact hx
      have hne : ¬ (p == pos) = true := by simpa using hp
      rw [List.erase_cons_tail hne]
      have hprv : b pos ∈ p :: rest := Tail.bwd_mem h3 pos hmem2
      have hnxt : f pos ∈ rest ∨ f pos = e := Tail.fwd_mem h3 pos (List.mem_cons_of_mem _ hmem2)
      refine ⟨?_, ?_, Tail.remove hf_prv hf_other hb_nxt hb_other h3 hnd2 he2 hmem2⟩
      · rw [hf_other prev (fun hx => hprev (hx ▸ hprv)), h1]
      · rw [hb_other p ?_, h2]
        intro hx
        rcases hnxt with h | h
        · exact (List.nodup_cons.1 hnd2).1 (hx ▸ h)
        · exact he2 (by rw [← h, ← hx]; simp)

section Invariant

variable {K V : Type} [Inhabited K] [Inhabited V]

/-! ## Representation invariant -/

/-- Slot state Occupied: created and not deleted. -/
def Node.occ (n : Node K V) : Bool :=
  n.has_created && !n.has_deleted

/-- Slot state Tombstone: created and deleted. -/
def Node.tomb (n : Node K V) : Bool :=
  n.has_created && n.has_deleted

/-- The pairs stored at the positions `ps`, in that order. -/
def HashMap.cells (m : HashMap K V) (ps : List Nat) : List (K × V) :=
  ps.map fun p => (m.node p).cell

/-- Probe contiguity: slot `p` is met by the probe for `key` before any Empty slot. -/
def HashMap.Reach (m : HashMap K V) (key : K) (p : Nat) : Prop :=
  ∃ d, d < m.table_size ∧ (m.inc)^[d] (m.hasher key % m.table_size) = p
    ∧ ∀ j, j < d → (m.node ((m.inc)^[j] (m.hasher key % m.table_size))).has_created = true

/-- Representation invariant; `ps` lists the Occupied slots in iteration order. -/
structure Inv (m : HashMap K V) (ps : List Nat) : Prop where
  len_table : m.hash_table.length = m.table_size
  len_fwd : m.bonds.forward.length = m.table_size + 1
  len_bwd : m.bonds.backward.length = m.table_size + 1
  end_eq : m.pos_end = m.table_size
  cap_eq : m.table_capacity = m.table_size * kOriginalCapacity / kOriginalSize
  cnt_occ : m.cnt_non_deleted = m.hash_table.countP Node.occ
  cnt_tomb : m.cnt_deleted = m.hash_table.countP Node.tomb
  cnt_len : m.cnt_non_deleted = ps.length
  mem_iff : ∀ p, p ∈ ps ↔ (m.node p).occ = true
  chain : Chain m.fwd m.bwd m.table_size m.pos_begin ps
  keys : ((m.cells ps).map Prod.fst).Nodup
  contig : ∀ p, p ∈ ps → m.Reach (m.node p).get_key p

theorem node_of_le (m : HashMap K V) (p : Nat) (h : m.hash_table.length ≤ p) :
    m.node p = Node.empty := by
  unfold HashMap.node
  rw [getD_of_le _ _ _ h]
  rfl

theorem lt_of_created (m : HashMap K V) (p : Nat) (h : (m.node p).has_created = true) :
    p < m.hash_table.length := by
  by_contra hlt
  rw [node_of_le m p (by omega)] at h
  simp [Node.empty] at h

theorem occ_created {n : Node K V} (h : n.occ = true) : n.has_created = true := by
  unfold Node.occ at h
  simp at h
  exact h.1

theorem occ_not_deleted {n : Node K V} (h : n.occ = true) : n.has_deleted = false := by
  unfold Node.occ at h
  simp at h
  exact h.2

theorem Inv.lt {m : HashMap K V} {ps : List Nat} (h : Inv m ps) {p : Nat} (hp : p ∈ ps) :
    p < m.table_size := by
  rw [← h.len_table]
  exact lt_of_created m p (occ_created ((h.mem_iff p).1 hp))

theorem Inv.nodup {m : HashMap K V} {ps : List Nat} (h : Inv m ps) : ps.Nodup := by
  have := h.keys
  unfold HashMap.cells at this
  rw [List.map_map] at this
  exact List.Nodup.of_map _ this

theorem countP_created (l : List (Node K V)) :
    l.countP (fun n => n.has_created) = l.countP Node.occ + l.countP Node.tomb := by
  induction l with
  | nil => rfl
  | cons x xs ih =>
    obtain ⟨c, hc, hd⟩ := x
    simp only [List.countP_cons, ih, Node.occ, Node.tomb]
    cases hc <;> cases hd <;> simp <;> omega

/-- Below full load the table has an Empty slot. -/
theorem Inv.exists_empty {m : HashMap K V} {ps : List Nat} (h : Inv m ps)
    (hlt : m.cnt_deleted + m.cnt_non_deleted < m.table_size) :
    ∃ e, e < m.table_size ∧ (m.node e).has_created = false := by
  have hc := countP_created m.hash_table
  rw [← h.cnt_occ, ← h.cnt_tomb] at hc
  have : m.hash_table.countP (fun n => n.has_created) < m.hash_table.length := by
    rw [hc, h.len_table]; omega
  obtain ⟨i, hi, hp⟩ := exists_false_of_countP_lt _ _ default this
  exact ⟨i, by rw [← h.len_table]; exact hi, hp⟩

theorem Inv.count_le {m : HashMap K V} {ps : List Nat} (h : Inv m ps) :
    m.cnt_deleted + m.cnt_non_deleted ≤ m.table_size := by
  have hc := countP_created m.hash_table
  rw [← h.cnt_occ, ← h.cnt_tomb] at hc
  have := List.countP_le_length (fun n : Node K V => n.has_created) (l := m.hash_table)
  rw [h.len_table] at this
  omega

/-- The freshly constructed table satisfies the invariant, with no entries. -/
theorem new_inv (n : Nat) (hasher : K → Nat) : Inv (HashMap.new n hasher : HashMap K V) [] := by
  have hnode : ∀ p, (HashMap.new n hasher : HashMap K V).node p = default := by
    intro p
    simp only [HashMap.node, HashMap.new, resizeVec_nil]
    exact getD_replicate n p default
  refine ⟨?_, ?_, ?_, rfl, rfl, ?_, ?_, rfl, ?_, rfl, ?_, ?_⟩
  · simp [HashMap.new, resizeVec_nil]
  · simp [HashMap.new, Bonds.resize, resizeVec_nil]
  · simp [HashMap.new, Bonds.resize, resizeVec_nil]
  · simp only [HashMap.new, resizeVec_nil]
    rw [List.countP_replicate]
    rfl
  · simp only [HashMap.new, resizeVec_nil]
    rw [List.countP_replicate]
    rfl
  · intro p
    rw [hnode p]
    simp [default, Node.empty, Node.occ]
  · simp [HashMap.cells]
  · intro p hp
    simp at hp

end Invariant

section Place

variable {K V : Type} [Inhabited K] [Inhabited V]

/-! ## Filling an Empty slot -/

theorem place_hash_table (m : HashMap K V) (q : Nat) (bond : K × V) :
    (m.place q bond).hash_table = m.hash_table.set q (Node.ofPair bond) := by
  unfold HashMap.place HashMap.insert_iterator; dsimp only; split <;> rfl

theorem place_table_size (m : HashMap K V) (q : Nat) (bond : K × V) :
    (m.place q bond).table_size = m.table_size := by
  unfold HashMap.place HashMap.insert_iterator; dsimp only; split <;> rfl

theorem place_table_capacity (m : HashMap K V) (q : Nat) (bond : K × V) :
    (m.place q bond).table_capacity = m.table_capacity := by
  unfold HashMap.place HashMap.insert_iterator; dsimp only; split <;> rfl

theorem place_pos_end (m : HashMap K V) (q : Nat) (bond : K × V) :
    (m.place q bond).pos_end = m.pos_end := by
  unfold HashMap.place HashMap.insert_iterator; dsimp only; split <;> rfl

theorem place_hasher (m : HashMap K V) (q : Nat) (bond : K × V) :
    (m.place q bond).hasher = m.hasher := by
  unfold HashMap.place HashMap.insert_iterator; dsimp only; split <;> rfl

theorem place_cnt_deleted (m : HashMap K V) (q : Nat) (bond : K × V) :
    (m.place q bond).cnt_deleted = m.cnt_deleted := by
  unfold HashMap.place HashMap.insert_iterator; dsimp only; split <;> rfl

theorem place_cnt_non_deleted (m : HashMap K V) (q : Nat) (bond : K × V) :
    (m.place q bond).cnt_non_deleted = m.cnt_non_deleted + 1 := by
  unfold HashMap.place HashMap.insert_iterator; dsimp only; split <;> rfl

theorem place_inc (m : HashMap K V) (q : Nat) (bond : K × V) :
    (m.place q bond).inc = m.inc := by
  funext x
  simp [HashMap.inc, place_table_size]

theorem place_node_self (m : HashMap K V) (q : Nat) (bond : K × V)
    (hq : q < m.hash_table.length) : (m.place q bond).node q = Node.ofPair bond := by
  unfold HashMap.node
  rw [place_hash_table, getD_set_self _ _ _ _ hq]

theorem place_node_ne (m : HashMap K V) {q p : Nat} (bond : K × V) (h : q ≠ p) :
    (m.place q bond).node p = m.node p := by
  unfold HashMap.node
  rw [place_hash_table, getD_set_ne _ _ _ h]

theorem place_bonds_zero (m : HashMap K V) (q : Nat) (bond : K × V)
    (h : m.cnt_non_deleted = 0) :
    (m.place q bond).bonds.forward = m.bonds.forward.set q m.pos_end
      ∧ (m.place q bond).bonds.backward = m.bonds.backward.set m.pos_end q
      ∧ (m.place q bond).pos_begin = q := by
  unfold HashMap.place HashMap.insert_iterator
  simp [h]

theorem place_bonds_pos (m : HashMap K V) (q : Nat) (bond : K × V)
    (h : m.cnt_non_deleted ≠ 0) :
    (m.place q bond).bonds.forward
        = (m.bonds.forward.set (m.bwd m.pos_end) q).set q m.pos_end
      ∧ (m.place q bond).bonds.backward
        = (m.bonds.backward.set q (m.bwd m.pos_end)).set m.pos_end q
      ∧ (m.place q bond).pos_begin = m.pos_begin := by
  unfold HashMap.place HashMap.insert_iterator HashMap.bwd
  simp [h]

theorem place_chain {m : HashMap K V} {ps : List Nat} (h : Inv m ps) {q : Nat}
    (hq : q < m.table_size) (hqps : q ∉ ps) (bond : K × V) :
    Chain (m.place q bond).fwd (m.place q bond).bwd m.table_size (m.place q bond).pos_begin
      (ps ++ [q]) := by
  have hend := h.end_eq
  have hlf := h.len_fwd
  have hlb := h.len_bwd
  cases ps with
  | nil =>
    have hz : m.cnt_non_deleted = 0 := by simpa using h.cnt_len
    obtain ⟨hf, hb, hbeg⟩ := place_bonds_zero m q bond hz
    refine ⟨hbeg, ?_, ?_⟩
    · unfold HashMap.fwd
      rw [hf, getD_set_self _ _ _ _ (by omega), hend]
    · unfold HashMap.bwd
      rw [hb, hend, getD_set_self _ _ _ _ (by omega)]
  | cons p rest =>
    have hnz : m.cnt_non_deleted ≠ 0 := by
      have := h.cnt_len
      simp at this
      omega
    obtain ⟨hf, hb, hbeg⟩ := place_bonds_pos m q bond hnz
    obtain ⟨hstart, htail⟩ := h.chain
    have hnd := h.nodup
    have he : m.table_size ∉ p :: rest := fun hx => by
      have := h.lt hx
      omega
    have hlast : m.bwd m.table_size ∈ p :: rest := (Tail.last_mem htail).1
    have hlast_lt : m.bwd m.table_size < m.table_size := h.lt hlast
    have hlast_ne : m.bwd m.table_size ≠ q := fun hx => hqps (hx ▸ hlast)
    refine ⟨by rw [hbeg, hstart], ?_⟩
    refine Tail.append ?_ ?_ ?_ ?_ ?_ ?_ htail hnd hqps he
    · unfold HashMap.fwd
      rw [hf, hend, getD_set_ne _ _ _ (Ne.symm hlast_ne),
        getD_set_self _ _ _ _ (by rw [hlf]; omega)]
    · unfold HashMap.fwd
      rw [hf, hend, getD_set_self _ _ _ _ (by rw [List.length_set, hlf]; omega)]
    · intro x hx1 hx2
      unfold HashMap.fwd
      rw [hf, hend, getD_set_ne _ _ _ (Ne.symm hx2), getD_set_ne _ _ _ (Ne.symm hx1)]
    · unfold HashMap.bwd
      rw [hb, hend, getD_set_ne _ _ _ (by omega), getD_set_self _ _ _ _ (by rw [hlb]; omega)]
      rfl
    · unfold HashMap.bwd
      rw [hb, hend, getD_set_self _ _ _ _ (by rw [List.length_set, hlb]; omega)]
    · intro x hx1 hx2
      unfold HashMap.bwd
      rw [hb, hend, getD_set_ne _ _ _ (Ne.symm hx2), getD_set_ne _ _ _ (Ne.symm hx1)]

theorem place_cells {m : HashMap K V} {ps : List Nat} {q : Nat} (hq : q < m.hash_table.length)
    (hqps : q ∉ ps) (bond : K × V) :
    (m.place q bond).cells (ps ++ [q]) = m.cells ps ++ [bond] := by
  unfold HashMap.cells
  rw [List.map_append]
  congr 1
  · apply List.map_congr_left
    intro p hp
    rw [place_node_ne m bond (fun hx : q = p => hqps (hx ▸ hp))]
  · simp [place_node_self m q bond hq, Node.ofPair]

/-- Filling the Empty slot at the end of the probe path of a new key keeps the invariant and
appends the pair to the iteration order. -/
theorem place_inv {m : HashMap K V} {ps : List Nat} (h : Inv m ps) {q : Nat} (bond : K × V)
    (hq : q < m.table_size) (hempty : (m.node q).has_created = false)
    (hkey : bond.1 ∉ (m.cells ps).map Prod.fst) (hreach : m.Reach bond.1 q) :
    Inv (m.place q bond) (ps ++ [q]) := by
  have hqlen : q < m.hash_table.length := by rw [h.len_table]; exact hq
  have hqps : q ∉ ps := by
    intro hx
    have := occ_created ((h.mem_iff q).1 hx)
    rw [hempty] at this
    exact Bool.noConfusion this
  have hocc_old : Node.occ (m.hash_table.getD q default) = false := by
    have : m.hash_table.getD q default = m.node q := rfl
    rw [this]; unfold Node.occ; rw [hempty]; rfl
  have htomb_old : Node.tomb (m.hash_table.getD q default) = false := by
    have : m.hash_table.getD q default = m.node q := rfl
    rw [this]; unfold Node.tomb; rw [hempty]; rfl
  have hcreated : ∀ x, (m.node x).has_created = true →
      ((m.place q bond).node x).has_created = true := by
    intro x hx
    by_cases hxq : q = x
    · subst hxq; rw [place_node_self m q bond hqlen]; rfl
    · rw [place_node_ne m bond hxq]; exact hx
  refine ⟨?_, ?_, ?_, ?_, ?_, ?_, ?_, ?_, ?_, ?_, ?_, ?_⟩
  · rw [place_hash_table, List.length_set, place_table_size, h.len_table]
  · rw [place_table_size, ← h.len_fwd]
    by_cases hz : m.cnt_non_deleted = 0
    · rw [(place_bonds_zero m q bond hz).1, List.length_set]
    · rw [(place_bonds_pos m q bond hz).1, List.length_set, List.length_set]
  · rw [place_table_size, ← h.len_bwd]
    by_cases hz : m.cnt_non_deleted = 0
    · rw [(place_bonds_zero m q bond hz).2.1, List.length_set]
    · rw [(place_bonds_pos m q bond hz).2.1, List.length_set, List.length_set]
  · rw [place_pos_end, place_table_size, h.end_eq]
  · rw [place_table_capacity, place_table_size, h.cap_eq]
  · rw [place_cnt_non_deleted, place_hash_table, h.cnt_occ]
    have := countP_set Node.occ m.hash_table q (Node.ofPair bond) default hqlen
    rw [hocc_old] at this
    simp [Node.occ, Node.ofPair] at this
    simp [Node.occ, Node.ofPair]
    omega
  · rw [place_cnt_deleted, place_hash_table, h.cnt_tomb]
    have := countP_set Node.tomb m.hash_table q (Node.ofPair bond) default hqlen
    rw [htomb_old] at this
    simp [Node.tomb, Node.ofPair] at this
    simp [Node.tomb, Node.ofPair]
    omega
  · rw [place_cnt_non_deleted, h.cnt_len]; simp
  · intro p
    by_cases hpq : q = p
    · subst hpq
      rw [place_node_self m q bond hqlen]
      simp [Node.occ, Node.ofPair]
    · rw [place_node_ne m bond hpq, ← h.mem_iff p]
      simp [Ne.symm hpq]
  · rw [place_table_size]; exact place_chain h hq hqps bond
  · rw [place_cells hqlen hqps, List.map_append]
    refine List.Nodup.append h.keys (by simp) ?_
    intro a ha1 ha2
    have : a = bond.1 := by simpa using ha2
    exact hkey (this ▸ ha1)
  · intro p hp
    rcases List.mem_append.1 hp with hp | hp
    · have hne : q ≠ p := fun hx => hqps (hx ▸ hp)
      rw [place_node_ne m bond hne]
      obtain ⟨d, hd, hpos, hpath⟩ := h.contig p hp
      refine ⟨d, by rw [place_table_size]; exact hd, ?_, ?_⟩
      · rw [place_inc, place_hasher, place_table_size]; exact hpos
      · intro j hj
        rw [place_inc, place_hasher, place_table_size]
        exact hcreated _ (hpath j hj)
    · have hpq : p = q := by simpa using hp
      subst hpq
      rw [place_node_self m p bond hqlen]
      obtain ⟨d, hd, hpos, hpath⟩ := hreach
      refine ⟨d, by rw [place_table_size]; exact hd, ?_, ?_⟩
      · rw [place_inc, place_hasher, place_table_size]; exact hpos
      · intro j hj
        rw [place_inc, place_hasher, place_table_size]
        exact hcreated _ (hpath j hj)

end Place

section Unlink

variable {K V : Type} [Inhabited K] [Inhabited V]

/-! ## Turning an Occupied slot into a Tombstone -/

theorem unlink_hash_table (m : HashMap K V) (p : Nat) :
    (m.unlink p).hash_table
      = m.hash_table.set p ⟨(m.node p).cell, (m.node p).has_created, true⟩ := by
  unfold HashMap.unlink HashMap.erase_iterator; dsimp only; split <;> rfl

theorem unlink_table_size (m : HashMap K V) (p : Nat) :
    (m.unlink p).table_size = m.table_size := by
  unfold HashMap.unlink HashMap.erase_iterator; dsimp only; split <;> rfl

theorem unlink_table_capacity (m : HashMap K V) (p : Nat) :
    (m.unlink p).table_capacity = m.table_capacity := by
  unfold HashMap.unlink HashMap.erase_iterator; dsimp only; split <;> rfl

theorem unlink_pos_end (m : HashMap K V) (p : Nat) : (m.unlink p).pos_end = m.pos_end := by
  unfold HashMap.unlink HashMap.erase_iterator; dsimp only; split <;> rfl

theorem unlink_hasher (m : HashMap K V) (p : Nat) : (m.unlink p).hasher = m.hasher := by
  unfold HashMap.unlink HashMap.erase_iterator; dsimp only; split <;> rfl

theorem unlink_cnt_deleted (m : HashMap K V) (p : Nat) :
    (m.unlink p).cnt_deleted = m.cnt_deleted + 1 := by
  unfold HashMap.unlink HashMap.erase_iterator; dsimp only; split <;> rfl

theorem unlink_cnt_non_deleted (m : HashMap K V) (p : Nat) :
    (m.unlink p).cnt_non_deleted = m.cnt_non_deleted - 1 := by
  unfold HashMap.unlink HashMap.erase_iterator; dsimp only; split <;> rfl

theorem unlink_inc (m : HashMap K V) (p : Nat) : (m.unlink p).inc = m.inc := by
  funext x
  simp [HashMap.inc, unlink_table_size]

theorem unlink_node_self (m : HashMap K V) (p : Nat) (hp : p < m.hash_table.length) :
    (m.unlink p).node p = ⟨(m.node p).cell, (m.node p).has_created, true⟩ := by
  unfold HashMap.node
  rw [unlink_hash_table, getD_set_self _ _ _ _ hp]
  rfl

theorem unlink_node_ne (m : HashMap K V) {p x : Nat} (h : p ≠ x) :
    (m.unlink p).node x = m.node x := by
  unfold HashMap.node
  rw [unlink_hash_table, getD_set_ne _ _ _ h]

theorem unlink_bonds_first (m : HashMap K V) (p : Nat) (h : p = m.pos_begin) :
    (m.unlink p).bonds = m.bonds ∧ (m.unlink p).pos_begin = m.fwd p := by
  unfold HashMap.unlink HashMap.erase_iterator HashMap.fwd
  simp [h]

theorem unlink_bonds_other (m : HashMap K V) (p : Nat) (h : p ≠ m.pos_begin) :
    (m.unlink p).bonds.forward = m.bonds.forward.set (m.bwd p) (m.fwd p)
      ∧ (m.unlink p).bonds.backward = m.bonds.backward.set (m.fwd p) (m.bwd p)
      ∧ (m.unlink p).pos_begin = m.pos_begin := by
  unfold HashMap.unlink HashMap.erase_iterator HashMap.fwd HashMap.bwd
  simp [h]

theorem unlink_chain {m : HashMap K V} {ps : List Nat} (h : Inv m ps) {p : Nat}
    (hp : p ∈ ps) :
    Chain (m.unlink p).fwd (m.unlink p).bwd m.table_size (m.unlink p).pos_begin
      (ps.erase p) := by
  have hlf := h.len_fwd
  have hlb := h.len_bwd
  cases ps with
  | nil => simp at hp
  | cons p0 rest =>
    obtain ⟨hstart, htail⟩ := h.chain
    have hnd := h.nodup
    have he : m.table_size ∉ p0 :: rest := fun hx => by
      have := h.lt hx
      omega
    by_cases hp0 : p0 = p
    · subst hp0
      rw [List.erase_cons_head]
      obtain ⟨hb, hbeg⟩ := unlink_bonds_first m p0 hstart.symm
      have hfwd : (m.unlink p0).fwd = m.fwd := by funext x; unfold HashMap.fwd; rw [hb]
      have hbwd : (m.unlink p0).bwd = m.bwd := by funext x; unfold HashMap.bwd; rw [hb]
      rw [hfwd, hbwd, hbeg]
      cases rest with
      | nil => exact htail.1
      | cons q r => exact ⟨htail.1, htail.2.2⟩
    · have hmem : p ∈ rest := by
        rcases List.mem_cons.1 hp with hx | hx
        · exact absurd hx.symm hp0
        · exact hx
      have hne : ¬ (p0 == p) = true := by simpa using hp0
      rw [List.erase_cons_tail hne]
      have hpb : p ≠ m.pos_begin := by rw [hstart]; exact Ne.symm hp0
      obtain ⟨hf, hb, hbeg⟩ := unlink_bonds_other m p hpb
      have hprv : m.bwd p < m.table_size := h.lt (Tail.bwd_mem htail p hmem)
      have hnxt : m.fwd p ≤ m.table_size := by
        rcases Tail.fwd_mem htail p (List.mem_cons_of_mem _ hmem) with hx | hx
        · exact Nat.le_of_lt (h.lt (List.mem_cons_of_mem _ hx))
        · omega
      refine ⟨by rw [hbeg, hstart], ?_⟩
      refine Tail.remove ?_ ?_ ?_ ?_ htail hnd he hmem
      · show (m.unlink p).bonds.forward.getD (m.bwd p) 0 = m.fwd p
        rw [hf, getD_set_self _ _ _ _ (by omega)]
      · intro x hx
        show (m.unlink p).bonds.forward.getD x 0 = m.fwd x
        rw [hf, getD_set_ne _ _ _ (Ne.symm hx)]
        rfl
      · show (m.unlink p).bonds.backward.getD (m.fwd p) 0 = m.bwd p
        rw [hb, getD_set_self _ _ _ _ (by omega)]
      · intro x hx
        show (m.unlink p).bonds.backward.getD x 0 = m.bwd x
        rw [hb, getD_set_ne _ _ _ (Ne.symm hx)]
        rfl

theorem unlink_cells (m : HashMap K V) {ps : List Nat} {p : Nat} (hp : p ∉ ps) :
    (m.unlink p).cells ps = m.cells ps := by
  unfold HashMap.cells
  apply List.map_congr_left
  intro x hx
  rw [unlink_node_ne m (fun hxe : p = x => hp (hxe ▸ hx))]

/-- Erasing a position from the order list removes the pair of its key, and no other, from
the sequence of pairs. -/
theorem map_erase_eq_filter [DecidableEq K] (g : Nat → K × V) :
    ∀ (l : List Nat) (p : Nat), ((l.map g).map Prod.fst).Nodup → p ∈ l →
      (l.erase p).map g = (l.map g).filter (fun c => decide (c.1 ≠ (g p).1))
  | [], p, _, hp => by simp at hp
  | x :: xs, p, hnd, hp => by
    simp only [List.map_cons, List.nodup_cons] at hnd
    obtain ⟨hx, hnd2⟩ := hnd
    by_cases hxp : x = p
    · subst hxp
      rw [List.erase_cons_head, List.map_cons, List.filter_cons_of_neg (by simp)]
      symm
      rw [List.filter_eq_self]
      intro c hc
      have : c.1 ∈ (xs.map g).map Prod.fst := List.mem_map_of_mem _ hc
      have hne : c.1 ≠ (g x).1 := fun he => hx (he ▸ this)
      simpa using hne
    · have hmem : p ∈ xs := by
        rcases List.mem_cons.1 hp with h | h
        · exact absurd h.symm hxp
        · exact h
      have hne : ¬ (x == p) = true := by simpa using hxp
      have hkey : (g x).1 ≠ (g p).1 := by
        intro he
        apply hx
        rw [he]
        exact List.mem_map_of_mem _ (List.mem_map_of_mem _ hmem)
      rw [List.erase_cons_tail hne, List.map_cons, List.map_cons,
        List.filter_cons_of_pos (by simpa using hkey), map_erase_eq_filter g xs p hnd2 hmem]

/-- Marking an Occupied slot deleted and unsplicing it keeps the invariant. -/
theorem unlink_inv {m : HashMap K V} {ps : List Nat} (h : Inv m ps) {p : Nat} (hp : p ∈ ps) :
    Inv (m.unlink p) (ps.erase p) := by
  have hplt : p < m.table_size := h.lt hp
  have hplen : p < m.hash_table.length := by rw [h.len_table]; exact hplt
  have hocc : (m.node p).occ = true := (h.mem_iff p).1 hp
  have hcr : (m.node p).has_created = true := occ_created hocc
  have hnd := h.nodup
  have hnotmem : p ∉ ps.erase p := fun hx => ((List.Nodup.mem_erase_iff hnd).1 hx).1 rfl
  have hcreated : ∀ x, ((m.unlink p).node x).has_created = (m.node x).has_created := by
    intro x
    by_cases hxp : p = x
    · subst hxp; rw [unlink_node_self m p hplen]
    · rw [unlink_node_ne m hxp]
  have hcnt : 1 ≤ m.cnt_non_deleted := by
    rw [h.cnt_len]
    exact List.length_pos_of_mem hp
  refine ⟨?_, ?_, ?_, ?_, ?_, ?_, ?_, ?_, ?_, ?_, ?_, ?_⟩
  · rw [unlink_hash_table, List.length_set, unlink_table_size, h.len_table]
  · rw [unlink_table_size, ← h.len_fwd]
    by_cases hb : p = m.pos_begin
    · rw [(unlink_bonds_first m p hb).1]
    · rw [(unlink_bonds_other m p hb).1, List.length_set]
  · rw [unlink_table_size, ← h.len_bwd]
    by_cases hb : p = m.pos_begin
    · rw [(unlink_bonds_first m p hb).1]
    · rw [(unlink_bonds_other m p hb).2.1, List.length_set]
  · rw [unlink_pos_end, unlink_table_size, h.end_eq]
  · rw [unlink_table_capacity, unlink_table_size, h.cap_eq]
  · rw [unlink_cnt_non_deleted, unlink_hash_table]
    have := countP_set Node.occ m.hash_table p
      ⟨(m.node p).cell, (m.node p).has_created, true⟩ default hplen
    have hold : Node.occ (m.hash_table.getD p default) = true := hocc
    have hnew : Node.occ (⟨(m.node p).cell, (m.node p).has_created, true⟩ : Node K V)
        = false := by
      simp [Node.occ]
    rw [hold, hnew] at this
    simp only [if_true, Bool.false_eq_true, if_false] at this
    have h2 := h.cnt_occ
    omega
  · rw [unlink_cnt_deleted, unlink_hash_table]
    have := countP_set Node.tomb m.hash_table p
      ⟨(m.node p).cell, (m.node p).has_created, true⟩ default hplen
    have hold : Node.tomb (m.hash_table.getD p default) = false := by
      show (m.node p).tomb = false
      unfold Node.tomb
      rw [occ_not_deleted hocc]
      simp
    have hnew : Node.tomb (⟨(m.node p).cell, (m.node p).has_created, true⟩ : Node K V)
        = true := by
      simp [Node.tomb, hcr]
    rw [hold, hnew] at this
    simp only [if_true, Bool.false_eq_true, if_false] at this
    have h2 := h.cnt_tomb
    omega
  · rw [unlink_cnt_non_deleted, h.cnt_len, List.length_erase_of_mem hp]
  · intro x
    rw [List.Nodup.mem_erase_iff hnd]
    by_cases hxp : p = x
    · subst hxp
      rw [unlink_node_self m p hplen]
      simp [Node.occ]
    · rw [unlink_node_ne m hxp, ← h.mem_iff x]
      simp [Ne.symm hxp]
  · rw [unlink_table_size]; exact unlink_chain h hp
  · rw [unlink_cells m hnotmem]
    have hsub : (ps.erase p).Sublist ps := List.erase_sublist p ps
    exact List.Nodup.sublist ((hsub.map _).map _) h.keys
  · intro x hx
    have hxps : x ∈ ps := List.mem_of_mem_erase hx
    have hne : p ≠ x := fun he => hnotmem (he ▸ hx)
    rw [unlink_node_ne m hne]
    obtain ⟨d, hd, hpos, hpath⟩ := h.contig x hxps
    refine ⟨d, by rw [unlink_table_size]; exact hd, ?_, ?_⟩
    · rw [unlink_inc, unlink_hasher, unlink_table_size]; exact hpos
    · intro j hj
      rw [unlink_inc, unlink_hasher, unlink_table_size, hcreated]
      exact hpath j hj

end Unlink

section Lookup

variable {K V : Type} [Inhabited K] [Inhabited V] [DecidableEq K]

/-! ## What the probe finds in an invariant state -/

theorem scan_mono (m : HashMap K V) (key : K) {f1 f2 pos : Nat} {r : Bool × Nat}
    (h : m.scan key f1 pos = some r) (hle : f1 ≤ f2) : m.scan key f2 pos = some r := by
  obtain ⟨d, hd, rest⟩ := (scan_eq_some m key f1 pos r).1 h
  exact (scan_eq_some m key f2 pos r).2 ⟨d, by omega, rest⟩

theorem Inv.key_inj {m : HashMap K V} {ps : List Nat} (h : Inv m ps) {p q : Nat}
    (hp : p ∈ ps) (hq : q ∈ ps) (hk : (m.node p).get_key = (m.node q).get_key) : p = q := by
  have hnd := h.keys
  unfold HashMap.cells at hnd
  rw [List.map_map] at hnd
  exact List.inj_on_of_nodup_map hnd hp hq hk

theorem Inv.key_mem {m : HashMap K V} {ps : List Nat} (_h : Inv m ps) {key : K} :
    key ∈ (m.cells ps).map Prod.fst ↔ ∃ p, p ∈ ps ∧ (m.node p).get_key = key := by
  unfold HashMap.cells
  rw [List.map_map]
  simp [Node.get_key]

/-- The probe for a live key returns its slot, within `table_size` steps. -/
theorem Inv.scan_hit {m : HashMap K V} {ps : List Nat} (h : Inv m ps) {p : Nat} (hp : p ∈ ps) :
    m.scan (m.node p).get_key m.table_size (m.hasher (m.node p).get_key % m.table_size)
      = some (true, p) := by
  obtain ⟨d, hd, hpos, hpath⟩ := h.contig p hp
  have hocc := (h.mem_iff p).1 hp
  have hstop : m.Stops (m.node p).get_key
      ((m.inc)^[d] (m.hasher (m.node p).get_key % m.table_size)) := by
    rw [hpos]
    exact Or.inr ⟨occ_not_deleted hocc, rfl⟩
  obtain ⟨d0, hd0, hs0, hpass⟩ := first_stop m _ _ d hstop
  refine (scan_eq_some m _ _ _ _).2 ⟨d0, by omega, hpass, hs0, ?_⟩
  rcases Nat.lt_or_ge d0 d with hlt | hge
  · have hcr := hpath d0 hlt
    rcases hs0 with hs | hs
    · rw [hcr] at hs; exact Bool.noConfusion hs
    · have hq : (m.inc)^[d0] (m.hasher (m.node p).get_key % m.table_size) ∈ ps := by
        rw [h.mem_iff]
        unfold Node.occ
        rw [hcr, hs.1]
        rfl
      have := h.key_inj hq hp hs.2
      rw [this, occ_created hocc]
  · have : d0 = d := by omega
    rw [this, hpos, occ_created hocc]

/-- The probe for an absent key can only return an Empty slot, and that slot lies at the end
of a path of created slots. -/
theorem Inv.scan_miss {m : HashMap K V} {ps : List Nat} (h : Inv m ps) {key : K}
    (hts : 0 < m.table_size) (hkey : key ∉ (m.cells ps).map Prod.fst) {fuel : Nat}
    {r : Bool × Nat} (hr : m.scan key fuel (m.hasher key % m.table_size) = some r) :
    r.1 = false ∧ r.2 < m.table_size ∧ (m.node r.2).has_created = false ∧ m.Reach key r.2 := by
  obtain ⟨d, _, hpass, hstop, hval⟩ := (scan_eq_some m key fuel _ r).1 hr
  have hh : m.hasher key % m.table_size < m.table_size := Nat.mod_lt _ hts
  have hq : (m.inc)^[d] (m.hasher key % m.table_size) < m.table_size := iter_inc_lt m d hh
  have hempty : (m.node ((m.inc)^[d] (m.hasher key % m.table_size))).has_created = false := by
    rcases hstop with hs | hs
    · exact hs
    · by_cases hcr : (m.node ((m.inc)^[d] (m.hasher key % m.table_size))).has_created = true
      · exfalso
        apply hkey
        rw [h.key_mem]
        refine ⟨_, ?_, hs.2⟩
        rw [h.mem_iff]
        unfold Node.occ
        rw [hcr, hs.1]
        rfl
      · simpa using hcr
  have hpath : ∀ j, j < d →
      (m.node ((m.inc)^[j] (m.hasher key % m.table_size))).has_created = true := by
    intro j hj
    by_contra hx
    exact hpass j hj (Or.inl (by simpa using hx))
  obtain ⟨d2, hd2, hpos2⟩ := reach_all m hh hq
  have hdlt : d < m.table_size := by
    by_contra hge
    have := hpath d2 (by omega)
    rw [hpos2, hempty] at this
    exact Bool.noConfusion this
  rw [hval]
  exact ⟨hempty, hq, hempty, d, hdlt, rfl, hpath⟩

/-- With an Empty slot in the table every probe returns within `table_size` steps. -/
theorem scan_terminates (m : HashMap K V) (key : K) {e pos : Nat} (he : e < m.table_size)
    (hempty : (m.node e).has_created = false) (hpos : pos < m.table_size) :
    ∃ r, m.scan key m.table_size pos = some r := by
  obtain ⟨d, hd, hreach⟩ := reach_all m hpos he
  have hstop : m.Stops key ((m.inc)^[d] pos) := by rw [hreach]; exact Or.inl hempty
  obtain ⟨d0, hd0, hs0, hpass⟩ := first_stop m key pos d hstop
  exact ⟨_, (scan_eq_some m key _ _ _).2 ⟨d0, by omega, hpass, hs0, rfl⟩⟩

end Lookup

section Traversal

variable {K V : Type} [Inhabited K] [Inhabited V]

/-! ## Traversals along the order index -/

theorem iterate_tail (m : HashMap K V) :
    ∀ (rest : List Nat) (prev fuel : Nat), Tail m.fwd m.bwd m.pos_end prev rest →
      (∀ x, x ∈ rest → x ≠ m.pos_end) →
      m.iterate fuel (m.fwd prev) = if rest.length < fuel then some (m.cells rest) else none
  | [], prev, fuel, h, _ => by
    cases fuel with
    | zero => rfl
    | succ f =>
      unfold HashMap.iterate
      simp [h.1, HashMap.cells]
  | p :: r, prev, fuel, h, hne => by
    cases fuel with
    | zero => rfl
    | succ f =>
      obtain ⟨h1, _, h3⟩ := h
      unfold HashMap.iterate
      rw [h1, if_neg (hne p (by simp)),
        iterate_tail m r p f h3 (fun x hx => hne x (List.mem_cons_of_mem _ hx))]
      by_cases hlt : r.length < f
      · simp [hlt, HashMap.cells]
      · simp [hlt]

/-- In an invariant state the traversal `begin()..end()` returns the stored pairs in the order
of `ps`, as soon as the fuel exceeds their number. -/
theorem Inv.items_eq {m : HashMap K V} {ps : List Nat} (h : Inv m ps) (fuel : Nat) :
    m.items fuel = if ps.length < fuel then some (m.cells ps) else none := by
  have hne : ∀ x, x ∈ ps → x ≠ m.pos_end := fun x hx => by
    have := h.lt hx
    rw [h.end_eq]; omega
  have hchain := h.chain
  rw [← h.end_eq] at hchain
  unfold HashMap.items
  cases ps with
  | nil =>
    cases fuel with
    | zero => rfl
    | succ f =>
      unfold HashMap.iterate
      have hb : m.pos_begin = m.pos_end := hchain
      rw [if_pos hb]
      simp [HashMap.cells]
  | cons p r =>
    obtain ⟨h1, h2⟩ := hchain
    cases fuel with
    | zero => rfl
    | succ f =>
      unfold HashMap.iterate
      rw [h1, if_neg (hne p (by simp)),
        iterate_tail m r p f h2 (fun x hx => hne x (List.mem_cons_of_mem _ hx))]
      by_cases hlt : r.length < f
      · simp [hlt, HashMap.cells]
      · simp [hlt]

theorem replay_tail (ins : HashMap K V → K × V → Option (HashMap K V)) (m : HashMap K V) :
    ∀ (rest : List Nat) (prev fuel : Nat) (cur : HashMap K V),
      Tail m.fwd m.bwd m.pos_end prev rest → (∀ x, x ∈ rest → x ≠ m.pos_end) →
      replay ins m fuel (m.fwd prev) cur
        = if rest.length < fuel then (m.cells rest).foldlM ins cur else none
  | [], prev, fuel, cur, h, _ => by
    cases fuel with
    | zero => rfl
    | succ f =>
      unfold replay
      simp [h.1, HashMap.cells]
  | p :: r, prev, fuel, cur, h, hne => by
    cases fuel with
    | zero => rfl
    | succ f =>
      obtain ⟨h1, _, h3⟩ := h
      unfold replay
      rw [h1, if_neg (hne p (by simp))]
      by_cases hlt : r.length < f
      · simp only [List.length_cons, Nat.add_lt_add_iff_right, hlt, if_true, HashMap.cells,
          List.map_cons, List.foldlM_cons, Option.bind_eq_bind]
        congr 1
        funext cur1
        rw [replay_tail ins m r p f cur1 h3 (fun x hx => hne x (List.mem_cons_of_mem _ hx)),
          if_pos hlt]
        rfl
      · simp only [List.length_cons, Nat.add_lt_add_iff_right, hlt, if_false]
        cases hins : ins cur (m.node p).cell with
        | none => rfl
        | some cur1 =>
          rw [Option.some_bind,
            replay_tail ins m r p f cur1 h3 (fun x hx => hne x (List.mem_cons_of_mem _ hx)),
            if_neg hlt]

/-- In an invariant state the replay loop of `rehash` folds `ins` over the stored pairs, in
iteration order. -/
theorem Inv.replay_eq {m : HashMap K V} {ps : List Nat} (h : Inv m ps)
    (ins : HashMap K V → K × V → Option (HashMap K V)) (fuel : Nat) (cur : HashMap K V) :
    replay ins m fuel m.pos_begin cur
      = if ps.length < fuel then (m.cells ps).foldlM ins cur else none := by
  have hne : ∀ x, x ∈ ps → x ≠ m.pos_end := fun x hx => by
    have := h.lt hx
    rw [h.end_eq]; omega
  have hchain := h.chain
  rw [← h.end_eq] at hchain
  cases ps with
  | nil =>
    cases fuel with
    | zero => rfl
    | succ f =>
      unfold replay
      have hb : m.pos_begin = m.pos_end := hchain
      rw [if_pos hb]
      simp [HashMap.cells]
  | cons p r =>
    obtain ⟨h1, h2⟩ := hchain
    cases fuel with
    | zero => rfl
    | succ f =>
      unfold replay
      rw [h1, if_neg (hne p (by simp))]
      by_cases hlt : r.length < f
      · simp only [List.length_cons, Nat.add_lt_add_iff_right, hlt, if_true, HashMap.cells,
          List.map_cons, List.foldlM_cons, Option.bind_eq_bind]
        congr 1
        funext cur1
        rw [replay_tail ins m r p f cur1 h2 (fun x hx => hne x (List.mem_cons_of_mem _ hx)),
          if_pos hlt]
        rfl
      · simp only [List.length_cons, Nat.add_lt_add_iff_right, hlt, if_false]
        cases hins : ins cur (m.node p).cell with
        | none => rfl
        | some cur1 =>
          rw [Option.some_bind,
            replay_tail ins m r p f cur1 h2 (fun x hx => hne x (List.mem_cons_of_mem _ hx)),
            if_neg hlt]

/-- The method `rehash` replays the old map into a fresh table: the temporary `new_map` holds
the old members after the swap, and `*this` the fresh ones. -/
theorem rehashWith_eq (ins : HashMap K V → K × V → Option (HashMap K V)) (fuel : Nat)
    (m : HashMap K V) (num den : Nat) :
    rehashWith ins fuel m num den
      = replay ins m fuel m.pos_begin (HashMap.new (m.table_size * num / den) m.hasher) := by
  rfl

end Traversal

section Reference

variable {K V : Type} [DecidableEq K]

/-! ## Reference association list -/

/-- Reference `insert`: append the pair if its key is absent, do nothing if it is present. -/
def refInsert (L : List (K × V)) (bond : K × V) : List (K × V) :=
  if bond.1 ∈ L.map Prod.fst then L else L ++ [bond]

/-- Reference `erase`: remove the pair of the key, if present. -/
def refErase (L : List (K × V)) (key : K) : List (K × V) :=
  L.filter fun c => decide (c.1 ≠ key)

/-- Reference effect of one call. -/
def refStep (L : List (K × V)) : Call K V → List (K × V)
  | Call.insert bond => refInsert L bond
  | Call.erase key => refErase L key

/-- Reference effect of a sequence of calls. -/
def refRun (L : List (K × V)) (calls : List (Call K V)) : List (K × V) :=
  calls.foldl refStep L

theorem foldl_refInsert_nodup :
    ∀ (Ls Lc : List (K × V)), (Ls.map Prod.fst).Nodup →
      (∀ c, c ∈ Ls → c.1 ∉ Lc.map Prod.fst) → Ls.foldl refInsert Lc = Lc ++ Ls
  | [], Lc, _, _ => by simp
  | c :: Ls, Lc, hnd, hdis => by
    simp only [List.map_cons, List.nodup_cons] at hnd
    have hc : refInsert Lc c = Lc ++ [c] := by
      unfold refInsert
      rw [if_neg (hdis c (by simp))]
    rw [List.foldl_cons, hc, foldl_refInsert_nodup Ls (Lc ++ [c]) hnd.2]
    · simp
    · intro x hx
      simp only [List.map_append, List.map_cons, List.map_nil, List.mem_append,
        List.mem_singleton, not_or]
      refine ⟨hdis x (List.mem_cons_of_mem _ hx), ?_⟩
      intro he
      exact hnd.1 (he ▸ List.mem_map_of_mem _ hx)

theorem refErase_of_not_mem (L : List (K × V)) (key : K) (h : key ∉ L.map Prod.fst) :
    refErase L key = L := by
  unfold refErase
  rw [List.filter_eq_self]
  intro c hc
  have : c.1 ≠ key := fun he => h (he ▸ List.mem_map_of_mem _ hc)
  simpa using this

end Reference

section Partial

variable {K V : Type} [Inhabited K] [Inhabited V] [DecidableEq K]

/-! ## Abstraction, and what a returning call does -/

/-- The map `m` represents the association list `L`. -/
def Abs (m : HashMap K V) (L : List (K × V)) : Prop :=
  ∃ ps, Inv m ps ∧ m.cells ps = L

theorem get_hash_eq_some {m : HashMap K V} {key : K} {h : Nat} (hh : m.get_hash key = some h) :
    0 < m.table_size ∧ h = m.hasher key % m.table_size := by
  unfold HashMap.get_hash at hh
  split at hh
  · exact Option.noConfusion hh
  · exact ⟨by omega, (Option.some.inj hh).symm⟩

/-- A returning insert probe either found the key and changed nothing, or filled the first
Empty slot of the path of an absent key. -/
theorem Inv.insertLoop_cases {m m2 : HashMap K V} {ps : List Nat} (h : Inv m ps)
    (hts : 0 < m.table_size) {bond : K × V} {fuel : Nat}
    (hr : m.insertLoop bond fuel (m.hasher bond.1 % m.table_size) = some m2) :
    (bond.1 ∈ (m.cells ps).map Prod.fst ∧ m2 = m)
    ∨ (bond.1 ∉ (m.cells ps).map Prod.fst ∧ ∃ q, q < m.table_size
        ∧ (m.node q).has_created = false ∧ m.Reach bond.1 q ∧ m2 = m.place q bond) := by
  rw [insertLoop_eq_scan] at hr
  obtain ⟨r, hscan, hm2⟩ := Option.map_eq_some'.1 hr
  by_cases hkey : bond.1 ∈ (m.cells ps).map Prod.fst
  · left
    obtain ⟨p, hp, hpk⟩ := h.key_mem.1 hkey
    have hhit := h.scan_hit hp
    rw [hpk] at hhit
    have := scan_unique m bond.1 hscan hhit
    subst this
    exact ⟨hkey, by simpa using hm2.symm⟩
  · right
    obtain ⟨h1, h2, h3, h4⟩ := h.scan_miss hts hkey hscan
    refine ⟨hkey, r.2, h2, h3, h4, ?_⟩
    rw [← hm2]
    simp [h1]

/-- A returning erase probe either unlinked the slot of the key, or found the key absent and
changed nothing. -/
theorem Inv.eraseLoop_cases {m m2 : HashMap K V} {ps : List Nat} (h : Inv m ps)
    (hts : 0 < m.table_size) {key : K} {fuel : Nat}
    (hr : m.eraseLoop key fuel (m.hasher key % m.table_size) = some m2) :
    (∃ p, p ∈ ps ∧ (m.node p).get_key = key ∧ m2 = m.unlink p)
    ∨ (key ∉ (m.cells ps).map Prod.fst ∧ m2 = m) := by
  rw [eraseLoop_eq_scan] at hr
  obtain ⟨r, hscan, hm2⟩ := Option.map_eq_some'.1 hr
  by_cases hkey : key ∈ (m.cells ps).map Prod.fst
  · left
    obtain ⟨p, hp, hpk⟩ := h.key_mem.1 hkey
    have hhit := h.scan_hit hp
    rw [hpk] at hhit
    have := scan_unique m key hscan hhit
    subst this
    exact ⟨p, hp, hpk, by simpa using hm2.symm⟩
  · right
    obtain ⟨h1, _, _, _⟩ := h.scan_miss hts hkey hscan
    refine ⟨hkey, ?_⟩
    rw [← hm2]
    simp [h1]

theorem Abs.insertLoop {m m2 : HashMap K V} {L : List (K × V)} (h : Abs m L)
    (hts : 0 < m.table_size) {bond : K × V} {fuel : Nat}
    (hr : m.insertLoop bond fuel (m.hasher bond.1 % m.table_size) = some m2) :
    Abs m2 (refInsert L bond) ∧ m2.hasher = m.hasher := by
  obtain ⟨ps, hinv, hL⟩ := h
  subst hL
  rcases hinv.insertLoop_cases hts hr with ⟨hk, he⟩ | ⟨hk, q, hq, hempty, hreach, he⟩
  · subst he
    refine ⟨⟨ps, hinv, ?_⟩, rfl⟩
    unfold refInsert
    rw [if_pos hk]
  · subst he
    have hqps : q ∉ ps := by
      intro hx
      have := occ_created ((hinv.mem_iff q).1 hx)
      rw [hempty] at this
      exact Bool.noConfusion this
    refine ⟨⟨ps ++ [q], place_inv hinv bond hq hempty hk hreach, ?_⟩, place_hasher m q bond⟩
    unfold refInsert
    rw [if_neg hk, place_cells (by rw [hinv.len_table]; exact hq) hqps]

theorem Abs.eraseLoop {m m2 : HashMap K V} {L : List (K × V)} (h : Abs m L)
    (hts : 0 < m.table_size) {key : K} {fuel : Nat}
    (hr : m.eraseLoop key fuel (m.hasher key % m.table_size) = some m2) :
    Abs m2 (refErase L key) ∧ m2.hasher = m.hasher := by
  obtain ⟨ps, hinv, hL⟩ := h
  subst hL
  rcases hinv.eraseLoop_cases hts hr with ⟨p, hp, hpk, he⟩ | ⟨hk, he⟩
  · subst he
    have hnd := hinv.nodup
    have hnotmem : p ∉ ps.erase p := fun hx => ((List.Nodup.mem_erase_iff hnd).1 hx).1 rfl
    refine ⟨⟨ps.erase p, unlink_inv hinv hp, ?_⟩, unlink_hasher m p⟩
    rw [unlink_cells m hnotmem]
    unfold refErase HashMap.cells
    rw [map_erase_eq_filter (fun p => (m.node p).cell) ps p hinv.keys hp]
    have : ((m.node p).cell).1 = key := hpk
    rw [this]
  · subst he
    exact ⟨⟨ps, hinv, (refErase_of_not_mem _ _ hk).symm⟩, rfl⟩

/-- A fold of a correct `insert` over a list of pairs folds the reference `insert`. -/
theorem foldlM_abs (ins : HashMap K V → K × V → Option (HashMap K V))
    (spec : ∀ (m : HashMap K V) (L : List (K × V)) (bond : K × V) (m2 : HashMap K V),
      Abs m L → ins m bond = some m2 → Abs m2 (refInsert L bond) ∧ m2.hasher = m.hasher) :
    ∀ (Ls : List (K × V)) (cur : HashMap K V) (Lc : List (K × V)) (r : HashMap K V),
      Abs cur Lc → Ls.foldlM ins cur = some r →
      Abs r (Ls.foldl refInsert Lc) ∧ r.hasher = cur.hasher
  | [], cur, Lc, r, habs, hr => by
    have : cur = r := by simpa using hr
    subst this
    exact ⟨habs, rfl⟩
  | c :: Ls, cur, Lc, r, habs, hr => by
    rw [List.foldlM_cons] at hr
    obtain ⟨cur1, h1, h2⟩ := Option.bind_eq_some.1 hr
    obtain ⟨habs1, hh1⟩ := spec cur Lc c cur1 habs h1
    obtain ⟨habs2, hh2⟩ := foldlM_abs ins spec Ls cur1 (refInsert Lc c) r habs1 h2
    exact ⟨habs2, by rw [hh2, hh1]⟩

theorem Abs.keys_nodup {m : HashMap K V} {L : List (K × V)} (h : Abs m L) :
    (L.map Prod.fst).Nodup := by
  obtain ⟨ps, hinv, hL⟩ := h
  subst hL
  exact hinv.keys

theorem Abs.size_eq {m : HashMap K V} {L : List (K × V)} (h : Abs m L) :
    m.size = L.length := by
  obtain ⟨ps, hinv, hL⟩ := h
  subst hL
  unfold HashMap.size HashMap.cells
  rw [hinv.cnt_len, List.length_map]

/-- A returning rebuild represents the same list, given that the nested `insert` is correct. -/
theorem rehashWith_abs (ins : HashMap K V → K × V → Option (HashMap K V))
    (spec : ∀ (m : HashMap K V) (L : List (K × V)) (bond : K × V) (m2 : HashMap K V),
      Abs m L → ins m bond = some m2 → Abs m2 (refInsert L bond) ∧ m2.hasher = m.hasher)
    {m m2 : HashMap K V} {L : List (K × V)} (h : Abs m L) {fuel num den : Nat}
    (hr : rehashWith ins fuel m num den = some m2) :
    Abs m2 L ∧ m2.hasher = m.hasher := by
  have hnd := h.keys_nodup
  obtain ⟨ps, hinv, hL⟩ := h
  rw [rehashWith_eq, hinv.replay_eq] at hr
  split at hr
  · rw [hL] at hr
    have := foldlM_abs ins spec L _ [] m2 ⟨[], new_inv _ _, rfl⟩ hr
    rw [foldl_refInsert_nodup L [] hnd (by simp)] at this
    simpa using this
  · exact Option.noConfusion hr

/-- Partial correctness of `insert`: a returning call performs the reference `insert`. -/
theorem insert_abs : ∀ (fuel : Nat) (m : HashMap K V) (L : List (K × V)) (bond : K × V)
    (m2 : HashMap K V), Abs m L → HashMap.insert fuel m bond = some m2 →
    Abs m2 (refInsert L bond) ∧ m2.hasher = m.hasher
  | 0, _, _, _, _, _, hr => by
    unfold HashMap.insert at hr
    exact Option.noConfusion hr
  | f + 1, m, L, bond, m2, habs, hr => by
    unfold HashMap.insert at hr
    obtain ⟨m1, h1, hr⟩ := Option.bind_eq_some.1 hr
    obtain ⟨m1b, h1b, hr⟩ := Option.bind_eq_some.1 hr
    obtain ⟨hh, hhash, hr⟩ := Option.bind_eq_some.1 hr
    have habs1 : Abs m1 L ∧ m1.hasher = m.hasher := by
      split at h1
      · exact rehashWith_abs _ (insert_abs f) habs h1
      · have : m = m1 := Option.some.inj h1
        subst this
        exact ⟨habs, rfl⟩
    have habs1b : Abs m1b L ∧ m1b.hasher = m1.hasher := by
      split at h1b
      · exact rehashWith_abs _ (insert_abs f) habs1.1 h1b
      · have : m1 = m1b := Option.some.inj h1b
        subst this
        exact ⟨habs1.1, rfl⟩
    obtain ⟨hts, hhe⟩ := get_hash_eq_some hhash
    subst hhe
    obtain ⟨hfin, hfh⟩ := habs1b.1.insertLoop hts hr
    exact ⟨hfin, by rw [hfh, habs1b.2, habs1.2]⟩

/-- Partial correctness of `rehash`. -/
theorem rehash_abs {m m2 : HashMap K V} {L : List (K × V)} (h : Abs m L) {fuel num den : Nat}
    (hr : m.rehash fuel num den = some m2) : Abs m2 L ∧ m2.hasher = m.hasher :=
  rehashWith_abs _ (insert_abs fuel) h hr

/-- Partial correctness of `erase`: a returning call performs the reference `erase`. -/
theorem erase_abs {m m2 : HashMap K V} {L : List (K × V)} (habs : Abs m L) {fuel : Nat}
    {key : K} (hr : HashMap.erase fuel m key = some m2) :
    Abs m2 (refErase L key) ∧ m2.hasher = m.hasher := by
  unfold HashMap.erase at hr
  obtain ⟨m1, h1, hr⟩ := Option.bind_eq_some.1 hr
  obtain ⟨hh, hhash, hr⟩ := Option.bind_eq_some.1 hr
  have habs1 : Abs m1 L ∧ m1.hasher = m.hasher := by
    split at h1
    · exact rehash_abs habs h1
    · have : m = m1 := Option.some.inj h1
      subst this
      exact ⟨habs, rfl⟩
  obtain ⟨hts, hhe⟩ := get_hash_eq_some hhash
  subst hhe
  obtain ⟨hfin, hfh⟩ := habs1.1.eraseLoop hts hr
  exact ⟨hfin, by rw [hfh, habs1.2]⟩

end Partial

section Mono

variable {K V : Type} [Inhabited K] [Inhabited V] [DecidableEq K]

/-! ## The fuel is only a cut-off: more fuel never changes a result -/

theorem insertLoop_mono (m : HashMap K V) (bond : K × V) {f1 f2 pos : Nat} {r : HashMap K V}
    (h : m.insertLoop bond f1 pos = some r) (hle : f1 ≤ f2) :
    m.insertLoop bond f2 pos = some r := by
  rw [insertLoop_eq_scan] at h ⊢
  obtain ⟨s, hs, hr⟩ := Option.map_eq_some'.1 h
  rw [scan_mono m bond.1 hs hle]
  simpa using hr

theorem eraseLoop_mono (m : HashMap K V) (key : K) {f1 f2 pos : Nat} {r : HashMap K V}
    (h : m.eraseLoop key f1 pos = some r) (hle : f1 ≤ f2) :
    m.eraseLoop key f2 pos = some r := by
  rw [eraseLoop_eq_scan] at h ⊢
  obtain ⟨s, hs, hr⟩ := Option.map_eq_some'.1 h
  rw [scan_mono m key hs hle]
  simpa using hr

theorem findLoop_mono (m : HashMap K V) (key : K) {f1 f2 pos : Nat} {r : Nat}
    (h : m.findLoop key f1 pos = some r) (hle : f1 ≤ f2) :
    m.findLoop key f2 pos = some r := by
  rw [findLoop_eq_scan] at h ⊢
  obtain ⟨s, hs, hr⟩ := Option.map_eq_some'.1 h
  rw [scan_mono m key hs hle]
  simpa using hr

theorem replay_mono {ins ins2 : HashMap K V → K × V → Option (HashMap K V)}
    (hins : ∀ cur b r, ins cur b = some r → ins2 cur b = some r) (src : HashMap K V) :
    ∀ (f1 f2 pos : Nat) (cur r : HashMap K V), replay ins src f1 pos cur = some r → f1 ≤ f2 →
      replay ins2 src f2 pos cur = some r
  | 0, _, _, _, _, h, _ => by
    unfold replay at h
    exact Option.noConfusion h
  | f1 + 1, f2, pos, cur, r, h, hle => by
    obtain ⟨g, hg⟩ : ∃ g, f2 = g + 1 := ⟨f2 - 1, by omega⟩
    subst hg
    unfold replay at h ⊢
    split
    · rename_i hpos
      rw [if_pos hpos] at h
      exact h
    · rename_i hpos
      rw [if_neg hpos] at h
      obtain ⟨cur1, h1, h2⟩ := Option.bind_eq_some.1 h
      rw [hins _ _ _ h1, Option.some_bind]
      exact replay_mono hins src f1 g _ cur1 r h2 (by omega)

theorem rehashWith_mono {ins ins2 : HashMap K V → K × V → Option (HashMap K V)}
    (hins : ∀ cur b r, ins cur b = some r → ins2 cur b = some r) {m r : HashMap K V}
    {f1 f2 num den : Nat} (h : rehashWith ins f1 m num den = some r) (hle : f1 ≤ f2) :
    rehashWith ins2 f2 m num den = some r := by
  rw [rehashWith_eq] at h ⊢
  exact replay_mono hins m f1 f2 _ _ r h hle

theorem insert_mono : ∀ (f1 f2 : Nat) (m : HashMap K V) (bond : K × V) (r : HashMap K V),
    HashMap.insert f1 m bond = some r → f1 ≤ f2 → HashMap.insert f2 m bond = some r
  | 0, _, _, _, _, h, _ => by
    unfold HashMap.insert at h
    exact Option.noConfusion h
  | f1 + 1, f2, m, bond, r, h, hle => by
    obtain ⟨g, hg⟩ : ∃ g, f2 = g + 1 := ⟨f2 - 1, by omega⟩
    subst hg
    have hle2 : f1 ≤ g := by omega
    have ih : ∀ cur b r, HashMap.insert f1 cur b = some r → HashMap.insert g cur b = some r :=
      fun cur b r hr => insert_mono f1 g cur b r hr hle2
    unfold HashMap.insert at h ⊢
    obtain ⟨m1, h1, h⟩ := Option.bind_eq_some.1 h
    obtain ⟨m1b, h1b, h⟩ := Option.bind_eq_some.1 h
    obtain ⟨hh, hhash, h⟩ := Option.bind_eq_some.1 h
    have e1 : (if m.cnt_deleted + m.cnt_non_deleted > m.table_capacity then
        rehashWith (HashMap.insert g) g m 2 1 else some m) = some m1 := by
      split
      · rename_i hc
        rw [if_pos hc] at h1
        exact rehashWith_mono ih h1 hle2
      · rename_i hc
        rw [if_neg hc] at h1
        exact h1
    have e2 : (if 2 * (m1.cnt_deleted + m1.cnt_non_deleted) > m1.table_capacity
          ∧ m1.cnt_deleted > m1.cnt_non_deleted then
        rehashWith (HashMap.insert g) g m1 1 1 else some m1) = some m1b := by
      split
      · rename_i hc
        rw [if_pos hc] at h1b
        exact rehashWith_mono ih h1b hle2
      · rename_i hc
        rw [if_neg hc] at h1b
        exact h1b
    rw [e1, Option.some_bind, e2, Option.some_bind, hhash, Option.some_bind]
    exact insertLoop_mono m1b bond h hle2

theorem rehash_mono {m r : HashMap K V} {f1 f2 num den : Nat}
    (h : m.rehash f1 num den = some r) (hle : f1 ≤ f2) : m.rehash f2 num den = some r :=
  rehashWith_mono (fun cur b r hr => insert_mono f1 f2 cur b r hr hle) h hle

theorem erase_mono {m r : HashMap K V} {f1 f2 : Nat} {key : K}
    (h : HashMap.erase f1 m key = some r) (hle : f1 ≤ f2) : HashMap.erase f2 m key = some r := by
  unfold HashMap.erase at h ⊢
  obtain ⟨m1, h1, h⟩ := Option.bind_eq_some.1 h
  obtain ⟨hh, hhash, h⟩ := Option.bind_eq_some.1 h
  have e1 : (if 4 * m.cnt_non_deleted < m.table_capacity then m.rehash f2 1 2 else some m)
      = some m1 := by
    split
    · rename_i hc
      rw [if_pos hc] at h1
      exact rehash_mono h1 hle
    · rename_i hc
      rw [if_neg hc] at h1
      exact h1
  rw [e1, Option.some_bind, hhash, Option.some_bind]
  exact eraseLoop_mono m1 key h hle

theorem find_mono {m : HashMap K V} {f1 f2 : Nat} {key : K} {r : Nat}
    (h : m.find f1 key = some r) (hle : f1 ≤ f2) : m.find f2 key = some r := by
  unfold HashMap.find at h ⊢
  obtain ⟨hh, hhash, h⟩ := Option.bind_eq_some.1 h
  rw [hhash, Option.some_bind]
  exact findLoop_mono m key h hle

theorem at_mono {m : HashMap K V} {f1 f2 : Nat} {key : K} {r : AtResult V}
    (h : m.at f1 key = some r) (hle : f1 ≤ f2) : m.at f2 key = some r := by
  unfold HashMap.at at h ⊢
  obtain ⟨it, hit, hr⟩ := Option.map_eq_some'.1 h
  rw [find_mono hit hle]
  simpa using hr

theorem iterate_mono (m : HashMap K V) :
    ∀ (f1 f2 pos : Nat) (r : List (K × V)), m.iterate f1 pos = some r → f1 ≤ f2 →
      m.iterate f2 pos = some r
  | 0, _, _, _, h, _ => by
    unfold HashMap.iterate at h
    exact Option.noConfusion h
  | f1 + 1, f2, pos, r, h, hle => by
    obtain ⟨g, hg⟩ : ∃ g, f2 = g + 1 := ⟨f2 - 1, by omega⟩
    subst hg
    unfold HashMap.iterate at h ⊢
    split
    · rename_i hpos
      rw [if_pos hpos] at h
      exact h
    · rename_i hpos
      rw [if_neg hpos] at h
      obtain ⟨rest, h1, h2⟩ := Option.map_eq_some'.1 h
      rw [iterate_mono m f1 g _ rest h1 (by omega)]
      simpa using h2

theorem items_mono {m : HashMap K V} {f1 f2 : Nat} {r : List (K × V)}
    (h : m.items f1 = some r) (hle : f1 ≤ f2) : m.items f2 = some r :=
  iterate_mono m f1 f2 _ r h hle

theorem foldlM_mono {α β : Type} {g1 g2 : β → α → Option β}
    (hg : ∀ b a r, g1 b a = some r → g2 b a = some r) :
    ∀ (l : List α) (b r : β), l.foldlM g1 b = some r → l.foldlM g2 b = some r
  | [], b, r, h => by simpa using h
  | a :: l, b, r, h => by
    rw [List.foldlM_cons] at h ⊢
    obtain ⟨b1, h1, h2⟩ := Option.bind_eq_some.1 h
    rw [hg _ _ _ h1]
    exact foldlM_mono hg l b1 r h2

theorem step_mono {m r : HashMap K V} {f1 f2 : Nat} {c : Call K V}
    (h : m.step f1 c = some r) (hle : f1 ≤ f2) : m.step f2 c = some r := by
  cases c with
  | insert bond => exact insert_mono f1 f2 m bond r h hle
  | erase key => exact erase_mono h hle

theorem run_mono {m r : HashMap K V} {f1 f2 : Nat} {calls : List (Call K V)}
    (h : m.run f1 calls = some r) (hle : f1 ≤ f2) : m.run f2 calls = some r :=
  foldlM_mono (fun _ _ _ hr => step_mono hr hle) calls m r h

theorem ofList_mono {f1 f2 : Nat} {l : List (K × V)} {hasher : K → Nat} {r : HashMap K V}
    (h : HashMap.ofList f1 l hasher = some r) (hle : f1 ≤ f2) :
    HashMap.ofList f2 l hasher = some r :=
  foldlM_mono (fun cur b r hr => insert_mono f1 f2 cur b r hr hle) l _ r h

end Mono

section Total

variable {K V : Type} [Inhabited K] [Inhabited V] [DecidableEq K]

/-! ## Termination -/

theorem insertLoop_frame {m r : HashMap K V} {bond : K × V} {fuel pos : Nat}
    (h : m.insertLoop bond fuel pos = some r) :
    r.table_size = m.table_size ∧ r.cnt_deleted = m.cnt_deleted := by
  rw [insertLoop_eq_scan] at h
  obtain ⟨s, _, hr⟩ := Option.map_eq_some'.1 h
  rw [← hr]
  split
  · exact ⟨rfl, rfl⟩
  · exact ⟨place_table_size _ _ _, place_cnt_deleted _ _ _⟩

/-- The insert probe returns whenever the table is not full. -/
theorem Inv.insertLoop_total {m : HashMap K V} {ps : List Nat} (h : Inv m ps)
    (hlt : m.cnt_deleted + m.cnt_non_deleted < m.table_size) (bond : K × V) :
    ∃ r, m.insertLoop bond m.table_size (m.hasher bond.1 % m.table_size) = some r := by
  obtain ⟨e, he, hempty⟩ := h.exists_empty hlt
  obtain ⟨s, hs⟩ := scan_terminates m bond.1 he hempty (Nat.mod_lt _ (by omega))
  rw [insertLoop_eq_scan, hs]
  exact ⟨_, rfl⟩

/-- The erase probe for a live key returns. -/
theorem Inv.eraseLoop_total {m : HashMap K V} {ps : List Nat} (h : Inv m ps) {key : K}
    (hkey : key ∈ (m.cells ps).map Prod.fst) :
    ∃ r, m.eraseLoop key m.table_size (m.hasher key % m.table_size) = some r := by
  obtain ⟨p, hp, hpk⟩ := h.key_mem.1 hkey
  have hhit := h.scan_hit hp
  rw [hpk] at hhit
  rw [eraseLoop_eq_scan, hhit]
  exact ⟨_, rfl⟩

theorem cap_lt {n : Nat} (h : 0 < n) : n * kOriginalCapacity / kOriginalSize < n := by
  unfold kOriginalCapacity kOriginalSize
  omega

theorem get_hash_of_pos {m : HashMap K V} (h : 0 < m.table_size) (key : K) :
    m.get_hash key = some (m.hasher key % m.table_size) := by
  unfold HashMap.get_hash
  rw [if_neg (by omega)]

/-- An insert that needs no rebuild returns with fuel `table_size + 1`, and leaves the slot
count and the tombstone count as they were. -/
theorem Inv.insert_direct {m : HashMap K V} {ps : List Nat} (h : Inv m ps)
    (hts : 0 < m.table_size) (hgrow : m.cnt_deleted + m.cnt_non_deleted ≤ m.table_capacity)
    (hdel : m.cnt_deleted = 0) (bond : K × V) :
    ∃ r, HashMap.insert (m.table_size + 1) m bond = some r
      ∧ r.table_size = m.table_size ∧ r.cnt_deleted = 0 := by
  have hcap := cap_lt hts
  rw [← h.cap_eq] at hcap
  obtain ⟨r, hr⟩ := h.insertLoop_total (by omega) bond
  refine ⟨r, ?_, (insertLoop_frame hr).1, by rw [(insertLoop_frame hr).2, hdel]⟩
  unfold HashMap.insert
  rw [if_neg (by omega), Option.some_bind, if_neg (by omega), Option.some_bind,
    get_hash_of_pos hts, Option.some_bind]
  exact hr

theorem refInsert_length_le (L : List (K × V)) (bond : K × V) :
    (refInsert L bond).length ≤ L.length + 1 := by
  unfold refInsert
  split <;> simp

/-- Replaying pairs into a tombstone-free table that has room for them returns, without any
nested rebuild. -/
theorem foldlM_insert_total :
    ∀ (Ls : List (K × V)) (cur : HashMap K V) (Lc : List (K × V)), Abs cur Lc →
      0 < cur.table_size → cur.cnt_deleted = 0 →
      Lc.length + Ls.length ≤ cur.table_size * kOriginalCapacity / kOriginalSize + 1 →
      ∃ r, Ls.foldlM (fun c b => HashMap.insert (cur.table_size + 1) c b) cur = some r
        ∧ r.table_size = cur.table_size ∧ r.cnt_deleted = 0
  | [], cur, _, _, _, hdel, _ => ⟨cur, by simp, rfl, hdel⟩
  | c :: Ls, cur, Lc, habs, hts, hdel, hlen => by
    obtain ⟨ps, hinv, hL⟩ := id habs
    have hsize := habs.size_eq
    unfold HashMap.size at hsize
    have hgrow : cur.cnt_deleted + cur.cnt_non_deleted ≤ cur.table_capacity := by
      rw [hinv.cap_eq, hdel, hsize]
      simp only [List.length_cons] at hlen
      omega
    obtain ⟨cur1, h1, hts1, hdel1⟩ := hinv.insert_direct hts hgrow hdel c
    have habs1 := (insert_abs _ _ _ _ _ habs h1).1
    have hlen1 : (refInsert Lc c).length + Ls.length
        ≤ cur1.table_size * kOriginalCapacity / kOriginalSize + 1 := by
      have := refInsert_length_le Lc c
      simp only [List.length_cons] at hlen
      rw [hts1]
      omega
    obtain ⟨r, hr, htsr, hdelr⟩ :=
      foldlM_insert_total Ls cur1 (refInsert Lc c) habs1 (by omega) hdel1 hlen1
    refine ⟨r, ?_, by rw [htsr, hts1], hdelr⟩
    rw [List.foldlM_cons, h1]
    rw [hts1] at hr
    exact hr

/-- A rebuild into a table with room for the live entries returns a tombstone-free table of
the requested size. -/
theorem Inv.rehash_total {m : HashMap K V} {ps : List Nat} (h : Inv m ps) (num den : Nat)
    (hpos : 0 < m.table_size * num / den)
    (hroom : ps.length ≤ m.table_size * num / den * kOriginalCapacity / kOriginalSize + 1) :
    ∃ fuel r, m.rehash fuel num den = some r
      ∧ r.table_size = m.table_size * num / den ∧ r.cnt_deleted = 0 := by
  have hnew : Abs (HashMap.new (m.table_size * num / den) m.hasher : HashMap K V) [] :=
    ⟨[], new_inv _ _, rfl⟩
  have hlen : ([] : List (K × V)).length + (m.cells ps).length
      ≤ (HashMap.new (m.table_size * num / den) m.hasher : HashMap K V).table_size
          * kOriginalCapacity / kOriginalSize + 1 := by
    simpa [HashMap.cells, HashMap.new] using hroom
  obtain ⟨r, hr, htsr, hdelr⟩ := foldlM_insert_total (m.cells ps) _ [] hnew hpos rfl hlen
  have hts0 : (HashMap.new (m.table_size * num / den) m.hasher : HashMap K V).table_size
      = m.table_size * num / den := rfl
  rw [hts0] at hr htsr
  refine ⟨max (m.table_size * num / den + 1) (ps.length + 1), r, ?_, htsr, hdelr⟩
  unfold HashMap.rehash
  rw [rehashWith_eq, h.replay_eq, if_pos (by omega)]
  exact foldlM_mono (fun cur b r hr => insert_mono _ _ cur b r hr (le_max_left _ _)) _ _ r hr

/-- Totality of `insert` on every invariant state with at least one slot. -/
theorem Inv.insert_total {m : HashMap K V} {ps : List Nat} (h : Inv m ps)
    (hts : 0 < m.table_size) (bond : K × V) : ∃ fuel r, HashMap.insert fuel m bond = some r := by
  have hcap := cap_lt hts
  rw [← h.cap_eq] at hcap
  have hcnt := h.count_le
  have hlen := h.cnt_len
  by_cases hgrow : m.cnt_deleted + m.cnt_non_deleted > m.table_capacity
  · -- grow
    have hroom : ps.length ≤ m.table_size * 2 / 1 * kOriginalCapacity / kOriginalSize + 1 := by
      unfold kOriginalCapacity kOriginalSize
      omega
    obtain ⟨f1, m1, h1, hts1, hdel1⟩ := h.rehash_total 2 1 (by omega) hroom
    obtain ⟨habs1, _⟩ := rehash_abs ⟨ps, h, rfl⟩ h1
    have hsize1 := habs1.size_eq
    obtain ⟨ps1, hinv1, _⟩ := id habs1
    unfold HashMap.size at hsize1
    simp only [HashMap.cells, List.length_map] at hsize1
    obtain ⟨r, hr⟩ := hinv1.insertLoop_total (by omega) bond
    refine ⟨max f1 m1.table_size + 1, r, ?_⟩
    have e1 : rehashWith (HashMap.insert (max f1 m1.table_size)) (max f1 m1.table_size) m 2 1
        = some m1 := rehash_mono h1 (le_max_left _ _)
    unfold HashMap.insert
    rw [if_pos hgrow, e1, Option.some_bind,
      if_neg (by omega), Option.some_bind, get_hash_of_pos (by omega), Option.some_bind]
    exact insertLoop_mono m1 bond hr (le_max_right _ _)
  · by_cases hcomp : 2 * (m.cnt_deleted + m.cnt_non_deleted) > m.table_capacity
        ∧ m.cnt_deleted > m.cnt_non_deleted
    · -- compact
      have hroom : ps.length ≤ m.table_size * 1 / 1 * kOriginalCapacity / kOriginalSize + 1 := by
        rw [Nat.mul_one, Nat.div_one, ← h.cap_eq]
        omega
      obtain ⟨f1, m1, h1, hts1, hdel1⟩ :=
        h.rehash_total 1 1 (by omega) hroom
      obtain ⟨habs1, _⟩ := rehash_abs ⟨ps, h, rfl⟩ h1
      have hsize1 := habs1.size_eq
      obtain ⟨ps1, hinv1, _⟩ := id habs1
      unfold HashMap.size at hsize1
      simp only [HashMap.cells, List.length_map] at hsize1
      have hts1b : m1.table_size = m.table_size := by rw [hts1]; omega
      obtain ⟨r, hr⟩ := hinv1.insertLoop_total (by omega) bond
      refine ⟨max f1 m1.table_size + 1, r, ?_⟩
      have e1 : rehashWith (HashMap.insert (max f1 m1.table_size)) (max f1 m1.table_size) m 1 1
          = some m1 := rehash_mono h1 (le_max_left _ _)
      unfold HashMap.insert
      rw [if_neg hgrow, Option.some_bind, if_pos hcomp, e1,
        Option.some_bind, get_hash_of_pos (by omega), Option.some_bind]
      exact insertLoop_mono m1 bond hr (le_max_right _ _)
    · obtain ⟨r, hr⟩ := h.insertLoop_total (by omega) bond
      refine ⟨m.table_size + 1, r, ?_⟩
      unfold HashMap.insert
      rw [if_neg hgrow, Option.some_bind, if_neg hcomp, Option.some_bind,
        get_hash_of_pos hts, Option.some_bind]
      exact hr

/-- The rebuild triggered by `erase` returns. -/
theorem Inv.shrink_total {m : HashMap K V} {ps : List Nat} (h : Inv m ps)
    (hshrink : 4 * m.cnt_non_deleted < m.table_capacity) :
    ∃ fuel r, m.rehash fuel 1 2 = some r
      ∧ r.table_size = m.table_size * 1 / 2 ∧ r.cnt_deleted = 0 := by
  have hcap := h.cap_eq
  have hlen := h.cnt_len
  unfold kOriginalCapacity kOriginalSize at hcap
  refine h.rehash_total 1 2 (by omega) ?_
  unfold kOriginalCapacity kOriginalSize
  omega

/-- Totality of `erase` on a live key. -/
theorem Abs.erase_total {m : HashMap K V} {L : List (K × V)} (habs : Abs m L) {key : K}
    (hkey : key ∈ L.map Prod.fst) : ∃ fuel r, HashMap.erase fuel m key = some r := by
  obtain ⟨ps, h, hL⟩ := id habs
  have hts : 0 < m.table_size := by
    subst hL
    obtain ⟨p, hp, _⟩ := h.key_mem.1 hkey
    have := h.lt hp
    omega
  by_cases hshrink : 4 * m.cnt_non_deleted < m.table_capacity
  · obtain ⟨f1, m1, h1, hts1, _⟩ := h.shrink_total hshrink
    obtain ⟨habs1, _⟩ := rehash_abs habs h1
    obtain ⟨ps1, hinv1, hL1⟩ := id habs1
    have hkey1 : key ∈ (m1.cells ps1).map Prod.fst := by rw [hL1]; exact hkey
    obtain ⟨r, hr⟩ := hinv1.eraseLoop_total hkey1
    have hts1pos : 0 < m1.table_size := by
      obtain ⟨p, hp, _⟩ := hinv1.key_mem.1 hkey1
      have := hinv1.lt hp
      omega
    refine ⟨max f1 m1.table_size, r, ?_⟩
    unfold HashMap.erase
    rw [if_pos hshrink, rehash_mono h1 (le_max_left _ _), Option.some_bind,
      get_hash_of_pos hts1pos, Option.some_bind]
    exact eraseLoop_mono m1 key hr (le_max_right _ _)
  · have hkey0 : key ∈ (m.cells ps).map Prod.fst := by rw [hL]; exact hkey
    obtain ⟨r, hr⟩ := h.eraseLoop_total hkey0
    refine ⟨m.table_size, r, ?_⟩
    unfold HashMap.erase
    rw [if_neg hshrink, Option.some_bind, get_hash_of_pos hts, Option.some_bind]
    exact hr

end Total

section Reach

variable {K V : Type} [Inhabited K] [Inhabited V] [DecidableEq K]

/-! ## Reachable maps and what they yield -/

/-- Maps obtained from a constructor by returning `insert` and `erase` calls.  The range,
initializer-list and copy constructors build maps of this kind. -/
inductive Reachable : HashMap K V → Prop
  | ctor (n : Nat) (hasher : K → Nat) : Reachable (HashMap.new n hasher)
  | insert {m m2 : HashMap K V} (fuel : Nat) (bond : K × V) :
      Reachable m → HashMap.insert fuel m bond = some m2 → Reachable m2
  | erase {m m2 : HashMap K V} (fuel : Nat) (key : K) :
      Reachable m → HashMap.erase fuel m key = some m2 → Reachable m2

/-- The traversal `begin()..end()` of `m` returns the list `L`. -/
def Yields (m : HashMap K V) (L : List (K × V)) : Prop :=
  ∃ fuel, m.items fuel = some L

theorem Abs.yields {m : HashMap K V} {L : List (K × V)} (h : Abs m L) : Yields m L := by
  obtain ⟨ps, hinv, hL⟩ := h
  refine ⟨ps.length + 1, ?_⟩
  rw [hinv.items_eq, if_pos (by omega), hL]

theorem Abs.yields_eq {m : HashMap K V} {L L2 : List (K × V)} (h : Abs m L)
    (hy : Yields m L2) : L2 = L := by
  obtain ⟨ps, hinv, hL⟩ := h
  obtain ⟨fuel, hf⟩ := hy
  rw [hinv.items_eq] at hf
  split at hf
  · rw [← hL]; exact (Option.some.inj hf).symm
  · exact Option.noConfusion hf

theorem Abs.of_yields {m : HashMap K V} {L L2 : List (K × V)} (h : Abs m L)
    (hy : Yields m L2) : Abs m L2 := by
  rw [h.yields_eq hy]; exact h

theorem Reachable.abs {m : HashMap K V} (h : Reachable m) : ∃ L, Abs m L := by
  induction h with
  | ctor n hasher => exact ⟨[], [], new_inv n hasher, rfl⟩
  | insert fuel bond _ hr ih =>
    obtain ⟨L, hL⟩ := ih
    exact ⟨_, (insert_abs _ _ _ _ _ hL hr).1⟩
  | erase fuel key _ hr ih =>
    obtain ⟨L, hL⟩ := ih
    exact ⟨_, (erase_abs hL hr).1⟩

theorem Reachable.abs_of_yields {m : HashMap K V} (h : Reachable m) {L : List (K × V)}
    (hy : Yields m L) : Abs m L := by
  obtain ⟨L0, h0⟩ := h.abs
  exact h0.of_yields hy

theorem Reachable.step {m m2 : HashMap K V} (h : Reachable m) {fuel : Nat} {c : Call K V}
    (hr : m.step fuel c = some m2) : Reachable m2 := by
  cases c with
  | insert bond => exact Reachable.insert fuel bond h hr
  | erase key => exact Reachable.erase fuel key h hr

theorem Reachable.run {fuel : Nat} :
    ∀ (calls : List (Call K V)) {m m2 : HashMap K V}, Reachable m →
      m.run fuel calls = some m2 → Reachable m2
  | [], m, m2, h, hr => by
    have : m = m2 := by simpa [HashMap.run] using hr
    subst this
    exact h
  | c :: calls, m, m2, h, hr => by
    unfold HashMap.run at hr
    rw [List.foldlM_cons] at hr
    obtain ⟨m1, h1, h2⟩ := Option.bind_eq_some.1 hr
    exact Reachable.run calls (h.step h1) h2

theorem insert_ts_pos {m r : HashMap K V} {fuel : Nat} {bond : K × V}
    (h : HashMap.insert fuel m bond = some r) : 0 < r.table_size := by
  cases fuel with
  | zero =>
    unfold HashMap.insert at h
    exact Option.noConfusion h
  | succ f =>
    unfold HashMap.insert at h
    obtain ⟨m1, _, h⟩ := Option.bind_eq_some.1 h
    obtain ⟨m1b, _, h⟩ := Option.bind_eq_some.1 h
    obtain ⟨hh, hhash, h⟩ := Option.bind_eq_some.1 h
    rw [(insertLoop_frame h).1]
    exact (get_hash_eq_some hhash).1

theorem step_abs {m m2 : HashMap K V} {L : List (K × V)} (h : Abs m L) {fuel : Nat}
    {c : Call K V} (hr : m.step fuel c = some m2) : Abs m2 (refStep L c) := by
  cases c with
  | insert bond => exact (insert_abs _ _ _ _ _ h hr).1
  | erase key => exact (erase_abs h hr).1

/-- Refinement: whenever a sequence of calls returns, the map represents the reference list
of that sequence. -/
theorem run_abs {fuel : Nat} :
    ∀ (calls : List (Call K V)) {m m2 : HashMap K V} {L : List (K × V)}, Abs m L →
      m.run fuel calls = some m2 → Abs m2 (refRun L calls)
  | [], m, m2, L, h, hr => by
    have : m = m2 := by simpa [HashMap.run] using hr
    subst this
    exact h
  | c :: calls, m, m2, L, h, hr => by
    unfold HashMap.run at hr
    rw [List.foldlM_cons] at hr
    obtain ⟨m1, h1, h2⟩ := Option.bind_eq_some.1 hr
    exact run_abs calls (step_abs h h1) h2

/-- Whenever a sequence of calls on the default-constructed map returns, the traversal
`begin()..end()` returns the reference list of the sequence. -/
theorem run_default_yields (hasher : K → Nat) (fuel : Nat) (calls : List (Call K V))
    (m : HashMap K V) (hr : (HashMap.default hasher).run fuel calls = some m) :
    Yields m (refRun [] calls) :=
  (run_abs calls ⟨[], new_inv _ _, rfl⟩ hr).yields

/-- A sequence of inserts into a map with at least one slot returns. -/
theorem foldlM_insert_returns :
    ∀ (Ls : List (K × V)) (cur : HashMap K V) (Lc : List (K × V)), Abs cur Lc →
      0 < cur.table_size →
      ∃ fuel r, Ls.foldlM (fun c b => HashMap.insert fuel c b) cur = some r
  | [], cur, _, _, _ => ⟨0, cur, by simp⟩
  | c :: Ls, cur, Lc, habs, hts => by
    obtain ⟨ps, hinv, _⟩ := id habs
    obtain ⟨f1, cur1, h1⟩ := hinv.insert_total hts c
    obtain ⟨f2, r, h2⟩ := foldlM_insert_returns Ls cur1 _ (insert_abs _ _ _ _ _ habs h1).1
      (insert_ts_pos h1)
    refine ⟨max f1 f2, r, ?_⟩
    rw [List.foldlM_cons, insert_mono _ _ _ _ _ h1 (le_max_left _ _)]
    exact foldlM_mono (fun cur b r hr => insert_mono _ _ cur b r hr (le_max_right _ _)) _ _ r h2

/-! ## Lookup, construction and swap on invariant states -/

theorem run_append (fuel : Nat) (m : HashMap K V) (c1 c2 : List (Call K V)) :
    m.run fuel (c1 ++ c2) = (m.run fuel c1).bind fun m1 => m1.run fuel c2 := by
  unfold HashMap.run
  rw [List.foldlM_append]
  rfl

theorem ofList_abs {fuel : Nat} {l : List (K × V)} {hasher : K → Nat} {m : HashMap K V}
    (h : HashMap.ofList fuel l hasher = some m) : Abs m (l.foldl refInsert []) :=
  (foldlM_abs _ (insert_abs fuel) l _ [] m ⟨[], new_inv _ _, rfl⟩ h).1

/-- What `swap` does to each member: all are exchanged but `hasher`, which stays. -/
theorem swap_members (a b : HashMap K V) :
    (a.swap b).1.hash_table = b.hash_table ∧ (a.swap b).2.hash_table = a.hash_table
      ∧ (a.swap b).1.bonds = b.bonds ∧ (a.swap b).2.bonds = a.bonds
      ∧ (a.swap b).1.pos_begin = b.pos_begin ∧ (a.swap b).2.pos_begin = a.pos_begin
      ∧ (a.swap b).1.pos_end = b.pos_end ∧ (a.swap b).2.pos_end = a.pos_end
      ∧ (a.swap b).1.table_size = b.table_size ∧ (a.swap b).2.table_size = a.table_size
      ∧ (a.swap b).1.table_capacity = b.table_capacity
      ∧ (a.swap b).2.table_capacity = a.table_capacity
      ∧ (a.swap b).1.cnt_deleted = b.cnt_deleted ∧ (a.swap b).2.cnt_deleted = a.cnt_deleted
      ∧ (a.swap b).1.cnt_non_deleted = b.cnt_non_deleted
      ∧ (a.swap b).2.cnt_non_deleted = a.cnt_non_deleted
      ∧ (a.swap b).1.hasher = a.hasher ∧ (a.swap b).2.hasher = b.hasher :=
  ⟨rfl, rfl, rfl, rfl, rfl, rfl, rfl, rfl, rfl, rfl, rfl, rfl, rfl, rfl, rfl, rfl, rfl, rfl⟩

/-- In an invariant state `find` of a live key returns its slot. -/
theorem Inv.find_live {m : HashMap K V} {ps : List Nat} (h : Inv m ps) {p : Nat}
    (hp : p ∈ ps) : m.find m.table_size (m.node p).get_key = some p := by
  have hts : 0 < m.table_size := by
    have := h.lt hp
    omega
  unfold HashMap.find
  rw [get_hash_of_pos hts, Option.some_bind, findLoop_eq_scan, h.scan_hit hp]
  rfl

/-- In an invariant state `find` of an absent key can only return `end()`. -/
theorem Inv.find_absent {m : HashMap K V} {ps : List Nat} (h : Inv m ps) {key : K}
    (hkey : key ∉ (m.cells ps).map Prod.fst) {fuel r : Nat} (hr : m.find fuel key = some r) :
    r = m.pos_end := by
  unfold HashMap.find at hr
  obtain ⟨hh, hhash, hr⟩ := Option.bind_eq_some.1 hr
  obtain ⟨hts, hhe⟩ := get_hash_eq_some hhash
  subst hhe
  rw [findLoop_eq_scan] at hr
  obtain ⟨s, hs, hrs⟩ := Option.map_eq_some'.1 hr
  obtain ⟨h1, _, _, _⟩ := h.scan_miss hts hkey hs
  rw [← hrs]
  simp [h1]

/-- In an invariant state `at` of a live key returns the value stored with it. -/
theorem Inv.at_live {m : HashMap K V} {ps : List Nat} (h : Inv m ps) {p : Nat}
    (hp : p ∈ ps) :
    m.at m.table_size (m.node p).get_key = some (AtResult.value (m.node p).cell.2) := by
  have hne : p ≠ m.pos_end := by
    have := h.lt hp
    rw [h.end_eq]
    omega
  unfold HashMap.at
  rw [h.find_live hp, Option.map_some', if_neg hne]

/-- In an invariant state `at` of an absent key can only raise `std::out_of_range`. -/
theorem Inv.at_absent {m : HashMap K V} {ps : List Nat} (h : Inv m ps) {key : K}
    (hkey : key ∉ (m.cells ps).map Prod.fst) {fuel : Nat} {r : AtResult V}
    (hr : m.at fuel key = some r) : r = AtResult.out_of_range := by
  unfold HashMap.at at hr
  obtain ⟨it, hit, hrs⟩ := Option.map_eq_some'.1 hr
  rw [h.find_absent hkey hit, if_pos rfl] at hrs
  exact hrs.symm

/-- A map that represents `L` serves every pair of `L` through `at`. -/
theorem Abs.at_of_mem {m : HashMap K V} {L : List (K × V)} (h : Abs m L) {k : K} {v : V}
    (hkv : (k, v) ∈ L) : m.at m.table_size k = some (AtResult.value v) := by
  obtain ⟨ps, hinv, hL⟩ := h
  rw [← hL] at hkv
  obtain ⟨p, hp, hcell⟩ := List.mem_map.1 hkv
  have hk : (m.node p).get_key = k := by
    unfold Node.get_key
    rw [hcell]
  have := hinv.at_live hp
  rw [hk, hcell] at this
  exact this

/-- In an invariant state two Occupied slots never hold the same key. -/
theorem Abs.occ_key_inj {m : HashMap K V} {L : List (K × V)} (h : Abs m L) {p q : Nat}
    (hp : (m.node p).occ = true) (hq : (m.node q).occ = true)
    (hk : (m.node p).get_key = (m.node q).get_key) : p = q := by
  obtain ⟨ps, hinv, _⟩ := h
  exact hinv.key_inj ((hinv.mem_iff p).2 hp) ((hinv.mem_iff q).2 hq) hk

theorem Reachable.yields_nodup {m : HashMap K V} (h : Reachable m) {L : List (K × V)}
    (hy : Yields m L) : (L.map Prod.fst).Nodup :=
  (h.abs_of_yields hy).keys_nodup

end Reach

/-! ## Concrete maps used to evaluate the code -/

/-- The hash of `std::hash<int>`: the identity. -/
def idHash : Nat → Nat :=
  fun k => k

/-- Calls that shrink the default-constructed map to one slot and then fill that slot:
`erase(0); erase(0); erase(0); insert({1, 'a'})`. -/
def fillCalls : List (Call Nat Char) :=
  [Call.erase 0, Call.erase 0, Call.erase 0, Call.insert (1, 'a')]

/-- The one-slot table with its slot Occupied by `(1, 'a')`. -/
def fullMap : HashMap Nat Char :=
  ⟨[⟨(1, 'a'), true, false⟩], ⟨[0, 0], [1, 0]⟩, 0, 1, idHash, 1, 0, 0, 1⟩

/-- The one-slot table with its slot turned into a Tombstone. -/
def tombMap : HashMap Nat Char :=
  ⟨[⟨(1, 'a'), true, true⟩], ⟨[0, 0], [1, 0]⟩, 1, 1, idHash, 1, 0, 1, 0⟩

theorem fillCalls_run : (HashMap.default idHash).run 20 fillCalls = some fullMap :=
  rfl

theorem fullMap_scan (key : Nat) (hk : key ≠ 1) : ∀ fuel, fullMap.scan key fuel 0 = none := by
  intro fuel
  induction fuel with
  | zero => rfl
  | succ f ih =>
    unfold HashMap.scan
    simp [fullMap, HashMap.node, HashMap.inc, Node.get_key, Ne.symm hk]
    simpa [fullMap] using ih

theorem tombMap_scan (key : Nat) : ∀ fuel, tombMap.scan key fuel 0 = none := by
  intro fuel
  induction fuel with
  | zero => rfl
  | succ f ih =>
    unfold HashMap.scan
    simp [tombMap, HashMap.node, HashMap.inc]
    simpa [tombMap] using ih

theorem fullMap_find (key : Nat) (hk : key ≠ 1) (fuel : Nat) : fullMap.find fuel key = none := by
  have hh : fullMap.get_hash key = some 0 := by
    simp [HashMap.get_hash, fullMap, Nat.mod_one]
  unfold HashMap.find
  rw [hh, Option.some_bind, findLoop_eq_scan, fullMap_scan key hk]
  rfl

theorem fullMap_erase (key : Nat) (hk : key ≠ 1) (fuel : Nat) :
    fullMap.erase fuel key = none := by
  have hh : fullMap.get_hash key = some 0 := by
    simp [HashMap.get_hash, fullMap, Nat.mod_one]
  have hc : ¬ 4 * fullMap.cnt_non_deleted < fullMap.table_capacity := by
    simp [fullMap]
  unfold HashMap.erase
  rw [if_neg hc, Option.some_bind, hh, Option.some_bind, eraseLoop_eq_scan,
    fullMap_scan key hk]
  rfl

theorem tombMap_find (key : Nat) (fuel : Nat) : tombMap.find fuel key = none := by
  have hh : tombMap.get_hash key = some 0 := by
    simp [HashMap.get_hash, tombMap, Nat.mod_one]
  unfold HashMap.find
  rw [hh, Option.some_bind, findLoop_eq_scan, tombMap_scan key]
  rfl

/-- Calls that shrink the default-constructed map to four slots and fill them:
`erase(0); insert({1,'a'}); insert({2,'b'}); insert({3,'c'}); insert({4,'d'})`. -/
def fourCalls : List (Call Nat Char) :=
  [Call.erase 0, Call.insert (1, 'a'), Call.insert (2, 'b'), Call.insert (3, 'c'),
    Call.insert (4, 'd')]

/-- The four-slot table with every slot Occupied. -/
def fourMap : HashMap Nat Char :=
  ⟨[⟨(4, 'd'), true, false⟩, ⟨(1, 'a'), true, false⟩, ⟨(2, 'b'), true, false⟩,
      ⟨(3, 'c'), true, false⟩],
    ⟨[3, 0, 1, 2, 0], [4, 2, 3, 0, 0]⟩, 1, 4, idHash, 4, 3, 0, 4⟩

theorem fourCalls_run : (HashMap.default idHash).run 20 fourCalls = some fourMap :=
  rfl

theorem fourMap_scan (key : Nat) (hk : 4 < key) :
    ∀ fuel pos, pos < 4 → fourMap.scan key fuel pos = none := by
  intro fuel
  induction fuel with
  | zero => intro pos _; rfl
  | succ f ih =>
    intro pos hpos
    have hnext : fourMap.inc pos < 4 :=
      inc_lt fourMap (show pos < fourMap.table_size from hpos)
    have hstep : fourMap.scan key (f + 1) pos = fourMap.scan key f (fourMap.inc pos) := by
      conv_lhs => unfold HashMap.scan
      interval_cases pos <;> simp [fourMap, HashMap.node, Node.get_key] <;> omega
    rw [hstep]
    exact ih _ hnext

/-- The two-entry map `{1:'a', 2:'b'}` built on the default table. -/
def twoMap : HashMap Nat Char :=
  ((HashMap.default idHash).place 1 (1, 'a')).place 2 (2, 'b')

theorem twoMap_run :
    (HashMap.default idHash).run 20 [Call.insert (1, 'a'), Call.insert (2, 'b')] = some twoMap :=
  rfl

/-- A hash function other than the identity. -/
def shiftHash : Nat → Nat :=
  fun k => k + 1

/-- The map `{1:'a'}` built with `shiftHash`: the entry sits in slot 2. -/
def shiftMap : HashMap Nat Char :=
  (HashMap.default shiftHash).place 2 (1, 'a')

/-- The scenario of the specification: inserting `1:'a'`, `2:'b'`, `3:'c'` yields them in that
order; erasing 2 leaves `(1,'a'), (3,'c')`; inserting `2:'d'` appends it at the tail. -/
theorem scenario_insertion_order :
    ((HashMap.default idHash).run 20
        [Call.insert (1, 'a'), Call.insert (2, 'b'), Call.insert (3, 'c')]).bind
          (fun m => m.items 20) = some [(1, 'a'), (2, 'b'), (3, 'c')]
      ∧ ((HashMap.default idHash).run 20
        [Call.insert (1, 'a'), Call.insert (2, 'b'), Call.insert (3, 'c'), Call.erase 2]).bind
          (fun m => m.items 20) = some [(1, 'a'), (3, 'c')]
      ∧ ((HashMap.default idHash).run 20
        [Call.insert (1, 'a'), Call.insert (2, 'b'), Call.insert (3, 'c'), Call.erase 2,
          Call.insert (2, 'd')]).bind
          (fun m => m.items 20) = some [(1, 'a'), (3, 'c'), (2, 'd')] :=
  ⟨rfl, rfl, rfl⟩

/-! ## Claims -/

section Claims

variable {K V : Type} [Inhabited K] [Inhabited V] [DecidableEq K]

/-- C1, evaluated at the call sequence `erase(0); erase(0); erase(0); insert({1,'a'}); erase(2)`
on the default-constructed map with the identity hash: the reference list of the sequence is
`[(1,'a')]`, but the sequence never returns (its last call probes a one-slot table whose only
slot is Occupied by key 1), so no traversal ever yields that list. -/
theorem C1_sequence_never_returns :
    refRun ([] : List (Nat × Char)) (fillCalls ++ [Call.erase 2]) = [(1, 'a')]
      ∧ ∀ fuel, (HashMap.default idHash).run fuel (fillCalls ++ [Call.erase 2]) = none := by
  refine ⟨by decide, fun fuel => ?_⟩
  rw [run_append]
  cases h : (HashMap.default idHash).run fuel fillCalls with
  | none => rfl
  | some m1 =>
    have h1 := run_mono h (le_max_left fuel 20)
    have h2 := run_mono fillCalls_run (le_max_right fuel 20)
    rw [h1] at h2
    have hm : m1 = fullMap := Option.some.inj h2
    subst hm
    simp [HashMap.run, HashMap.step, fullMap_erase 2 (by decide) fuel]

/-- C2, evaluated on the one-slot map reached by `erase(0); erase(0); erase(0)` from the
default-constructed map: key 1 is not live and `find(2)` is `end()`; after `insert({1,'a'})`
the call `find(2)` never returns, so it is not `end()` as it was before. -/
theorem C2_find_of_other_key_hangs :
    (HashMap.default idHash : HashMap Nat Char).run 20
        [Call.erase 0, Call.erase 0, Call.erase 0] = some (HashMap.new 1 idHash)
      ∧ (HashMap.new 1 idHash : HashMap Nat Char).items 20 = some []
      ∧ (HashMap.new 1 idHash : HashMap Nat Char).find 20 2
          = some (HashMap.new 1 idHash : HashMap Nat Char).pos_end
      ∧ (HashMap.new 1 idHash : HashMap Nat Char).insert 20 (1, 'a') = some fullMap
      ∧ ∀ fuel, fullMap.find fuel 2 = none :=
  ⟨rfl, rfl, rfl, rfl, fun fuel => fullMap_find 2 (by decide) fuel⟩

/-- C3. For every reachable map whose traversal is `L` and every pair `(k, v)` of `L`: no two
Occupied slots hold the same key and the keys of `L` are pairwise distinct; the call
`insert((k, w))` returns; and the map it returns has the same `size()` and the same traversal
`L` (so `k` keeps its place), and `at(k)` still returns `v` on it. -/
theorem C3_insert_live_key (m : HashMap K V) (hreach : Reachable m) (L : List (K × V))
    (hL : Yields m L) (k : K) (v w : V) (hlive : (k, v) ∈ L) :
    (∀ p q, (m.node p).occ = true → (m.node q).occ = true →
        (m.node p).get_key = (m.node q).get_key → p = q)
      ∧ (L.map Prod.fst).Nodup
      ∧ (∃ fuel m2, HashMap.insert fuel m (k, w) = some m2)
      ∧ ∀ fuel m2, HashMap.insert fuel m (k, w) = some m2 →
          m2.size = m.size ∧ Yields m2 L ∧ m2.at m2.table_size k = some (AtResult.value v) := by
  have habs := hreach.abs_of_yields hL
  obtain ⟨ps, hinv, hcells⟩ := id habs
  have hkey : k ∈ L.map Prod.fst := List.mem_map_of_mem Prod.fst hlive
  have hts : 0 < m.table_size := by
    rw [← hcells] at hkey
    obtain ⟨p, hp, _⟩ := hinv.key_mem.1 hkey
    have := hinv.lt hp
    omega
  refine ⟨fun p q hp hq hk => habs.occ_key_inj hp hq hk, habs.keys_nodup,
    hinv.insert_total hts (k, w), fun fuel m2 hr => ?_⟩
  have habs2 := (insert_abs _ _ _ _ _ habs hr).1
  have href : refInsert L (k, w) = L := by
    unfold refInsert
    rw [if_pos hkey]
  rw [href] at habs2
  exact ⟨by rw [habs2.size_eq, habs.size_eq], habs2.yields, habs2.at_of_mem hlive⟩

/-- Witness of C3: re-inserting key 1 into `{1:'a', 2:'b'}`. -/
theorem C3_insert_live_key_witness :
    (∀ p q, (twoMap.node p).occ = true → (twoMap.node q).occ = true →
        (twoMap.node p).get_key = (twoMap.node q).get_key → p = q)
      ∧ (([(1, 'a'), (2, 'b')] : List (Nat × Char)).map Prod.fst).Nodup
      ∧ (∃ fuel m2, HashMap.insert fuel twoMap (1, 'z') = some m2)
      ∧ ∀ fuel m2, HashMap.insert fuel twoMap (1, 'z') = some m2 →
          m2.size = twoMap.size ∧ Yields m2 [(1, 'a'), (2, 'b')]
            ∧ m2.at m2.table_size 1 = some (AtResult.value 'a') :=
  C3_insert_live_key twoMap (Reachable.run _ (Reachable.ctor 8 idHash) twoMap_run)
    [(1, 'a'), (2, 'b')] ⟨20, rfl⟩ 1 'a' 'z' (by decide)

/-- C4, evaluated on the map reached by `erase(0); erase(0); erase(0); insert({1,'a'})` from
the default-constructed map: key 1 is live and `erase(1)` returns, but afterwards neither
`find(1)` nor `at(1)` returns (the only slot is a Tombstone and the probe finds no Empty
slot). -/
theorem C4_find_after_erase_hangs :
    (HashMap.default idHash).run 20 fillCalls = some fullMap
      ∧ fullMap.items 20 = some [(1, 'a')]
      ∧ fullMap.erase 20 1 = some tombMap
      ∧ (∀ fuel, tombMap.find fuel 1 = none)
      ∧ ∀ fuel, tombMap.at fuel 1 = none := by
  refine ⟨rfl, rfl, rfl, fun fuel => tombMap_find 1 fuel, fun fuel => ?_⟩
  unfold HashMap.at
  rw [tombMap_find 1 fuel]
  rfl

/-- C5, evaluated on the same map `{1:'a'}` with one slot: key 99 is not live, yet `at(99)`
does not raise `std::out_of_range`; it never returns.  The live key is served: `at(1)` is
`'a'`. -/
theorem C5_at_absent_key_hangs :
    (HashMap.default idHash).run 20 fillCalls = some fullMap
      ∧ fullMap.items 20 = some [(1, 'a')]
      ∧ fullMap.at 20 1 = some (AtResult.value 'a')
      ∧ ∀ fuel, fullMap.at fuel 99 = none := by
  refine ⟨rfl, rfl, rfl, fun fuel => ?_⟩
  unfold HashMap.at
  rw [fullMap_find 99 (by decide) fuel]
  rfl

/-- C6, evaluated on the map reached by `erase(0)` and four inserts from the
default-constructed map: all four slots are created, and for every key above 4 the probe of
`find` visits them cyclically without ever meeting the key or an Empty slot, whatever the
number of steps; so do `find(5)` and `erase(5)`. -/
theorem C6_probe_cycles_on_full_table :
    (HashMap.default idHash).run 20 fourCalls = some fourMap
      ∧ (∀ p, p < fourMap.table_size → (fourMap.node p).has_created = true)
      ∧ (∀ key fuel, 4 < key → fourMap.find fuel key = none)
      ∧ ∀ fuel, fourMap.erase fuel 5 = none := by
  refine ⟨rfl, ?_, ?_, ?_⟩
  · intro p hp
    have hp4 : p < 4 := hp
    interval_cases p <;> rfl
  · intro key fuel hk
    have hh : fourMap.get_hash key = some (key % 4) := by
      simp [HashMap.get_hash, fourMap, idHash]
    unfold HashMap.find
    rw [hh, Option.some_bind, findLoop_eq_scan,
      fourMap_scan key hk fuel _ (Nat.mod_lt _ (by decide))]
    rfl
  · intro fuel
    have hh : fourMap.get_hash 5 = some 1 := rfl
    have hc : ¬ 4 * fourMap.cnt_non_deleted < fourMap.table_capacity := by decide
    unfold HashMap.erase
    rw [if_neg hc, Option.some_bind, hh, Option.some_bind, eraseLoop_eq_scan,
      fourMap_scan 5 (by decide) fuel 1 (by decide)]
    rfl

/-- C7, evaluated on the one-slot map `{1:'a'}`: `size()` is 1 and equals the number of
Occupied slots and the length of the traversal, key 7 is absent, and `erase(7)` never
returns, so there is no `size()` after it to compare. -/
theorem C7_erase_absent_key_hangs :
    (HashMap.default idHash).run 20 fillCalls = some fullMap
      ∧ fullMap.size = 1
      ∧ fullMap.hash_table.countP Node.occ = 1
      ∧ fullMap.items 20 = some [(1, 'a')]
      ∧ ∀ fuel, fullMap.erase fuel 7 = none :=
  ⟨rfl, rfl, rfl, rfl, fun fuel => fullMap_erase 7 (by decide) fuel⟩

/-- C8. For every reachable map with traversal `L`, in a state where the test that guards a
call of `rehash` holds (grow, hash_map.h:250; compact, hash_map.h:254; shrink,
hash_map.h:271): that call of `rehash` returns, and the map it returns has the same `size()`
and the same traversal `L`. -/
theorem C8_rehash_transparent (m : HashMap K V) (hreach : Reachable m) (L : List (K × V))
    (hL : Yields m L) (num den : Nat)
    (htrig : (num = 2 ∧ den = 1 ∧ m.cnt_deleted + m.cnt_non_deleted > m.table_capacity)
      ∨ (num = 1 ∧ den = 1 ∧ 2 * (m.cnt_deleted + m.cnt_non_deleted) > m.table_capacity
          ∧ m.cnt_deleted > m.cnt_non_deleted)
      ∨ (num = 1 ∧ den = 2 ∧ 4 * m.cnt_non_deleted < m.table_capacity)) :
    (∃ fuel m2, m.rehash fuel num den = some m2)
      ∧ ∀ fuel m2, m.rehash fuel num den = some m2 → m2.size = m.size ∧ Yields m2 L := by
  have habs := hreach.abs_of_yields hL
  obtain ⟨ps, hinv, hcells⟩ := id habs
  refine ⟨?_, fun fuel m2 hr => ?_⟩
  · have hcnt := hinv.count_le
    have hlen := hinv.cnt_len
    have hcap := hinv.cap_eq
    unfold kOriginalCapacity kOriginalSize at hcap
    rcases htrig with ⟨hn, hd, hg⟩ | ⟨hn, hd, hc1, hc2⟩ | ⟨hn, hd, hs⟩
    · subst hn hd
      obtain ⟨fuel, r, hr, _⟩ := hinv.rehash_total 2 1 (by omega)
        (by unfold kOriginalCapacity kOriginalSize; omega)
      exact ⟨fuel, r, hr⟩
    · subst hn hd
      obtain ⟨fuel, r, hr, _⟩ := hinv.rehash_total 1 1 (by omega)
        (by unfold kOriginalCapacity kOriginalSize; omega)
      exact ⟨fuel, r, hr⟩
    · subst hn hd
      obtain ⟨fuel, r, hr, _⟩ := hinv.shrink_total hs
      exact ⟨fuel, r, hr⟩
  · have habs2 := (rehash_abs habs hr).1
    exact ⟨by rw [habs2.size_eq, habs.size_eq], habs2.yields⟩

/-- Witness of C8: the shrink rebuild that `erase` starts on the map `{1:'a'}` (8 slots,
capacity 6, one live entry, so `4 * 1 < 6`). -/
theorem C8_rehash_transparent_witness :
    (∃ fuel m2, ((HashMap.default idHash).place 1 (1, 'a')).rehash fuel 1 2 = some m2)
      ∧ ∀ fuel m2, ((HashMap.default idHash).place 1 (1, 'a')).rehash fuel 1 2 = some m2 →
          m2.size = ((HashMap.default idHash).place 1 (1, 'a')).size
            ∧ Yields m2 [(1, 'a')] :=
  C8_rehash_transparent ((HashMap.default idHash).place 1 (1, 'a'))
    (Reachable.insert 20 (1, 'a') (Reachable.ctor 8 idHash) rfl) [(1, 'a')] ⟨20, rfl⟩ 1 2
    (Or.inr (Or.inr ⟨rfl, rfl, by decide⟩))

/-- C9 fails for a literal list with a repeated key: no map constructed from
`{(1,'a'), (1,'b')}` yields that list (the second pair is dropped by `insert`). -/
theorem C9_repeated_key_dropped :
    ¬ ∃ fuel m, HashMap.ofList fuel [(1, 'a'), (1, 'b')] idHash = some m
        ∧ Yields m ([(1, 'a'), (1, 'b')] : List (Nat × Char)) := by
  rintro ⟨fuel, m, hm, hy⟩
  have habs := ofList_abs hm
  have := habs.yields_eq hy
  revert this
  decide

/-- C9, amended. For every list `L` of pairs whose keys are pairwise distinct, in particular
the `begin()..end()` range of a reachable map: the range constructor returns, and the map it
returns yields exactly `L`. -/
theorem C9_construct_roundtrip (L : List (K × V)) (hasher : K → Nat)
    (hL : (L.map Prod.fst).Nodup ∨ ∃ m0 : HashMap K V, Reachable m0 ∧ Yields m0 L) :
    (∃ fuel m, HashMap.ofList fuel L hasher = some m)
      ∧ ∀ fuel m, HashMap.ofList fuel L hasher = some m → Yields m L := by
  have hnd : (L.map Prod.fst).Nodup := by
    rcases hL with h | ⟨m0, hr, hy⟩
    · exact h
    · exact hr.yields_nodup hy
  refine ⟨?_, fun fuel m hm => ?_⟩
  · exact foldlM_insert_returns L (HashMap.default hasher) [] ⟨[], new_inv _ _, rfl⟩
      (show 0 < 8 by decide)
  · have habs := ofList_abs hm
    rw [foldl_refInsert_nodup L [] hnd (by simp)] at habs
    simpa using habs.yields

/-- Witness of C9, amended: the literal list `{(1,'a'), (2,'b'), (3,'c')}`. -/
theorem C9_construct_roundtrip_witness :
    (∃ fuel m, HashMap.ofList fuel [(1, 'a'), (2, 'b'), (3, 'c')] idHash = some m)
      ∧ ∀ fuel m, HashMap.ofList fuel [(1, 'a'), (2, 'b'), (3, 'c')] idHash = some m →
          Yields m ([(1, 'a'), (2, 'b'), (3, 'c')] : List (Nat × Char)) :=
  C9_construct_roundtrip [(1, 'a'), (2, 'b'), (3, 'c')] idHash (Or.inl (by decide))

/-- C10, evaluated on `a` = the default-constructed map with the identity hash and `b` = the
map `{1:'a'}` built with the hash `k + 1`: `b.find(1)` is slot 2; after `a.swap(b)` the map
`a` holds the table, order index and counters of `b` but still hashes with the identity, so
its hash function is not the one of `b`, and `a.find(1)` is `end()` although the traversal of
`a` contains `(1,'a')`; a following `a.insert({1,'z'})` even adds a second entry for key 1. -/
theorem C10_swap_keeps_hasher :
    HashMap.insert 20 (HashMap.default shiftHash) (1, 'a') = some shiftMap
      ∧ shiftMap.find 20 1 = some 2
      ∧ ((HashMap.default idHash).swap shiftMap).1.hash_table = shiftMap.hash_table
      ∧ ((HashMap.default idHash).swap shiftMap).1.hasher 1 = 1
      ∧ shiftMap.hasher 1 = 2
      ∧ ((HashMap.default idHash).swap shiftMap).1.items 20 = some [(1, 'a')]
      ∧ ((HashMap.default idHash).swap shiftMap).1.find 20 1
          = some ((HashMap.default idHash).swap shiftMap).1.pos_end
      ∧ (((HashMap.default idHash).swap shiftMap).1.insert 20 (1, 'z')).bind
          (fun m => m.items 20) = some [(1, 'a'), (1, 'z')] :=
  ⟨rfl, rfl, rfl, rfl, rfl, rfl, rfl, rfl⟩

end Claims

section Policy

variable {K V : Type} [Inhabited K] [Inhabited V] [DecidableEq K]

/-! ## The checks at the top of `insert` and `erase` -/

theorem copy_eq (m : HashMap K V) : m.copy = m := by
  cases m
  rfl

theorem insertLoop_capacity {m r : HashMap K V} {bond : K × V} {fuel pos : Nat}
    (h : m.insertLoop bond fuel pos = some r) : r.table_capacity = m.table_capacity := by
  rw [insertLoop_eq_scan] at h
  obtain ⟨s, _, hr⟩ := Option.map_eq_some'.1 h
  rw [← hr]
  split
  · rfl
  · exact place_table_capacity _ _ _

theorem eraseLoop_frame {m r : HashMap K V} {key : K} {fuel pos : Nat}
    (h : m.eraseLoop key fuel pos = some r) :
    r.table_size = m.table_size ∧ r.table_capacity = m.table_capacity := by
  rw [eraseLoop_eq_scan] at h
  obtain ⟨s, _, hr⟩ := Option.map_eq_some'.1 h
  rw [← hr]
  split
  · exact ⟨unlink_table_size _ _, unlink_table_capacity _ _⟩
  · exact ⟨rfl, rfl⟩

theorem erase_ts_pos {m r : HashMap K V} {fuel : Nat} {key : K}
    (h : HashMap.erase fuel m key = some r) : 0 < r.table_size := by
  unfold HashMap.erase at h
  obtain ⟨m1, _, h⟩ := Option.bind_eq_some.1 h
  obtain ⟨hh, hhash, h⟩ := Option.bind_eq_some.1 h
  rw [(eraseLoop_frame h).1]
  exact (get_hash_eq_some hhash).1

/-- A call of `rehash` has one result, whatever the fuel. -/
theorem rehash_det {m r1 r2 : HashMap K V} {f1 f2 num den : Nat}
    (h1 : m.rehash f1 num den = some r1) (h2 : m.rehash f2 num den = some r2) : r1 = r2 := by
  have a := rehash_mono h1 (le_max_left f1 f2)
  have b := rehash_mono h2 (le_max_right f1 f2)
  rw [a] at b
  exact Option.some.inj b

/-- A call of `insert` has one result, whatever the fuel. -/
theorem insert_det {m r1 r2 : HashMap K V} {f1 f2 : Nat} {bond : K × V}
    (h1 : HashMap.insert f1 m bond = some r1) (h2 : HashMap.insert f2 m bond = some r2) :
    r1 = r2 := by
  have a := insert_mono _ _ _ _ _ h1 (le_max_left f1 f2)
  have b := insert_mono _ _ _ _ _ h2 (le_max_right f1 f2)
  rw [a] at b
  exact Option.some.inj b

/-- A call of `erase` has one result, whatever the fuel. -/
theorem erase_det {m r1 r2 : HashMap K V} {f1 f2 : Nat} {key : K}
    (h1 : HashMap.erase f1 m key = some r1) (h2 : HashMap.erase f2 m key = some r2) :
    r1 = r2 := by
  have a := erase_mono h1 (le_max_left f1 f2)
  have b := erase_mono h2 (le_max_right f1 f2)
  rw [a] at b
  exact Option.some.inj b

/-- Every returning rebuild into a table with room for the live entries gives a tombstone-free
table of the requested size. -/
theorem Inv.rehash_facts {m : HashMap K V} {ps : List Nat} (h : Inv m ps) (num den : Nat)
    (hpos : 0 < m.table_size * num / den)
    (hroom : ps.length ≤ m.table_size * num / den * kOriginalCapacity / kOriginalSize + 1)
    {fuel : Nat} {r : HashMap K V} (hr : m.rehash fuel num den = some r) :
    r.table_size = m.table_size * num / den ∧ r.cnt_deleted = 0 := by
  obtain ⟨f1, r1, h1, hts, hdel⟩ := h.rehash_total num den hpos hroom
  have := rehash_det hr h1
  subst this
  exact ⟨hts, hdel⟩

/-- Test of hash_map.h:250, which guards `rehash(2)`. -/
@[reducible] def HashMap.growDue (m : HashMap K V) : Prop :=
  m.cnt_deleted + m.cnt_non_deleted > m.table_capacity

/-- Test of hash_map.h:254, which guards `rehash(1)`. -/
@[reducible] def HashMap.compactDue (m : HashMap K V) : Prop :=
  2 * (m.cnt_deleted + m.cnt_non_deleted) > m.table_capacity
    ∧ m.cnt_deleted > m.cnt_non_deleted

/-- Test of hash_map.h:271, which guards `rehash(0.5)`. -/
@[reducible] def HashMap.shrinkDue (m : HashMap K V) : Prop :=
  4 * m.cnt_non_deleted < m.table_capacity

/-- The two checks at the top of `insert`, hash_map.h:250-256: the map on which the probe
loop of `insert` starts. -/
def HashMap.insert_checks (fuel : Nat) (m : HashMap K V) : Option (HashMap K V) :=
  (if m.cnt_deleted + m.cnt_non_deleted > m.table_capacity then
      rehashWith (HashMap.insert fuel) fuel m 2 1
    else some m).bind fun m1 =>
  if 2 * (m1.cnt_deleted + m1.cnt_non_deleted) > m1.table_capacity
        ∧ m1.cnt_deleted > m1.cnt_non_deleted then
      rehashWith (HashMap.insert fuel) fuel m1 1 1
    else some m1

/-- The method `insert` is its two checks followed by its probe loop. -/
theorem insert_succ (fuel : Nat) (m : HashMap K V) (bond : K × V) :
    HashMap.insert (fuel + 1) m bond
      = (m.insert_checks fuel).bind fun (m2 : HashMap K V) =>
          (m2.get_hash bond.1).bind fun h => m2.insertLoop bond fuel h := by
  conv_lhs => unfold HashMap.insert
  unfold HashMap.insert_checks
  rw [Option.bind_assoc]

theorem insert_checks_mono {m r : HashMap K V} {f1 f2 : Nat}
    (h : m.insert_checks f1 = some r) (hle : f1 ≤ f2) : m.insert_checks f2 = some r := by
  have ih : ∀ (cur : HashMap K V) (b : K × V) (r : HashMap K V),
      HashMap.insert f1 cur b = some r → HashMap.insert f2 cur b = some r :=
    fun cur b r hr => insert_mono f1 f2 cur b r hr hle
  unfold HashMap.insert_checks at h ⊢
  obtain ⟨m1, h1, h2⟩ := Option.bind_eq_some.1 h
  have e1 : (if m.cnt_deleted + m.cnt_non_deleted > m.table_capacity then
      rehashWith (HashMap.insert f2) f2 m 2 1 else some m) = some m1 := by
    split
    · rename_i hc
      rw [if_pos hc] at h1
      exact rehashWith_mono ih h1 hle
    · rename_i hc
      rw [if_neg hc] at h1
      exact h1
  rw [e1, Option.some_bind]
  split
  · rename_i hc
    rw [if_pos hc] at h2
    exact rehashWith_mono ih h2 hle
  · rename_i hc
    rw [if_neg hc] at h2
    exact h2

/-- What the checks of `insert` return on an invariant state: the same entries, in a table
chosen by the resize policy, with load at most the capacity. -/
theorem Inv.checks_spec {m : HashMap K V} {ps : List Nat} (h : Inv m ps) {fuel : Nat}
    {m2 : HashMap K V} (hr : m.insert_checks fuel = some m2) :
    Abs m2 (m.cells ps) ∧ m2.hasher = m.hasher
      ∧ m2.cnt_deleted + m2.cnt_non_deleted ≤ m2.table_capacity
      ∧ (m.growDue → m.rehash fuel 2 1 = some m2 ∧ m2.table_size = 2 * m.table_size
          ∧ m2.cnt_deleted = 0)
      ∧ (¬ m.growDue → m.compactDue → m.rehash fuel 1 1 = some m2
          ∧ m2.table_size = m.table_size ∧ m2.cnt_deleted = 0)
      ∧ (¬ m.growDue → ¬ m.compactDue → m2 = m) := by
  have habs : Abs m (m.cells ps) := ⟨ps, h, rfl⟩
  have hcnt := h.count_le
  have hlen := h.cnt_len
  have hcap := h.cap_eq
  unfold kOriginalCapacity kOriginalSize at hcap
  unfold HashMap.insert_checks at hr
  obtain ⟨m1, h1, h2⟩ := Option.bind_eq_some.1 hr
  by_cases hg : m.cnt_deleted + m.cnt_non_deleted > m.table_capacity
  · rw [if_pos hg] at h1
    have h1r : m.rehash fuel 2 1 = some m1 := h1
    obtain ⟨hts1, hdel1⟩ := h.rehash_facts 2 1 (by omega)
      (by unfold kOriginalCapacity kOriginalSize; omega) h1r
    obtain ⟨habs1, hh1⟩ := rehash_abs habs h1r
    have hsize1 := habs1.size_eq
    obtain ⟨ps1, hinv1, _⟩ := id habs1
    have hcap1 := hinv1.cap_eq
    unfold kOriginalCapacity kOriginalSize at hcap1
    unfold HashMap.size at hsize1
    simp only [HashMap.cells, List.length_map] at hsize1
    rw [if_neg (by omega)] at h2
    have hm : m1 = m2 := Option.some.inj h2
    subst hm
    refine ⟨habs1, hh1, by omega, fun _ => ⟨h1r, by omega, hdel1⟩, fun hng => absurd hg hng,
      fun hng => absurd hg hng⟩
  · rw [if_neg hg] at h1
    have hm : m = m1 := Option.some.inj h1
    subst hm
    by_cases hc : 2 * (m.cnt_deleted + m.cnt_non_deleted) > m.table_capacity
        ∧ m.cnt_deleted > m.cnt_non_deleted
    · rw [if_pos hc] at h2
      have h2r : m.rehash fuel 1 1 = some m2 := h2
      obtain ⟨hts2, hdel2⟩ := h.rehash_facts 1 1 (by omega)
        (by unfold kOriginalCapacity kOriginalSize; omega) h2r
      obtain ⟨habs2, hh2⟩ := rehash_abs habs h2r
      have hsize2 := habs2.size_eq
      obtain ⟨ps2, hinv2, _⟩ := id habs2
      have hcap2 := hinv2.cap_eq
      unfold kOriginalCapacity kOriginalSize at hcap2
      unfold HashMap.size at hsize2
      simp only [HashMap.cells, List.length_map] at hsize2
      have hts2b : m2.table_size = m.table_size := by rw [hts2]; omega
      refine ⟨habs2, hh2, ?_, fun hgg => absurd hgg hg, fun _ _ => ⟨h2r, hts2b, hdel2⟩,
        fun _ hnc => absurd hc hnc⟩
      rw [hts2b] at hcap2
      omega
    · rw [if_neg hc] at h2
      have hm : m = m2 := Option.some.inj h2
      subst hm
      exact ⟨habs, rfl, by omega, fun hgg => absurd hgg hg, fun _ hcc => absurd hcc hc,
        fun _ _ => rfl⟩

/-- The checks of `insert` return on every invariant state. -/
theorem Inv.checks_total {m : HashMap K V} {ps : List Nat} (h : Inv m ps) :
    ∃ fuel m2, m.insert_checks fuel = some m2 := by
  have hcnt := h.count_le
  have hlen := h.cnt_len
  have hcap := h.cap_eq
  unfold kOriginalCapacity kOriginalSize at hcap
  by_cases hg : m.cnt_deleted + m.cnt_non_deleted > m.table_capacity
  · obtain ⟨f1, m1, h1, hts1, hdel1⟩ := h.rehash_total 2 1 (by omega)
      (by unfold kOriginalCapacity kOriginalSize; omega)
    have e1 : rehashWith (HashMap.insert f1) f1 m 2 1 = some m1 := h1
    refine ⟨f1, m1, ?_⟩
    unfold HashMap.insert_checks
    rw [if_pos hg, e1, Option.some_bind, if_neg (by omega)]
  · by_cases hc : 2 * (m.cnt_deleted + m.cnt_non_deleted) > m.table_capacity
        ∧ m.cnt_deleted > m.cnt_non_deleted
    · obtain ⟨f1, m1, h1, _, _⟩ := h.rehash_total 1 1 (by omega)
        (by unfold kOriginalCapacity kOriginalSize; omega)
      have e1 : rehashWith (HashMap.insert f1) f1 m 1 1 = some m1 := h1
      refine ⟨f1, m1, ?_⟩
      unfold HashMap.insert_checks
      rw [if_neg hg, Option.some_bind, if_pos hc, e1]
    · refine ⟨0, m, ?_⟩
      unfold HashMap.insert_checks
      rw [if_neg hg, Option.some_bind, if_neg hc]

/-- With load at most the capacity, in a table of at least one slot, there is an Empty slot
and the probe loop of `insert` returns within `table_size` steps. -/
theorem Inv.probe_ready {m : HashMap K V} {ps : List Nat} (h : Inv m ps)
    (hts : 0 < m.table_size) (hload : m.cnt_deleted + m.cnt_non_deleted ≤ m.table_capacity) :
    m.table_capacity < m.table_size
      ∧ (∃ e, e < m.table_size ∧ (m.node e).has_created = false)
      ∧ ∀ bond : K × V, ∃ r,
          m.insertLoop bond m.table_size (m.hasher bond.1 % m.table_size) = some r := by
  have hcap := cap_lt hts
  rw [← h.cap_eq] at hcap
  exact ⟨hcap, h.exists_empty (by omega), fun bond => h.insertLoop_total (by omega) bond⟩

end Policy

section Links

variable {K V : Type} [Inhabited K] [Inhabited V]

/-! ## The links of the order index, position by position -/

theorem Tail.fwd_getD {f b : Nat → Nat} {e : Nat} :
    ∀ {prev : Nat} {rest : List Nat}, Tail f b e prev rest → ∀ i, i < (prev :: rest).length →
      f ((prev :: rest).getD i 0) = ((prev :: rest) ++ [e]).getD (i + 1) 0
  | prev, [], h, i, hi => by
    have : i = 0 := by simpa using hi
    subst this
    simpa using h.1
  | prev, p :: rest, h, i, hi => by
    obtain ⟨h1, _, h3⟩ := h
    cases i with
    | zero => simpa using h1
    | succ j =>
      have := Tail.fwd_getD h3 j (by simpa using hi)
      simpa using this

theorem Tail.bwd_getD {f b : Nat → Nat} {e : Nat} :
    ∀ {prev : Nat} {rest : List Nat}, Tail f b e prev rest → ∀ i,
      i + 1 < (prev :: rest).length →
      b ((prev :: rest).getD (i + 1) 0) = (prev :: rest).getD i 0
  | prev, [], _, i, hi => by simp at hi
  | prev, p :: rest, h, i, hi => by
    obtain ⟨_, h2, h3⟩ := h
    cases i with
    | zero => simpa using h2
    | succ j =>
      have := Tail.bwd_getD h3 j (by simpa using hi)
      simpa using this

theorem Tail.bwd_end {f b : Nat → Nat} {e : Nat} :
    ∀ {prev : Nat} {rest : List Nat}, Tail f b e prev rest →
      (prev :: rest).getLast? = some (b e) ∧ f (b e) = e
  | prev, [], h => by
    refine ⟨by simp [h.2], by rw [h.2]; exact h.1⟩
  | prev, p :: rest, h => by
    obtain ⟨_, _, h3⟩ := h
    have := Tail.bwd_end h3
    refine ⟨?_, this.2⟩
    rw [List.getLast?_cons_cons]
    exact this.1

theorem slotsFrom_tail (m : HashMap K V) :
    ∀ (rest : List Nat) (prev fuel : Nat), Tail m.fwd m.bwd m.pos_end prev rest →
      (∀ x, x ∈ rest → x ≠ m.pos_end) →
      m.slotsFrom fuel (m.fwd prev) = if rest.length < fuel then some rest else none
  | [], prev, fuel, h, _ => by
    cases fuel with
    | zero => rfl
    | succ f =>
      unfold HashMap.slotsFrom
      simp [h.1]
  | p :: r, prev, fuel, h, hne => by
    cases fuel with
    | zero => rfl
    | succ f =>
      obtain ⟨h1, _, h3⟩ := h
      unfold HashMap.slotsFrom HashMap.next
      rw [h1, if_neg (hne p (by simp)),
        slotsFrom_tail m r p f h3 (fun x hx => hne x (List.mem_cons_of_mem _ hx))]
      by_cases hlt : r.length < f
      · simp [hlt]
      · simp [hlt]

/-- In an invariant state the traversal visits the positions `ps`, in that order. -/
theorem Inv.slots_eq {m : HashMap K V} {ps : List Nat} (h : Inv m ps) (fuel : Nat) :
    m.slots fuel = if ps.length < fuel then some ps else none := by
  have hne : ∀ x, x ∈ ps → x ≠ m.pos_end := fun x hx => by
    have := h.lt hx
    rw [h.end_eq]; omega
  have hchain := h.chain
  rw [← h.end_eq] at hchain
  unfold HashMap.slots
  cases ps with
  | nil =>
    cases fuel with
    | zero => rfl
    | succ f =>
      unfold HashMap.slotsFrom
      have hb : m.pos_begin = m.pos_end := hchain
      rw [if_pos hb]
      simp
  | cons p r =>
    obtain ⟨h1, h2⟩ := hchain
    cases fuel with
    | zero => rfl
    | succ f =>
      unfold HashMap.slotsFrom HashMap.next
      rw [h1, if_neg (hne p (by simp)),
        slotsFrom_tail m r p f h2 (fun x hx => hne x (List.mem_cons_of_mem _ hx))]
      by_cases hlt : r.length < f
      · simp [hlt]
      · simp [hlt]

/-- The probe path in closed form: `j` steps of `inc` from `h` lead to `(h + j) % table_size`. -/
theorem iter_inc_mod (m : HashMap K V) (j : Nat) {h : Nat} (hh : h < m.table_size) :
    (m.inc)^[j] h = (h + j) % m.table_size := by
  induction j with
  | zero => simp [Nat.mod_eq_of_lt hh]
  | succ j ih =>
    rw [Function.iterate_succ_apply', ih]
    have hlt : (h + j) % m.table_size < m.table_size := Nat.mod_lt _ (by omega)
    unfold HashMap.inc
    have hsum : (h + (j + 1)) % m.table_size
        = ((h + j) % m.table_size + 1) % m.table_size := by
      rw [← Nat.add_assoc]
      exact (Nat.mod_add_mod _ _ _).symm
    rw [hsum]
    split
    · rename_i heq
      rw [heq, Nat.mod_self]
    · rename_i hne
      rw [Nat.mod_eq_of_lt (show (h + j) % m.table_size + 1 < m.table_size by omega)]

end Links

section MoreCalls

variable {K V : Type} [Inhabited K] [Inhabited V] [DecidableEq K]

/-! ## `clear`, `operator[]` and sequences of calls -/

/-- A property kept by `ins` is kept by the replay loop. -/
theorem replay_invariant (P : HashMap K V → Prop)
    (ins : HashMap K V → K × V → Option (HashMap K V))
    (hP : ∀ cur b r, P cur → ins cur b = some r → P r) (src : HashMap K V) :
    ∀ (fuel pos : Nat) (cur r : HashMap K V), P cur → replay ins src fuel pos cur = some r → P r
  | 0, _, _, _, _, h => by
    unfold replay at h
    exact Option.noConfusion h
  | f + 1, pos, cur, r, hcur, h => by
    unfold replay at h
    split at h
    · have : cur = r := Option.some.inj h
      subst this
      exact hcur
    · obtain ⟨cur1, h1, h2⟩ := Option.bind_eq_some.1 h
      exact replay_invariant P ins hP src f _ cur1 r (hP _ _ _ hcur h1) h2

theorem mem_keys_refErase (L : List (K × V)) (k k0 : K) :
    k ∈ (refErase L k0).map Prod.fst ↔ k ∈ L.map Prod.fst ∧ k ≠ k0 := by
  unfold refErase
  simp only [List.mem_map, List.mem_filter, decide_eq_true_eq]
  constructor
  · rintro ⟨c, ⟨hc, hne⟩, rfl⟩
    exact ⟨⟨c, hc, rfl⟩, hne⟩
  · rintro ⟨⟨c, hc, rfl⟩, hne⟩
    exact ⟨c, ⟨hc, hne⟩, rfl⟩

theorem foldl_refErase (Ls : List (K × V)) :
    ∀ Lc : List (K × V), Ls.foldl (fun L b => refErase L b.1) Lc
      = Lc.filter fun c => decide (c.1 ∉ Ls.map Prod.fst) := by
  induction Ls with
  | nil =>
    intro Lc
    simp
  | cons c Ls ih =>
    intro Lc
    rw [List.foldl_cons, ih]
    unfold refErase
    rw [List.filter_filter]
    apply List.filter_congr
    intro x _
    simp only [List.map_cons, List.mem_cons, not_or, Bool.decide_and, Bool.and_comm]

theorem foldl_refErase_self (L : List (K × V)) :
    L.foldl (fun L b => refErase L b.1) L = [] := by
  rw [foldl_refErase, List.filter_eq_nil_iff]
  intro c hc
  have : c.1 ∈ L.map Prod.fst := List.mem_map_of_mem _ hc
  simpa using this

theorem foldlM_erase_abs {fuel : Nat} :
    ∀ (Ls : List (K × V)) (cur : HashMap K V) (Lc : List (K × V)) (r : HashMap K V),
      Abs cur Lc → Ls.foldlM (fun c b => HashMap.erase fuel c b.1) cur = some r →
      Abs r (Ls.foldl (fun L b => refErase L b.1) Lc) ∧ r.hasher = cur.hasher
  | [], cur, Lc, r, habs, hr => by
    have : cur = r := by simpa using hr
    subst this
    exact ⟨habs, rfl⟩
  | c :: Ls, cur, Lc, r, habs, hr => by
    rw [List.foldlM_cons] at hr
    obtain ⟨cur1, h1, h2⟩ := Option.bind_eq_some.1 hr
    obtain ⟨habs1, hh1⟩ := erase_abs habs h1
    obtain ⟨habs2, hh2⟩ := foldlM_erase_abs Ls cur1 (refErase Lc c.1) r habs1 h2
    exact ⟨habs2, by rw [hh2, hh1]⟩

theorem Inv.clear_eq {m : HashMap K V} {ps : List Nat} (h : Inv m ps) (fuel : Nat) :
    m.clear fuel = if ps.length < fuel then
        (m.cells ps).foldlM (fun c b => HashMap.erase fuel c b.1) m else none := by
  unfold HashMap.clear
  simp only [copy_eq]
  exact h.replay_eq _ fuel m

/-- Partial correctness of `clear`: a returning call leaves the empty map. -/
theorem clear_abs {m m2 : HashMap K V} {L : List (K × V)} (habs : Abs m L) {fuel : Nat}
    (hr : m.clear fuel = some m2) : Abs m2 [] ∧ m2.hasher = m.hasher := by
  obtain ⟨ps, hinv, hL⟩ := id habs
  rw [hinv.clear_eq] at hr
  split at hr
  · rw [hL] at hr
    have := foldlM_erase_abs L m L m2 habs hr
    rw [foldl_refErase_self] at this
    exact this
  · exact Option.noConfusion hr

theorem foldlM_erase_total :
    ∀ (Ls : List (K × V)) (cur : HashMap K V) (Lc : List (K × V)), Abs cur Lc →
      (Ls.map Prod.fst).Nodup → (∀ c, c ∈ Ls → c.1 ∈ Lc.map Prod.fst) →
      ∃ fuel r, Ls.foldlM (fun c b => HashMap.erase fuel c b.1) cur = some r
  | [], cur, _, _, _, _ => ⟨0, cur, by simp⟩
  | c :: Ls, cur, Lc, habs, hnd, hmem => by
    simp only [List.map_cons, List.nodup_cons] at hnd
    obtain ⟨f1, cur1, h1⟩ := habs.erase_total (hmem c (by simp))
    have habs1 := (erase_abs habs h1).1
    have hmem1 : ∀ c2, c2 ∈ Ls → c2.1 ∈ (refErase Lc c.1).map Prod.fst := by
      intro c2 hc2
      rw [mem_keys_refErase]
      refine ⟨hmem c2 (List.mem_cons_of_mem _ hc2), ?_⟩
      intro he
      exact hnd.1 (he ▸ List.mem_map_of_mem _ hc2)
    obtain ⟨f2, r, h2⟩ := foldlM_erase_total Ls cur1 _ habs1 hnd.2 hmem1
    refine ⟨max f1 f2, r, ?_⟩
    rw [List.foldlM_cons, erase_mono h1 (le_max_left _ _)]
    exact foldlM_mono (fun cur b r hr => erase_mono hr (le_max_right _ _)) _ _ r h2

/-- Totality of `clear` on invariant states. -/
theorem Abs.clear_total {m : HashMap K V} {L : List (K × V)} (habs : Abs m L) :
    ∃ fuel r, m.clear fuel = some r := by
  obtain ⟨ps, hinv, hL⟩ := id habs
  obtain ⟨f1, r, h1⟩ := foldlM_erase_total L m L habs habs.keys_nodup (fun c hc =>
    List.mem_map_of_mem _ hc)
  refine ⟨max f1 (ps.length + 1), r, ?_⟩
  rw [hinv.clear_eq, if_pos (by omega), hL]
  exact foldlM_mono (fun cur b r hr => erase_mono hr (le_max_left _ _)) _ _ r h1

/-- The map after `operator[]` is the map before it, or the result of inserting the key with
a default value. -/
theorem index_cases {m m2 : HashMap K V} {fuel : Nat} {key : K} {v : V}
    (h : m.index fuel key = some (v, m2)) :
    m2 = m ∨ HashMap.insert fuel m (key, (Inhabited.default : V)) = some m2 := by
  unfold HashMap.index at h
  obtain ⟨it, _, h⟩ := Option.bind_eq_some.1 h
  split at h
  · obtain ⟨m1, h1, h⟩ := Option.bind_eq_some.1 h
    obtain ⟨it1, _, h⟩ := Option.map_eq_some'.1 h
    have : m1 = m2 := (Prod.mk.inj h).2
    subst this
    exact Or.inr h1
  · exact Or.inl (Prod.mk.inj (Option.some.inj h)).2.symm

theorem apply_abs {m m2 : HashMap K V} {L : List (K × V)} (habs : Abs m L) {fuel : Nat}
    {op : Op K V} (h : m.apply fuel op = some m2) : ∃ L2, Abs m2 L2 := by
  cases op with
  | insert bond => exact ⟨_, (insert_abs _ _ _ _ _ habs h).1⟩
  | erase key => exact ⟨_, (erase_abs habs h).1⟩
  | clear => exact ⟨_, (clear_abs habs h).1⟩
  | index key =>
    obtain ⟨⟨v, m3⟩, h1, h2⟩ := Option.map_eq_some'.1 h
    have : m3 = m2 := h2
    subst this
    rcases index_cases h1 with he | hi
    · subst he
      exact ⟨L, habs⟩
    · exact ⟨_, (insert_abs _ _ _ _ _ habs hi).1⟩

theorem apply_reachable {m m2 : HashMap K V} (hreach : Reachable m) {fuel : Nat}
    {op : Op K V} (h : m.apply fuel op = some m2) : Reachable m2 := by
  cases op with
  | insert bond => exact Reachable.insert fuel bond hreach h
  | erase key => exact Reachable.erase fuel key hreach h
  | clear =>
    exact replay_invariant Reachable _ (fun cur b r hcur hr => Reachable.erase fuel b.1 hcur hr)
      _ _ _ _ _ hreach h
  | index key =>
    obtain ⟨⟨v, m3⟩, h1, h2⟩ := Option.map_eq_some'.1 h
    have : m3 = m2 := h2
    subst this
    rcases index_cases h1 with he | hi
    · subst he
      exact hreach
    · exact Reachable.insert fuel _ hreach hi

/-- Maps reached through `clear` and `operator[]` are maps reached by `insert` and `erase`. -/
theorem exec_reachable {fuel : Nat} :
    ∀ (ops : List (Op K V)) {m m2 : HashMap K V}, Reachable m →
      m.exec fuel ops = some m2 → Reachable m2
  | [], m, m2, h, hr => by
    have : m = m2 := by simpa [HashMap.exec] using hr
    subst this
    exact h
  | c :: ops, m, m2, h, hr => by
    unfold HashMap.exec at hr
    rw [List.foldlM_cons] at hr
    obtain ⟨m1, h1, h2⟩ := Option.bind_eq_some.1 hr
    exact exec_reachable ops (apply_reachable h h1) h2

theorem apply_ts_pos {m m2 : HashMap K V} (hts : 0 < m.table_size) {fuel : Nat}
    {op : Op K V} (h : m.apply fuel op = some m2) : 0 < m2.table_size := by
  cases op with
  | insert bond => exact insert_ts_pos h
  | erase key => exact erase_ts_pos h
  | clear =>
    exact replay_invariant (fun c => 0 < c.table_size) _ (fun cur b r _ hr => erase_ts_pos hr)
      _ _ _ _ _ hts h
  | index key =>
    obtain ⟨⟨v, m3⟩, h1, h2⟩ := Option.map_eq_some'.1 h
    have : m3 = m2 := h2
    subst this
    rcases index_cases h1 with he | hi
    · subst he
      exact hts
    · exact insert_ts_pos hi

theorem exec_ts_pos {fuel : Nat} :
    ∀ (ops : List (Op K V)) {m m2 : HashMap K V}, 0 < m.table_size →
      m.exec fuel ops = some m2 → 0 < m2.table_size
  | [], m, m2, h, hr => by
    have : m = m2 := by simpa [HashMap.exec] using hr
    subst this
    exact h
  | c :: ops, m, m2, h, hr => by
    unfold HashMap.exec at hr
    rw [List.foldlM_cons] at hr
    obtain ⟨m1, h1, h2⟩ := Option.bind_eq_some.1 hr
    exact exec_ts_pos ops (apply_ts_pos h h1) h2

end MoreCalls

section Counting

variable {K V : Type} [Inhabited K] [Inhabited V] [DecidableEq K]

/-! ## The counters, on every state that the public interface can produce -/

/-- The counters agree with the slot table: `cnt_non_deleted` counts the Occupied slots and
`cnt_deleted` the Tombstones of a table of `table_size` slots. -/
def Counted (m : HashMap K V) : Prop :=
  m.hash_table.length = m.table_size
    ∧ m.cnt_non_deleted = m.hash_table.countP Node.occ
    ∧ m.cnt_deleted = m.hash_table.countP Node.tomb

theorem Counted.le {m : HashMap K V} (h : Counted m) :
    m.cnt_non_deleted + m.cnt_deleted ≤ m.table_size := by
  obtain ⟨hlen, hocc, htomb⟩ := h
  have hc := countP_created m.hash_table
  have := List.countP_le_length (fun n : Node K V => n.has_created) (l := m.hash_table)
  omega

theorem Inv.counted {m : HashMap K V} {ps : List Nat} (h : Inv m ps) : Counted m :=
  ⟨h.len_table, h.cnt_occ, h.cnt_tomb⟩

theorem new_counted (n : Nat) (hasher : K → Nat) : Counted (HashMap.new n hasher : HashMap K V) :=
  (new_inv n hasher).counted

theorem place_counted {m : HashMap K V} (h : Counted m) {q : Nat} (bond : K × V)
    (hq : q < m.table_size) (hempty : (m.node q).has_created = false) :
    Counted (m.place q bond) := by
  obtain ⟨hlen, hocc, htomb⟩ := h
  have hqlen : q < m.hash_table.length := by rw [hlen]; exact hq
  have hocc_old : Node.occ (m.hash_table.getD q default) = false := by
    show (m.node q).occ = false
    unfold Node.occ; rw [hempty]; rfl
  have htomb_old : Node.tomb (m.hash_table.getD q default) = false := by
    show (m.node q).tomb = false
    unfold Node.tomb; rw [hempty]; rfl
  refine ⟨?_, ?_, ?_⟩
  · rw [place_hash_table, List.length_set, place_table_size, hlen]
  · rw [place_cnt_non_deleted, place_hash_table, hocc]
    have := countP_set Node.occ m.hash_table q (Node.ofPair bond) default hqlen
    rw [hocc_old] at this
    simp [Node.occ, Node.ofPair] at this
    simp [Node.occ, Node.ofPair]
    omega
  · rw [place_cnt_deleted, place_hash_table, htomb]
    have := countP_set Node.tomb m.hash_table q (Node.ofPair bond) default hqlen
    rw [htomb_old] at this
    simp [Node.tomb, Node.ofPair] at this
    simp [Node.tomb, Node.ofPair]
    omega

theorem unlink_counted {m : HashMap K V} (h : Counted m) {p : Nat}
    (hcr : (m.node p).has_created = true) (hdel : (m.node p).has_deleted = false) :
    Counted (m.unlink p) := by
  obtain ⟨hlen, hocc, htomb⟩ := h
  have hplen : p < m.hash_table.length := lt_of_created m p hcr
  have hold_occ : Node.occ (m.hash_table.getD p default) = true := by
    show (m.node p).occ = true
    unfold Node.occ; rw [hcr, hdel]; rfl
  have hold_tomb : Node.tomb (m.hash_table.getD p default) = false := by
    show (m.node p).tomb = false
    unfold Node.tomb; rw [hcr, hdel]; rfl
  have hnew_occ : Node.occ (⟨(m.node p).cell, (m.node p).has_created, true⟩ : Node K V)
      = false := by
    simp [Node.occ]
  have hnew_tomb : Node.tomb (⟨(m.node p).cell, (m.node p).has_created, true⟩ : Node K V)
      = true := by
    simp [Node.tomb, hcr]
  have hpos : 0 < m.hash_table.countP Node.occ := by
    rw [List.countP_pos_iff]
    exact ⟨m.hash_table.getD p default, by
      rw [List.getD_eq_getElem _ _ hplen]
      exact List.getElem_mem _, hold_occ⟩
  refine ⟨?_, ?_, ?_⟩
  · rw [unlink_hash_table, List.length_set, unlink_table_size, hlen]
  · rw [unlink_cnt_non_deleted, unlink_hash_table]
    have := countP_set Node.occ m.hash_table p
      ⟨(m.node p).cell, (m.node p).has_created, true⟩ default hplen
    rw [hold_occ, hnew_occ] at this
    simp only [if_true, Bool.false_eq_true, if_false] at this
    omega
  · rw [unlink_cnt_deleted, unlink_hash_table]
    have := countP_set Node.tomb m.hash_table p
      ⟨(m.node p).cell, (m.node p).has_created, true⟩ default hplen
    rw [hold_tomb, hnew_tomb] at this
    simp only [if_true, Bool.false_eq_true, if_false] at this
    omega

/-- Where a probe stops: inside the table, on a slot whose `has_created` flag is the first
component of the result; a created slot on which it stops is not deleted. -/
theorem scan_stop {m : HashMap K V} {key : K} {fuel pos : Nat} {r : Bool × Nat}
    (hpos : pos < m.table_size) (h : m.scan key fuel pos = some r) :
    r.2 < m.table_size ∧ (m.node r.2).has_created = r.1
      ∧ (r.1 = true → (m.node r.2).has_deleted = false) := by
  obtain ⟨d, _, _, hstop, hval⟩ := (scan_eq_some m key fuel pos r).1 h
  rw [hval]
  refine ⟨iter_inc_lt m d hpos, rfl, fun hcr => ?_⟩
  rcases hstop with hs | hs
  · rw [hs] at hcr
    exact Bool.noConfusion hcr
  · exact hs.1

theorem insertLoop_counted {m r : HashMap K V} (h : Counted m) {bond : K × V}
    {fuel pos : Nat} (hpos : pos < m.table_size) (hr : m.insertLoop bond fuel pos = some r) :
    Counted r := by
  rw [insertLoop_eq_scan] at hr
  obtain ⟨s, hs, hrs⟩ := Option.map_eq_some'.1 hr
  obtain ⟨h1, h2, _⟩ := scan_stop hpos hs
  rw [← hrs]
  split
  · exact h
  · rename_i hne
    have hf : s.1 = false := by simpa using hne
    exact place_counted h bond h1 (by rw [h2, hf])

theorem eraseLoop_counted {m r : HashMap K V} (h : Counted m) {key : K}
    {fuel pos : Nat} (hpos : pos < m.table_size) (hr : m.eraseLoop key fuel pos = some r) :
    Counted r := by
  rw [eraseLoop_eq_scan] at hr
  obtain ⟨s, hs, hrs⟩ := Option.map_eq_some'.1 hr
  obtain ⟨_, h2, h3⟩ := scan_stop hpos hs
  rw [← hrs]
  split
  · rename_i ht
    exact unlink_counted h (by rw [h2, ht]) (h3 ht)
  · exact h

theorem rehashWith_counted (ins : HashMap K V → K × V → Option (HashMap K V))
    (hins : ∀ cur b r, Counted cur → ins cur b = some r → Counted r)
    {m r : HashMap K V} {fuel num den : Nat} (hr : rehashWith ins fuel m num den = some r) :
    Counted r := by
  rw [rehashWith_eq] at hr
  exact replay_invariant Counted ins hins m fuel _ _ r (new_counted _ _) hr

/-- The method `insert` keeps the counters right, from any state where they are right. -/
theorem insert_counted : ∀ (fuel : Nat) (m : HashMap K V) (bond : K × V) (r : HashMap K V),
    Counted m → HashMap.insert fuel m bond = some r → Counted r
  | 0, _, _, _, _, hr => by
    unfold HashMap.insert at hr
    exact Option.noConfusion hr
  | f + 1, m, bond, r, h, hr => by
    unfold HashMap.insert at hr
    obtain ⟨m1, h1, hr⟩ := Option.bind_eq_some.1 hr
    obtain ⟨m1b, h1b, hr⟩ := Option.bind_eq_some.1 hr
    obtain ⟨hh, hhash, hr⟩ := Option.bind_eq_some.1 hr
    have hc1 : Counted m1 := by
      split at h1
      · exact rehashWith_counted _ (fun cur b r hc hi => insert_counted f cur b r hc hi) h1
      · have : m = m1 := Option.some.inj h1
        subst this
        exact h
    have hc1b : Counted m1b := by
      split at h1b
      · exact rehashWith_counted _ (fun cur b r hc hi => insert_counted f cur b r hc hi) h1b
      · have : m1 = m1b := Option.some.inj h1b
        subst this
        exact hc1
    obtain ⟨hts, hhe⟩ := get_hash_eq_some hhash
    subst hhe
    exact insertLoop_counted hc1b (Nat.mod_lt _ hts) hr

/-- The method `erase` keeps the counters right. -/
theorem erase_counted {m r : HashMap K V} (h : Counted m) {fuel : Nat} {key : K}
    (hr : HashMap.erase fuel m key = some r) : Counted r := by
  unfold HashMap.erase at hr
  obtain ⟨m1, h1, hr⟩ := Option.bind_eq_some.1 hr
  obtain ⟨hh, hhash, hr⟩ := Option.bind_eq_some.1 hr
  have hc1 : Counted m1 := by
    split at h1
    · exact rehashWith_counted _ (fun cur b r hc hi => insert_counted fuel cur b r hc hi) h1
    · have : m = m1 := Option.some.inj h1
      subst this
      exact h
  obtain ⟨hts, hhe⟩ := get_hash_eq_some hhash
  subst hhe
  exact eraseLoop_counted hc1 (Nat.mod_lt _ hts) hr

/-- The method `clear` keeps the counters right. -/
theorem clear_counted {m r : HashMap K V} (h : Counted m) {fuel : Nat}
    (hr : m.clear fuel = some r) : Counted r :=
  replay_invariant Counted _ (fun _ _ _ hc he => erase_counted hc he) _ _ _ _ _ h hr

/-- The method `operator[]` keeps the counters right. -/
theorem index_counted {m r : HashMap K V} (h : Counted m) {fuel : Nat} {key : K} {v : V}
    (hr : m.index fuel key = some (v, r)) : Counted r := by
  rcases index_cases hr with he | hi
  · subst he
    exact h
  · exact insert_counted _ _ _ _ h hi

/-- The method `swap` keeps the counters right on both maps: they travel with the tables. -/
theorem swap_counted {a b : HashMap K V} (ha : Counted a) (hb : Counted b) :
    Counted (a.swap b).1 ∧ Counted (a.swap b).2 :=
  ⟨hb, ha⟩

/-- Maps that the public interface can produce: a constructor, then any calls of `insert`,
`erase`, `clear`, `operator[]` and `swap` (the other members are `const`). -/
inductive Public : HashMap K V → Prop
  | ctor (n : Nat) (hasher : K → Nat) : Public (HashMap.new n hasher)
  | insert {m m2 : HashMap K V} (fuel : Nat) (bond : K × V) :
      Public m → HashMap.insert fuel m bond = some m2 → Public m2
  | erase {m m2 : HashMap K V} (fuel : Nat) (key : K) :
      Public m → HashMap.erase fuel m key = some m2 → Public m2
  | clear {m m2 : HashMap K V} (fuel : Nat) :
      Public m → HashMap.clear fuel m = some m2 → Public m2
  | index {m m2 : HashMap K V} (fuel : Nat) (key : K) (v : V) :
      Public m → HashMap.index fuel m key = some (v, m2) → Public m2
  | swap_this {a b : HashMap K V} : Public a → Public b → Public (a.swap b).1
  | swap_other {a b : HashMap K V} : Public a → Public b → Public (a.swap b).2

theorem Public.slots_counted {m : HashMap K V} (h : Public m) : Counted m := by
  induction h with
  | ctor n hasher => exact new_counted n hasher
  | insert fuel bond _ hr ih => exact insert_counted _ _ _ _ ih hr
  | erase fuel key _ hr ih => exact erase_counted ih hr
  | clear fuel _ hr ih => exact clear_counted ih hr
  | index fuel key v _ hr ih => exact index_counted ih hr
  | swap_this _ _ iha ihb => exact (swap_counted iha ihb).1
  | swap_other _ _ iha ihb => exact (swap_counted iha ihb).2

theorem Reachable.public {m : HashMap K V} (h : Reachable m) : Public m := by
  induction h with
  | ctor n hasher => exact Public.ctor n hasher
  | insert fuel bond _ hr ih => exact Public.insert fuel bond ih hr
  | erase fuel key _ hr ih => exact Public.erase fuel key ih hr

end Counting

section Support

variable {K V : Type} [Inhabited K] [Inhabited V] [DecidableEq K]

/-! ## Further facts about invariant states -/

theorem Inv.begin_end_iff_nil {m : HashMap K V} {ps : List Nat} (h : Inv m ps) :
    m.pos_begin = m.pos_end ↔ ps = [] := by
  have hchain := h.chain
  cases ps with
  | nil =>
    have hb : m.pos_begin = m.table_size := hchain
    simp [hb, h.end_eq]
  | cons p r =>
    have hb : m.pos_begin = p := hchain.1
    have hp := h.lt (List.mem_cons_self p r)
    constructor
    · intro he
      rw [hb, h.end_eq] at he
      omega
    · intro he
      exact absurd he (List.cons_ne_nil _ _)

theorem Abs.begin_eq_end_iff {m : HashMap K V} {L : List (K × V)} (h : Abs m L) :
    m.pos_begin = m.pos_end ↔ L = [] := by
  obtain ⟨ps, hinv, hL⟩ := h
  rw [hinv.begin_end_iff_nil, ← hL]
  unfold HashMap.cells
  simp

theorem Abs.end_eq {m : HashMap K V} {L : List (K × V)} (h : Abs m L) :
    m.pos_end = m.table_size := by
  obtain ⟨ps, hinv, _⟩ := h
  exact hinv.end_eq

/-- On an invariant state `rehash` folds `insert` over the traversal, from the fresh table:
the nested calls are made on the maps obtained from the prefixes of the traversal. -/
theorem Inv.rehash_eq {m : HashMap K V} {ps : List Nat} (h : Inv m ps) (fuel num den : Nat) :
    m.rehash fuel num den
      = if ps.length < fuel then
          (m.cells ps).foldlM (fun c b => HashMap.insert fuel c b)
            (HashMap.new (m.table_size * num / den) m.hasher)
        else none := by
  unfold HashMap.rehash
  rw [rehashWith_eq]
  exact h.replay_eq _ fuel _

theorem foldlM_insert_ts_pos {fuel : Nat} :
    ∀ (Ls : List (K × V)) (cur r : HashMap K V), 0 < cur.table_size →
      Ls.foldlM (fun c b => HashMap.insert fuel c b) cur = some r → 0 < r.table_size
  | [], cur, r, h, hr => by
    have : cur = r := by simpa using hr
    subst this
    exact h
  | c :: Ls, cur, r, _, hr => by
    rw [List.foldlM_cons] at hr
    obtain ⟨cur1, h1, h2⟩ := Option.bind_eq_some.1 hr
    exact foldlM_insert_ts_pos Ls cur1 r (insert_ts_pos h1) h2

/-- The map is ready for the probe loop of `insert`: load at most the capacity, capacity below
the slot count, an Empty slot, and a probe that returns within `table_size` steps for every
pair. -/
def ProbeReady (m : HashMap K V) : Prop :=
  m.cnt_non_deleted + m.cnt_deleted ≤ m.table_capacity
    ∧ m.table_capacity < m.table_size
    ∧ (∃ e, e < m.table_size ∧ (m.node e).has_created = false)
    ∧ ∀ bond : K × V, ∃ r,
        m.insertLoop bond m.table_size (m.hasher bond.1 % m.table_size) = some r

/-- After the checks of `insert` on an invariant state with at least one slot, the map is
ready for the probe loop. -/
theorem Abs.checks_ready {m m2 : HashMap K V} {L : List (K × V)} (habs : Abs m L)
    (hts : 0 < m.table_size) {fuel : Nat} (hr : m.insert_checks fuel = some m2) :
    ProbeReady m2 := by
  obtain ⟨ps, hinv, _⟩ := habs
  obtain ⟨habs2, _, hload, hg, hc, hn⟩ := hinv.checks_spec hr
  obtain ⟨ps2, hinv2, _⟩ := habs2
  have hts2 : 0 < m2.table_size := by
    by_cases hgd : m.growDue
    · rw [(hg hgd).2.1]; omega
    · by_cases hcd : m.compactDue
      · rw [(hc hgd hcd).2.1]; exact hts
      · rw [hn hgd hcd]; exact hts
  obtain ⟨h1, h2, h3⟩ := hinv2.probe_ready hts2 (by omega)
  exact ⟨by omega, h1, h2, h3⟩

/-- On a live key `operator[]` returns the stored value and leaves the map as it is. -/
theorem Abs.index_live {m : HashMap K V} {L : List (K × V)} (h : Abs m L) {k : K} {v : V}
    (hkv : (k, v) ∈ L) : m.index m.table_size k = some (v, m) := by
  obtain ⟨ps, hinv, hL⟩ := h
  rw [← hL] at hkv
  obtain ⟨p, hp, hcell⟩ := List.mem_map.1 hkv
  have hk : (m.node p).get_key = k := by
    unfold Node.get_key
    rw [hcell]
  have hfind := hinv.find_live hp
  rw [hk] at hfind
  have hne : p ≠ m.pos_end := by
    have := hinv.lt hp
    rw [hinv.end_eq]
    omega
  unfold HashMap.index
  rw [hfind, Option.some_bind, if_neg hne, hcell]

/-- On an absent key a returning `operator[]` has appended the key with the default value,
and returns that value. -/
theorem Abs.index_absent {m m2 : HashMap K V} {L : List (K × V)} (h : Abs m L) {k : K}
    {v : V} (hk : k ∉ L.map Prod.fst) {fuel : Nat} (hr : m.index fuel k = some (v, m2)) :
    Abs m2 (L ++ [(k, (Inhabited.default : V))]) ∧ v = (Inhabited.default : V) := by
  obtain ⟨ps, hinv, hL⟩ := id h
  have hk0 : k ∉ (m.cells ps).map Prod.fst := by rw [hL]; exact hk
  unfold HashMap.index at hr
  obtain ⟨it, hit, hr⟩ := Option.bind_eq_some.1 hr
  rw [if_pos (hinv.find_absent hk0 hit)] at hr
  obtain ⟨m1, h1, hr⟩ := Option.bind_eq_some.1 hr
  obtain ⟨it1, hit1, hr⟩ := Option.map_eq_some'.1 hr
  obtain ⟨hv, hm⟩ := Prod.mk.inj hr
  subst hm
  have habs1 := (insert_abs _ _ _ _ _ h h1).1
  have href : refInsert L (k, (Inhabited.default : V)) = L ++ [(k, Inhabited.default)] := by
    unfold refInsert
    rw [if_neg hk]
  rw [href] at habs1
  refine ⟨habs1, ?_⟩
  obtain ⟨ps1, hinv1, hL1⟩ := id habs1
  have hmem : (k, (Inhabited.default : V)) ∈ m1.cells ps1 := by
    rw [hL1]; simp
  obtain ⟨p, hp, hcell⟩ := List.mem_map.1 hmem
  have hkey : (m1.node p).get_key = k := by
    unfold Node.get_key
    rw [hcell]
  have hfind := hinv1.find_live hp
  rw [hkey] at hfind
  have a := find_mono hit1 (le_max_left fuel m1.table_size)
  have b := find_mono hfind (le_max_right fuel m1.table_size)
  rw [a] at b
  have hit : it1 = p := Option.some.inj b
  rw [← hv, hit, hcell]

end Support

/-! ## Further concrete maps -/

/-- The map left by `insert({1,'a'}); insert({2,'b'}); clear()` on the default-constructed
map: `erase(1)` leaves a Tombstone, `erase(2)` first shrinks the table to four slots and then
leaves a Tombstone in slot 2. -/
def clearedMap : HashMap Nat Char :=
  ⟨[default, default, ⟨(2, 'b'), true, true⟩, default],
    ⟨[0, 0, 0, 0, 2], [0, 0, 4, 0, 0]⟩, 4, 4, idHash, 4, 3, 1, 0⟩

theorem clearedMap_exec :
    (HashMap.new 8 idHash).exec 20 [Op.insert (1, 'a'), Op.insert (2, 'b'), Op.clear]
      = some clearedMap :=
  rfl

/-- The map `{1:'a', 9:'b'}` on the default table: both keys hash to slot 1, and key 9 was
displaced to slot 2. -/
def collideMap : HashMap Nat Char :=
  ((HashMap.default idHash).place 1 (1, 'a')).place 2 (9, 'b')

theorem collideMap_run :
    (HashMap.default idHash).run 20 [Call.insert (1, 'a'), Call.insert (9, 'b')]
      = some collideMap :=
  rfl

/-- The calls `fillCalls`, as calls of the whole mutating interface. -/
def fillOps : List (Op Nat Char) :=
  [Op.erase 0, Op.erase 0, Op.erase 0, Op.insert (1, 'a')]

theorem fillOps_exec : (HashMap.new 8 idHash).exec 20 fillOps = some fullMap :=
  rfl

/-- The map `{2:'b'}` left by `insert({1,'a'}); insert({2,'b'}); erase(1)` on the default
table: slot 1 is a Tombstone and slot 2 is the first live entry. -/
def firstErasedMap : HashMap Nat Char :=
  twoMap.unlink 1

theorem firstErasedMap_run :
    (HashMap.default idHash).run 20
        [Call.insert (1, 'a'), Call.insert (2, 'b'), Call.erase 1] = some firstErasedMap :=
  rfl

/-- Seven inserts of distinct keys. -/
def sevenCalls : List (Call Nat Char) :=
  [Call.insert (1, 'a'), Call.insert (2, 'a'), Call.insert (3, 'a'), Call.insert (4, 'a'),
    Call.insert (5, 'a'), Call.insert (6, 'a'), Call.insert (7, 'a')]

/-- The default table after `sevenCalls`: seven of its eight slots are Occupied. -/
def sevenMap : HashMap Nat Char :=
  (((((((HashMap.default idHash).place 1 (1, 'a')).place 2 (2, 'a')).place 3 (3, 'a')).place 4
    (4, 'a')).place 5 (5, 'a')).place 6 (6, 'a')).place 7 (7, 'a')

theorem sevenCalls_run : (HashMap.default idHash).run 20 sevenCalls = some sevenMap :=
  rfl

/-- The growth scenario of the specification, evaluated: on the default map the first seven
inserts of distinct keys keep the table at 8 slots, the eighth makes it 16 slots with capacity
12 and no Tombstone, and the traversal is the eight pairs in insertion order. -/
theorem scenario_growth :
    ((List.range 8).map fun i =>
        ((HashMap.default idHash).run 20 (sevenCalls.take i)).map fun m => m.table_size)
        = [some 8, some 8, some 8, some 8, some 8, some 8, some 8, some 8]
      ∧ sevenMap.size = 7
      ∧ (sevenMap.insert 20 (8, 'a')).map
          (fun m => (m.table_size, m.table_capacity, m.cnt_deleted, m.size))
          = some (16, 12, 0, 8)
      ∧ (sevenMap.insert 20 (8, 'a')).bind (fun m => m.items 20)
          = some [(1, 'a'), (2, 'a'), (3, 'a'), (4, 'a'), (5, 'a'), (6, 'a'), (7, 'a'),
              (8, 'a')]
      ∧ (sevenMap.rehash 20 2 1).bind (fun m => m.items 20) = sevenMap.items 20 :=
  ⟨rfl, rfl, rfl, rfl, rfl⟩

/-! ## Claims on `clear`, `operator[]`, the counters, the probe and the order index -/

section MoreClaims

variable {K V : Type} [Inhabited K] [Inhabited V] [DecidableEq K]

/-- C11. For every reachable map: `clear()` returns, and the map it leaves has `size() == 0`,
`empty()` true, `begin() == end()`, and an empty traversal (whatever rebuilds the `erase`
calls of `clear` went through). -/
theorem C11_clear_empties (m : HashMap K V) (hreach : Reachable m) :
    (∃ fuel m2, m.clear fuel = some m2)
      ∧ ∀ fuel m2, m.clear fuel = some m2 →
          m2.size = 0 ∧ m2.empty = true ∧ m2.pos_begin = m2.pos_end ∧ Yields m2 [] := by
  obtain ⟨L, habs⟩ := hreach.abs
  refine ⟨habs.clear_total, fun fuel m2 hr => ?_⟩
  have h2 := (clear_abs habs hr).1
  have hsize : m2.size = 0 := by rw [h2.size_eq]; rfl
  refine ⟨hsize, ?_, h2.begin_eq_end_iff.2 rfl, h2.yields⟩
  unfold HashMap.size at hsize
  unfold HashMap.empty
  simp [hsize]

/-- Witness of C11: the two-entry map `{1:'a', 2:'b'}`, whose `clear()` goes through a
shrink rebuild. -/
theorem C11_clear_empties_witness :
    (∃ fuel m2, twoMap.clear fuel = some m2)
      ∧ ∀ fuel m2, twoMap.clear fuel = some m2 →
          m2.size = 0 ∧ m2.empty = true ∧ m2.pos_begin = m2.pos_end ∧ Yields m2 [] :=
  C11_clear_empties twoMap
    (Reachable.run [Call.insert (1, 'a'), Call.insert (2, 'b')] (Reachable.ctor 8 idHash)
      twoMap_run)

/-- C12, evaluated on the one-slot map `{1:'a'}` reached by
`erase(0); erase(0); erase(0); insert({1,'a'})` from the default-constructed map: `m[1]`
returns `'a'` and leaves the map as it is, but `m[2]`, for the absent key 2, never returns
(its `find(2)` probes the only slot, Occupied by key 1, forever), so nothing is appended and
no value comes back. -/
theorem C12_index_absent_key_hangs :
    (HashMap.default idHash).run 20 fillCalls = some fullMap
      ∧ fullMap.items 20 = some [(1, 'a')]
      ∧ fullMap.index 20 1 = some ('a', fullMap)
      ∧ ∀ fuel, fullMap.index fuel 2 = none := by
  refine ⟨rfl, rfl, rfl, fun fuel => ?_⟩
  unfold HashMap.index
  rw [fullMap_find 2 (by decide) fuel]
  rfl

/-- C13. For every map reached from a constructor by `insert`, `erase`, `clear` and
`operator[]` calls: `end()` is the sentinel position `table_size`; `begin() == end()` if and
only if `size() == 0`; and `size() == 0` if and only if `empty()` returns true. -/
theorem C13_begin_end_iff_empty (n : Nat) (hasher : K → Nat) (fuel : Nat)
    (ops : List (Op K V)) (m : HashMap K V)
    (hrun : (HashMap.new n hasher).exec fuel ops = some m) :
    m.pos_end = m.table_size
      ∧ (m.pos_begin = m.pos_end ↔ m.size = 0)
      ∧ (m.size = 0 ↔ m.empty = true) := by
  obtain ⟨L, habs⟩ := (exec_reachable ops (Reachable.ctor n hasher) hrun).abs
  refine ⟨habs.end_eq, ?_, ?_⟩
  · rw [habs.begin_eq_end_iff, habs.size_eq]
    exact List.length_eq_zero.symm
  · unfold HashMap.size HashMap.empty
    simp

/-- Witness of C13: the default map after `insert({1,'a'}); insert({2,'b'}); clear()`. -/
theorem C13_begin_end_iff_empty_witness :
    (HashMap.new 8 idHash).exec 20 [Op.insert (1, 'a'), Op.insert (2, 'b'), Op.clear]
        = some clearedMap
      ∧ clearedMap.pos_end = clearedMap.table_size
      ∧ (clearedMap.pos_begin = clearedMap.pos_end ↔ clearedMap.size = 0)
      ∧ (clearedMap.size = 0 ↔ clearedMap.empty = true) :=
  ⟨rfl, C13_begin_end_iff_empty 8 idHash 20
    [Op.insert (1, 'a'), Op.insert (2, 'b'), Op.clear] clearedMap rfl⟩

/-- C14. For every map produced by the public interface (a constructor, then calls of
`insert`, `erase`, `clear`, `operator[]` and `swap`): the table has `table_size` slots,
`cnt_non_deleted` is the number of slots created and not deleted, `cnt_deleted` is the number
of slots created and deleted, and `cnt_non_deleted + cnt_deleted <= table_size`. -/
theorem C14_counters_count_slots (m : HashMap K V) (hpub : Public m) :
    m.hash_table.length = m.table_size
      ∧ m.cnt_non_deleted
          = m.hash_table.countP (fun nd => nd.has_created && !nd.has_deleted)
      ∧ m.cnt_deleted = m.hash_table.countP (fun nd => nd.has_created && nd.has_deleted)
      ∧ m.cnt_non_deleted + m.cnt_deleted ≤ m.table_size := by
  have h := hpub.slots_counted
  exact ⟨h.1, h.2.1, h.2.2, h.le⟩

/-- Witness of C14: the default map after `swap` with the map `{1:'a'}` built with another
hash function. -/
theorem C14_counters_count_slots_witness :
    ((HashMap.default idHash).swap shiftMap).1.hash_table.length
        = ((HashMap.default idHash).swap shiftMap).1.table_size
      ∧ ((HashMap.default idHash).swap shiftMap).1.cnt_non_deleted
          = ((HashMap.default idHash).swap shiftMap).1.hash_table.countP
              (fun nd => nd.has_created && !nd.has_deleted)
      ∧ ((HashMap.default idHash).swap shiftMap).1.cnt_deleted
          = ((HashMap.default idHash).swap shiftMap).1.hash_table.countP
              (fun nd => nd.has_created && nd.has_deleted)
      ∧ ((HashMap.default idHash).swap shiftMap).1.cnt_non_deleted
          + ((HashMap.default idHash).swap shiftMap).1.cnt_deleted
          ≤ ((HashMap.default idHash).swap shiftMap).1.table_size :=
  C14_counters_count_slots ((HashMap.default idHash).swap shiftMap).1
    (Public.swap_this (Public.ctor 8 idHash)
      (Public.insert 20 (1, 'a') (Public.ctor 8 shiftHash) rfl))

/-- C15. For every map reached from a constructor with at least one slot by `insert`, `erase`,
`clear` and `operator[]` calls: the two checks at the top of `insert` return, and the map on
which the probe loop then starts has `cnt_non_deleted + cnt_deleted <= table_capacity <
table_size`, an Empty slot, and a probe that returns within `table_size` steps for every pair.
The same holds for the nested `insert` calls of a rebuild: whenever the test guarding a
`rehash` holds, the rebuild folds `insert` over the traversal from the fresh table, and on
every map reached along that fold the checks return and leave the map ready for the probe. -/
theorem C15_probe_starts_with_room (n : Nat) (hn : 1 ≤ n) (hasher : K → Nat) (fuel0 : Nat)
    (ops : List (Op K V)) (m : HashMap K V)
    (hrun : (HashMap.new n hasher).exec fuel0 ops = some m) :
    (∃ fuel m2, m.insert_checks fuel = some m2)
      ∧ (∀ fuel m2, m.insert_checks fuel = some m2 → ProbeReady m2)
      ∧ ∀ (L : List (K × V)), Yields m L → ∀ (num den : Nat),
          ((num = 2 ∧ den = 1 ∧ m.cnt_deleted + m.cnt_non_deleted > m.table_capacity)
            ∨ (num = 1 ∧ den = 1 ∧ 2 * (m.cnt_deleted + m.cnt_non_deleted) > m.table_capacity
                ∧ m.cnt_deleted > m.cnt_non_deleted)
            ∨ (num = 1 ∧ den = 2 ∧ 4 * m.cnt_non_deleted < m.table_capacity)) →
          (∀ fuel, m.rehash fuel num den
              = if L.length < fuel then
                  L.foldlM (fun c b => HashMap.insert fuel c b)
                    (HashMap.new (m.table_size * num / den) m.hasher)
                else none)
            ∧ ∀ (pre suf : List (K × V)), L = pre ++ suf → ∀ (fuel : Nat) (cur : HashMap K V),
                pre.foldlM (fun c b => HashMap.insert fuel c b)
                    (HashMap.new (m.table_size * num / den) m.hasher) = some cur →
                (∃ f2 m2, cur.insert_checks f2 = some m2)
                  ∧ ∀ f2 m2, cur.insert_checks f2 = some m2 → ProbeReady m2 := by
  have hreach := exec_reachable ops (Reachable.ctor n hasher) hrun
  have hts : 0 < m.table_size :=
    exec_ts_pos ops (show 0 < (HashMap.new n hasher : HashMap K V).table_size from hn) hrun
  obtain ⟨L0, habs⟩ := hreach.abs
  obtain ⟨ps, hinv, hcells⟩ := id habs
  refine ⟨hinv.checks_total, fun fuel m2 hr => habs.checks_ready hts hr, ?_⟩
  intro L hL num den htrig
  have hLL : L = L0 := habs.yields_eq hL
  subst hLL
  have hcnt := hinv.count_le
  have hlen := hinv.cnt_len
  have hcap := hinv.cap_eq
  unfold kOriginalCapacity kOriginalSize at hcap
  have hpos : 0 < m.table_size * num / den := by
    rcases htrig with ⟨hn, hd, _⟩ | ⟨hn, hd, _⟩ | ⟨hn, hd, hs⟩
    · subst hn hd; omega
    · subst hn hd; omega
    · subst hn hd; omega
  refine ⟨fun fuel => ?_, ?_⟩
  · rw [hinv.rehash_eq, hcells, ← hcells]
    simp only [HashMap.cells, List.length_map]
  · intro pre suf _ fuel cur hcur
    have hnew : Abs (HashMap.new (m.table_size * num / den) m.hasher : HashMap K V) [] :=
      ⟨[], new_inv _ _, rfl⟩
    have hcabs := (foldlM_abs _ (insert_abs fuel) pre _ [] cur hnew hcur).1
    have hcts : 0 < cur.table_size := foldlM_insert_ts_pos pre _ cur hpos hcur
    obtain ⟨psc, hinvc, _⟩ := id hcabs
    exact ⟨hinvc.checks_total, fun f2 m2 hr => hcabs.checks_ready hcts hr⟩

/-- Witness of C15: the one-slot map `{1:'a'}`, whose only slot is Occupied when `insert` is
entered; the checks rebuild it into two slots before the probe starts. -/
theorem C15_probe_starts_with_room_witness :
    (HashMap.new 8 idHash).exec 20 fillOps = some fullMap
      ∧ (∃ fuel m2, fullMap.insert_checks fuel = some m2)
      ∧ (∀ fuel m2, fullMap.insert_checks fuel = some m2 → ProbeReady m2) :=
  ⟨fillOps_exec,
    (C15_probe_starts_with_room 8 (by decide) idHash 20 fillOps fullMap fillOps_exec).1,
    (C15_probe_starts_with_room 8 (by decide) idHash 20 fillOps fullMap fillOps_exec).2.1⟩

/-- C16. For every reachable map, and every map returned by a rebuild of a reachable map:
an Occupied slot `q` holding key `k`, with `h = hasher(k) % table_size`, lies `d <
table_size` probe steps after `h` (`d` applications of `inc`, that is `(h + d) % table_size`),
the slots `(h + j) % table_size` for `j < d` are all created (none is Empty), and `find(k)`
returns `q` within `table_size` probe steps. -/
theorem C16_probe_contiguity (m : HashMap K V)
    (hreach : Reachable m
      ∨ ∃ (m0 : HashMap K V) (fuel num den : Nat),
          Reachable m0 ∧ m0.rehash fuel num den = some m)
    (q : Nat) (hocc : ((m.node q).has_created && !(m.node q).has_deleted) = true) :
    q < m.table_size
      ∧ (∃ d, d < m.table_size
          ∧ (m.inc)^[d] (m.hasher (m.node q).get_key % m.table_size) = q
          ∧ (m.hasher (m.node q).get_key % m.table_size + d) % m.table_size = q
          ∧ ∀ j, j < d →
              (m.node ((m.hasher (m.node q).get_key % m.table_size + j) % m.table_size)
                ).has_created = true)
      ∧ m.find m.table_size (m.node q).get_key = some q := by
  have habs : ∃ L, Abs m L := by
    rcases hreach with h | ⟨m0, fuel, num, den, h0, hr⟩
    · exact h.abs
    · obtain ⟨L, hL⟩ := h0.abs
      exact ⟨L, (rehash_abs hL hr).1⟩
  obtain ⟨L, ps, hinv, _⟩ := habs
  have hq : q ∈ ps := (hinv.mem_iff q).2 hocc
  have hlt := hinv.lt hq
  have hh : m.hasher (m.node q).get_key % m.table_size < m.table_size :=
    Nat.mod_lt _ (by omega)
  obtain ⟨d, hd, hreachq, hpath⟩ := hinv.contig q hq
  refine ⟨hlt, ⟨d, hd, hreachq, ?_, fun j hj => ?_⟩, hinv.find_live hq⟩
  · rw [← iter_inc_mod m d hh]
    exact hreachq
  · rw [← iter_inc_mod m j hh]
    exact hpath j hj

/-- Witness of C16: in the map `{1:'a', 9:'b'}` key 9 hashes to slot 1 and sits in slot 2. -/
theorem C16_probe_contiguity_witness :
    2 < collideMap.table_size
      ∧ (∃ d, d < collideMap.table_size
          ∧ (collideMap.inc)^[d]
              (collideMap.hasher (collideMap.node 2).get_key % collideMap.table_size) = 2
          ∧ (collideMap.hasher (collideMap.node 2).get_key % collideMap.table_size + d)
              % collideMap.table_size = 2
          ∧ ∀ j, j < d →
              (collideMap.node
                ((collideMap.hasher (collideMap.node 2).get_key % collideMap.table_size + j)
                  % collideMap.table_size)).has_created = true)
      ∧ collideMap.find collideMap.table_size (collideMap.node 2).get_key = some 2 :=
  C16_probe_contiguity collideMap
    (Or.inl (Reachable.run [Call.insert (1, 'a'), Call.insert (9, 'b')]
      (Reachable.ctor 8 idHash) collideMap_run)) 2 rfl

/-- C17. For every map reached from a constructor with at least one slot by `insert`, `erase`,
`clear` and `operator[]` calls: `table_size >= 1`, so `get_hash` is defined on every key; and
whenever the shrink test of `erase` holds, the halved slot count is at least 1, the shrink
rebuild returns, and the table it returns has exactly that slot count. -/
theorem C17_table_size_positive (n : Nat) (hn : 1 ≤ n) (hasher : K → Nat) (fuel0 : Nat)
    (ops : List (Op K V)) (m : HashMap K V)
    (hrun : (HashMap.new n hasher).exec fuel0 ops = some m) :
    1 ≤ m.table_size
      ∧ (∀ key, m.get_hash key = some (m.hasher key % m.table_size))
      ∧ (4 * m.cnt_non_deleted < m.table_capacity →
          1 ≤ m.table_size * 1 / 2
            ∧ (∃ fuel r, m.rehash fuel 1 2 = some r)
            ∧ ∀ fuel r, m.rehash fuel 1 2 = some r →
                r.table_size = m.table_size * 1 / 2 ∧ 1 ≤ r.table_size) := by
  have hreach := exec_reachable ops (Reachable.ctor n hasher) hrun
  have hts : 0 < m.table_size :=
    exec_ts_pos ops (show 0 < (HashMap.new n hasher : HashMap K V).table_size from hn) hrun
  obtain ⟨L, ps, hinv, _⟩ := hreach.abs
  refine ⟨hts, fun key => get_hash_of_pos hts key, fun hs => ?_⟩
  have hcap := hinv.cap_eq
  unfold kOriginalCapacity kOriginalSize at hcap
  have hhalf : 1 ≤ m.table_size * 1 / 2 := by omega
  obtain ⟨f1, r1, h1, hts1, _⟩ := hinv.shrink_total hs
  refine ⟨hhalf, ⟨f1, r1, h1⟩, fun fuel r hr => ?_⟩
  have := rehash_det hr h1
  subst this
  exact ⟨hts1, by omega⟩

/-- Witness of C17: the default map after `erase(0); erase(0)`, an empty two-slot table on
which the shrink test holds once more. -/
theorem C17_table_size_positive_witness :
    (HashMap.new 8 idHash).exec 20 [Op.erase 0, Op.erase 0]
        = some (HashMap.new 2 idHash : HashMap Nat Char)
      ∧ 1 ≤ (HashMap.new 2 idHash : HashMap Nat Char).table_size
      ∧ (∀ key, (HashMap.new 2 idHash : HashMap Nat Char).get_hash key
          = some ((HashMap.new 2 idHash : HashMap Nat Char).hasher key
              % (HashMap.new 2 idHash : HashMap Nat Char).table_size))
      ∧ (4 * (HashMap.new 2 idHash : HashMap Nat Char).cnt_non_deleted
            < (HashMap.new 2 idHash : HashMap Nat Char).table_capacity →
          1 ≤ (HashMap.new 2 idHash : HashMap Nat Char).table_size * 1 / 2
            ∧ (∃ fuel r, (HashMap.new 2 idHash : HashMap Nat Char).rehash fuel 1 2 = some r)
            ∧ ∀ fuel r, (HashMap.new 2 idHash : HashMap Nat Char).rehash fuel 1 2 = some r →
                r.table_size = (HashMap.new 2 idHash : HashMap Nat Char).table_size * 1 / 2
                  ∧ 1 ≤ r.table_size) :=
  ⟨rfl, C17_table_size_positive 8 (by decide) idHash 20 [Op.erase 0, Op.erase 0]
    (HashMap.new 2 idHash) rfl⟩

/-- C18 fails at the first live entry. In the map `{1:'a', 2:'b'}` built by two inserts on the
default table (8 slots, sentinel 8) the first entry is in slot 1 and `backward[1]` is 0, the
value the constructor left there: stepping backward from `begin()` lands on slot 0, an Empty
slot, not on the sentinel. After `erase(1)` the first entry is in slot 2 and `backward[2]` is
still 1, the slot of the erased entry, now a Tombstone. -/
theorem C18_backward_of_first_not_sentinel :
    (HashMap.default idHash).run 20 [Call.insert (1, 'a'), Call.insert (2, 'b')] = some twoMap
      ∧ twoMap.items 20 = some [(1, 'a'), (2, 'b')]
      ∧ twoMap.table_size = 8
      ∧ twoMap.pos_begin = 1
      ∧ ((twoMap.node 1).has_created && !(twoMap.node 1).has_deleted) = true
      ∧ twoMap.bwd 1 = 0
      ∧ twoMap.prev twoMap.pos_begin ≠ twoMap.table_size
      ∧ (twoMap.node (twoMap.prev twoMap.pos_begin)).has_created = false
      ∧ (HashMap.default idHash).run 20
          [Call.insert (1, 'a'), Call.insert (2, 'b'), Call.erase 1] = some firstErasedMap
      ∧ firstErasedMap.items 20 = some [(2, 'b')]
      ∧ firstErasedMap.table_size = 8
      ∧ firstErasedMap.pos_begin = 2
      ∧ firstErasedMap.bwd 2 = 1
      ∧ (firstErasedMap.node 1).has_deleted = true :=
  ⟨rfl, rfl, rfl, rfl, rfl, rfl, by decide, rfl, rfl, rfl, rfl, rfl, rfl, rfl⟩

/-- C18, amended. For every map that a constructor followed by the `insert` and `erase` calls
`calls` produces, the traversal `begin()..end()` returns; with `p_0, ..., p_(n-1)` the slots it
visits: the pairs stored in `p_0, ..., p_(n-1)` are, in this order, the reference list of
`calls`, that is the live entries in insertion order; these slots are exactly the Occupied
slots, each once; `begin()` is `p_0`, or the sentinel `table_size` if there is none;
`forward[p_i]` is `p_(i+1)`, the slot of the entry that follows in insertion order, and
`forward[p_(n-1)]` is the sentinel; `backward[p_(i+1)]` is `p_i`, the slot of the entry that
precedes in insertion order; and `backward[table_size]` is `p_(n-1)`.  Nothing is said of
`backward[p_0]`. -/
theorem C18_order_links (n : Nat) (hasher : K → Nat) (fuel0 : Nat) (calls : List (Call K V))
    (m : HashMap K V) (hrun : (HashMap.new n hasher).run fuel0 calls = some m) :
    (∃ fuel ps, m.slots fuel = some ps)
      ∧ ∀ fuel ps, m.slots fuel = some ps →
          (ps.map fun p => (m.node p).cell) = refRun [] calls
            ∧ (∀ p, p ∈ ps ↔ ((m.node p).has_created && !(m.node p).has_deleted) = true)
            ∧ ps.Nodup
            ∧ m.pos_begin = (ps ++ [m.table_size]).getD 0 0
            ∧ (∀ i, i < ps.length →
                m.bonds.forward.getD (ps.getD i 0) 0 = (ps ++ [m.table_size]).getD (i + 1) 0)
            ∧ (∀ i, i + 1 < ps.length →
                m.bonds.backward.getD (ps.getD (i + 1) 0) 0 = ps.getD i 0)
            ∧ (ps ≠ [] → ps.getLast? = some (m.bonds.backward.getD m.table_size 0)) := by
  have habs : Abs m (refRun [] calls) := run_abs calls ⟨[], new_inv n hasher, rfl⟩ hrun
  obtain ⟨ps0, hinv, hL⟩ := id habs
  refine ⟨⟨ps0.length + 1, ps0, by rw [hinv.slots_eq, if_pos (by omega)]⟩, ?_⟩
  intro fuel ps hps
  rw [hinv.slots_eq] at hps
  split at hps
  · have hpp : ps0 = ps := Option.some.inj hps
    subst hpp
    have hnd : ps0.Nodup := by
      have := hinv.keys
      unfold HashMap.cells at this
      exact List.Nodup.of_map _ (List.Nodup.of_map _ this)
    have hchain := hinv.chain
    refine ⟨hL, hinv.mem_iff, hnd, ?_, ?_, ?_, ?_⟩
    · cases ps0 with
      | nil =>
        have hb : m.pos_begin = m.table_size := hchain
        simp [hb]
      | cons p rest =>
        have hb : m.pos_begin = p := hchain.1
        simp [hb]
    · intro i hi
      cases ps0 with
      | nil => simp at hi
      | cons p rest => exact Tail.fwd_getD hchain.2 i hi
    · intro i hi
      cases ps0 with
      | nil => simp at hi
      | cons p rest => exact Tail.bwd_getD hchain.2 i hi
    · intro hne
      cases ps0 with
      | nil => exact absurd rfl hne
      | cons p rest => exact (Tail.bwd_end hchain.2).1
  · exact Option.noConfusion hps

/-- Witness of C18, amended: the map `{1:'a', 2:'b'}` built by two inserts, whose traversal
visits slots 1, 2. -/
theorem C18_order_links_witness :
    (∃ fuel ps, twoMap.slots fuel = some ps)
      ∧ ∀ fuel ps, twoMap.slots fuel = some ps →
          (ps.map fun p => (twoMap.node p).cell)
              = refRun [] [Call.insert (1, 'a'), Call.insert (2, 'b')]
            ∧ (∀ p, p ∈ ps
                ↔ ((twoMap.node p).has_created && !(twoMap.node p).has_deleted) = true)
            ∧ ps.Nodup
            ∧ twoMap.pos_begin = (ps ++ [twoMap.table_size]).getD 0 0
            ∧ (∀ i, i < ps.length →
                twoMap.bonds.forward.getD (ps.getD i 0) 0
                  = (ps ++ [twoMap.table_size]).getD (i + 1) 0)
            ∧ (∀ i, i + 1 < ps.length →
                twoMap.bonds.backward.getD (ps.getD (i + 1) 0) 0 = ps.getD i 0)
            ∧ (ps ≠ [] → ps.getLast? = some (twoMap.bonds.backward.getD twoMap.table_size 0)) :=
  C18_order_links 8 idHash 20 [Call.insert (1, 'a'), Call.insert (2, 'b')] twoMap twoMap_run

/-- C19. For every non-empty map reached from a constructor by `insert` and `erase` calls:
the position `backward[table_size]`, one step backward from `end()`, is an Occupied slot; it
holds the last pair of the reference list of the calls, which is the traversal of the map; it
is the last slot the traversal visits; and one step forward from it is `end()`. -/
theorem C19_backward_from_end (n : Nat) (hasher : K → Nat) (fuel0 : Nat)
    (calls : List (Call K V)) (m : HashMap K V)
    (hrun : (HashMap.new n hasher).run fuel0 calls = some m) (hne : m.empty = false) :
    ((m.node (m.prev m.pos_end)).has_created && !(m.node (m.prev m.pos_end)).has_deleted)
        = true
      ∧ m.prev m.pos_end = m.bwd m.table_size
      ∧ (refRun ([] : List (K × V)) calls).getLast? = some (m.node (m.prev m.pos_end)).cell
      ∧ Yields m (refRun [] calls)
      ∧ (∀ fuel ps, m.slots fuel = some ps → ps.getLast? = some (m.prev m.pos_end))
      ∧ m.next (m.prev m.pos_end) = m.pos_end := by
  have habs : Abs m (refRun [] calls) := run_abs calls ⟨[], new_inv n hasher, rfl⟩ hrun
  obtain ⟨ps, hinv, hL⟩ := id habs
  have hcnt : m.cnt_non_deleted ≠ 0 := by
    unfold HashMap.empty at hne
    simpa using hne
  have hend := hinv.end_eq
  have hchain := hinv.chain
  have hlen := hinv.cnt_len
  cases ps with
  | nil => exact absurd hlen hcnt
  | cons p rest =>
    obtain ⟨hlast, hfwd⟩ := Tail.bwd_end hchain.2
    have hprev : m.prev m.pos_end = m.bwd m.table_size := by
      unfold HashMap.prev
      rw [hend]
    refine ⟨?_, hprev, ?_, habs.yields, ?_, ?_⟩
    · rw [hprev]
      exact (hinv.mem_iff _).1 (List.mem_of_getLast?_eq_some hlast)
    · rw [← hL, hprev]
      unfold HashMap.cells
      rw [List.getLast?_map, hlast]
      rfl
    · intro fuel ps2 hps
      rw [hinv.slots_eq] at hps
      split at hps
      · rw [← Option.some.inj hps, hprev]
        exact hlast
      · exact Option.noConfusion hps
    · rw [hprev, hend]
      exact hfwd

/-- Witness of C19: the map `{1:'a', 2:'b'}`; one step backward from `end()` is slot 2. -/
theorem C19_backward_from_end_witness :
    twoMap.empty = false
      ∧ ((twoMap.node (twoMap.prev twoMap.pos_end)).has_created
          && !(twoMap.node (twoMap.prev twoMap.pos_end)).has_deleted) = true
      ∧ twoMap.prev twoMap.pos_end = twoMap.bwd twoMap.table_size
      ∧ (refRun ([] : List (Nat × Char)) [Call.insert (1, 'a'), Call.insert (2, 'b')]).getLast?
          = some (twoMap.node (twoMap.prev twoMap.pos_end)).cell
      ∧ Yields twoMap (refRun [] [Call.insert (1, 'a'), Call.insert (2, 'b')])
      ∧ (∀ fuel ps, twoMap.slots fuel = some ps → ps.getLast? = some (twoMap.prev twoMap.pos_end))
      ∧ twoMap.next (twoMap.prev twoMap.pos_end) = twoMap.pos_end :=
  ⟨rfl, C19_backward_from_end 8 idHash 20 [Call.insert (1, 'a'), Call.insert (2, 'b')] twoMap
    twoMap_run rfl⟩

/-- C20. For every reachable map and pair: `insert` returns if the table has a slot at all,
and for every returning call, with the counters read on entry:
if `cnt_deleted + cnt_non_deleted > table_capacity`, the table is rebuilt by `rehash(2)`
(which keeps `size()`), and after the call `table_size` is twice the old one and
`cnt_deleted` is 0;
otherwise, if `2 * (cnt_deleted + cnt_non_deleted) > table_capacity` and `cnt_deleted >
cnt_non_deleted`, the table is rebuilt by `rehash(1)`, and after the call `table_size` is
the old one and `cnt_deleted` is 0;
otherwise `table_size` and `cnt_deleted` are unchanged.
In every case `table_capacity` is `table_size * 6 / 8` after the call, and the traversal and
`size()` after the call are those of the reference insert: the rebuild itself changes
neither. -/
theorem C20_insert_resize_policy (m : HashMap K V) (hreach : Reachable m) (bond : K × V) :
    (0 < m.table_size → ∃ fuel m3, HashMap.insert fuel m bond = some m3)
      ∧ ∀ fuel m3, HashMap.insert fuel m bond = some m3 →
          (m.cnt_deleted + m.cnt_non_deleted > m.table_capacity →
              (∃ f m2, m.rehash f 2 1 = some m2 ∧ m2.size = m.size)
                ∧ m3.table_size = 2 * m.table_size ∧ m3.cnt_deleted = 0)
            ∧ (¬ m.cnt_deleted + m.cnt_non_deleted > m.table_capacity →
                (2 * (m.cnt_deleted + m.cnt_non_deleted) > m.table_capacity
                  ∧ m.cnt_deleted > m.cnt_non_deleted) →
                (∃ f m2, m.rehash f 1 1 = some m2 ∧ m2.size = m.size)
                  ∧ m3.table_size = m.table_size ∧ m3.cnt_deleted = 0)
            ∧ (¬ m.cnt_deleted + m.cnt_non_deleted > m.table_capacity →
                ¬ (2 * (m.cnt_deleted + m.cnt_non_deleted) > m.table_capacity
                  ∧ m.cnt_deleted > m.cnt_non_deleted) →
                m3.table_size = m.table_size ∧ m3.cnt_deleted = m.cnt_deleted)
            ∧ m3.table_capacity = m3.table_size * 6 / 8
            ∧ ∀ L, Yields m L →
                Yields m3 (refInsert L bond) ∧ m3.size = (refInsert L bond).length := by
  obtain ⟨L0, habs⟩ := hreach.abs
  obtain ⟨ps, hinv, hcells⟩ := id habs
  refine ⟨fun hts => hinv.insert_total hts bond, fun fuel m3 hins => ?_⟩
  have habs3 := (insert_abs _ _ _ _ _ habs hins).1
  have hcap3 : m3.table_capacity = m3.table_size * 6 / 8 := by
    obtain ⟨ps3, hinv3, _⟩ := id habs3
    exact hinv3.cap_eq
  have hsem : ∀ L, Yields m L →
      Yields m3 (refInsert L bond) ∧ m3.size = (refInsert L bond).length := by
    intro L hL
    have hLL : L = L0 := habs.yields_eq hL
    subst hLL
    exact ⟨habs3.yields, habs3.size_eq⟩
  cases fuel with
  | zero =>
    unfold HashMap.insert at hins
    exact Option.noConfusion hins
  | succ f =>
    rw [insert_succ] at hins
    obtain ⟨m2, hchecks, hrest⟩ := Option.bind_eq_some.1 hins
    obtain ⟨h, _, hloop⟩ := Option.bind_eq_some.1 hrest
    obtain ⟨hts3, hdel3⟩ := insertLoop_frame hloop
    obtain ⟨habs2, _, _, hg, hc, hnone⟩ := hinv.checks_spec hchecks
    have hsize2 : m2.size = m.size := by
      rw [habs2.size_eq, habs.size_eq, hcells]
    refine ⟨fun hgd => ?_, fun hgd hcd => ?_, fun hgd hcd => ?_, hcap3, hsem⟩
    · obtain ⟨hr, ht, hd⟩ := hg hgd
      exact ⟨⟨f, m2, hr, hsize2⟩, by rw [hts3, ht], by rw [hdel3, hd]⟩
    · obtain ⟨hr, ht, hd⟩ := hc hgd hcd
      exact ⟨⟨f, m2, hr, hsize2⟩, by rw [hts3, ht], by rw [hdel3, hd]⟩
    · have hm := hnone hgd hcd
      subst hm
      exact ⟨hts3, hdel3⟩

/-- Witness of C20: the eighth insert into the default table, which holds seven entries and
has capacity 6. -/
theorem C20_insert_resize_policy_witness :
    (0 < sevenMap.table_size → ∃ fuel m3, HashMap.insert fuel sevenMap (8, 'a') = some m3)
      ∧ ∀ fuel m3, HashMap.insert fuel sevenMap (8, 'a') = some m3 →
          (sevenMap.cnt_deleted + sevenMap.cnt_non_deleted > sevenMap.table_capacity →
              (∃ f m2, sevenMap.rehash f 2 1 = some m2 ∧ m2.size = sevenMap.size)
                ∧ m3.table_size = 2 * sevenMap.table_size ∧ m3.cnt_deleted = 0)
            ∧ (¬ sevenMap.cnt_deleted + sevenMap.cnt_non_deleted > sevenMap.table_capacity →
                (2 * (sevenMap.cnt_deleted + sevenMap.cnt_non_deleted) > sevenMap.table_capacity
                  ∧ sevenMap.cnt_deleted > sevenMap.cnt_non_deleted) →
                (∃ f m2, sevenMap.rehash f 1 1 = some m2 ∧ m2.size = sevenMap.size)
                  ∧ m3.table_size = sevenMap.table_size ∧ m3.cnt_deleted = 0)
            ∧ (¬ sevenMap.cnt_deleted + sevenMap.cnt_non_deleted > sevenMap.table_capacity →
                ¬ (2 * (sevenMap.cnt_deleted + sevenMap.cnt_non_deleted)
                    > sevenMap.table_capacity
                  ∧ sevenMap.cnt_deleted > sevenMap.cnt_non_deleted) →
                m3.table_size = sevenMap.table_size ∧ m3.cnt_deleted = sevenMap.cnt_deleted)
            ∧ m3.table_capacity = m3.table_size * 6 / 8
            ∧ ∀ L, Yields sevenMap L →
                Yields m3 (refInsert L (8, 'a')) ∧ m3.size = (refInsert L (8, 'a')).length :=
  C20_insert_resize_policy sevenMap
    (Reachable.run sevenCalls (Reachable.ctor 8 idHash) sevenCalls_run) (8, 'a')

end MoreClaims

end HashMap123
